import Mathlib

/-!
# gotree: traversal and filtering engine

A shallow embedding of `internal/config`, `internal/filter`,
`internal/walker` and the tree rendering of `internal/format` of the gotree
repository, followed by theorems about the filter decision, the counts, the
depth gate, the ordering of children, cycle handling, termination and error
handling of the walk, relative paths, symlinks and the rendered lines.

Conventions of the embedding.

* Go `string` is `String`; `[]string` is `List String`; Go `int` is `Int` for
  `MaxDepth` and the traversal depth, and `Nat` for the three counters, which
  only ever grow by one per allocated `Node` and so cannot wrap around.
* The operating system and the libraries the code calls (`os`, `path/filepath`,
  `strings`, `doublestar`, `go-gitignore`) are not part of the repository.
  They are the fields of `Env`: every theorem holds for every behaviour of
  these calls unless a hypothesis restricts it.
* `*Node` trees are built by mutation in Go (`append` to `node.Children`,
  `child.IsDir = true`); here `buildTree` returns the updated node together
  with the updated visited set and counts.
* `buildTree` recurses over the file system, so the embedding carries a fuel
  argument: `none` means the fuel ran out, never a result of the Go code.
-/

namespace Gotree

/-! ## internal/config -/

/-- Runtime options (`config.Config`). -/
structure Config where
  Root : String
  Output : String
  Exclude : List String
  ExcludeDir : List String
  ExcludeFile : List String
  MaxDepth : Int
  UseGitignore : Bool
  FollowSymlinks : Bool
  ExcludeHidden : Bool

/-! ## The environment: operating system and library calls -/

/-- Go `error` values; only their presence matters to the code. -/
abbrev Error := String

/-- What the code reads from an `os.FileInfo`: `IsDir()` and
`Mode()&os.ModeSymlink != 0`. -/
structure FileInfo where
  IsDir : Bool
  IsSymlink : Bool

/-- What the code reads from an `os.DirEntry`: `Name()` and `IsDir()`. -/
structure DirEntry where
  Name : String
  IsDir : Bool

/-- The calls the repository makes outside itself. -/
structure Env where
  /-- The call `filepath.Abs`. -/
  Abs : String → Except Error String
  /-- The call `os.Lstat`. -/
  Lstat : String → Except Error FileInfo
  /-- The call `os.Stat`, which follows a final symlink. -/
  Stat : String → Except Error FileInfo
  /-- The call `os.ReadDir`; an error result stands for `err != nil`. -/
  ReadDir : String → Except Error (List DirEntry)
  /-- The call `os.Readlink`. -/
  Readlink : String → Except Error String
  /-- The call `filepath.EvalSymlinks`. -/
  EvalSymlinks : String → Except Error String
  /-- The call `filepath.Clean`. -/
  Clean : String → String
  /-- The call `filepath.Base`. -/
  Base : String → String
  /-- The call `filepath.ToSlash`. -/
  ToSlash : String → String
  /-- The call `strings.ToLower`. -/
  ToLower : String → String
  /-- The call `doublestar.PathMatch` with its error dropped, as in `pathMatch`. -/
  PathMatch : String → String → Bool

/-- The library function `filepath.Join` on two elements: empty elements are
ignored, the rest is joined with the separator and cleaned. The elements are
joined with a slash here: `Clean` reads a slash as a separator on every host
and writes the separator of the host, so the cleaned result is the same. -/
def filepathJoin (env : Env) (a b : String) : String :=
  if a ≠ "" then env.Clean (a ++ "/" ++ b)
  else if b ≠ "" then env.Clean b
  else ""

/-- The library function `strings.HasPrefix`. -/
def stringsHasPrefix (s pre : String) : Bool :=
  pre.data.isPrefixOf s.data

/-- Go's `<` on strings (lexicographic), computed on the character lists. -/
def stringLessList : List Char → List Char → Bool
  | [], [] => false
  | [], _ :: _ => true
  | _ :: _, [] => false
  | a :: as, b :: bs =>
    if a.toNat < b.toNat then true
    else if b.toNat < a.toNat then false
    else stringLessList as bs

/-- Go's `a < b` on strings. -/
def stringLess (a b : String) : Bool :=
  stringLessList a.data b.data

/-- Insertion of `x` into a sorted list, after the elements that are not
greater than it. -/
def sortInsert {α : Type} (less : α → α → Bool) (x : α) : List α → List α
  | [] => [x]
  | y :: ys => if less x y then x :: y :: ys else y :: sortInsert less x ys

/-- The library function `sort.Slice`, as insertion sort by `less`: the
elements are taken from left to right and each is inserted into the sorted
part before it. Go only promises a permutation sorted by `less`; the order
of elements that compare equal is not specified by the library. -/
def sortSlice {α : Type} (less : α → α → Bool) (xs : List α) : List α :=
  xs.foldl (fun acc x => sortInsert less x acc) []

/-! ## internal/filter -/

/-- A filesystem entry for filtering decisions (`filter.Entry`). -/
structure Entry where
  Path : String
  Rel : String
  Name : String
  IsDir : Bool
  IsSymlink : Bool

/-- Exclude logic and optional compiled matcher (`filter.Filter`). The field
`gitIgnore` is `none` for a nil pointer and otherwise holds the compiled
matcher's `MatchesPath`. -/
structure Filter where
  cfg : Config
  root : String
  gitIgnore : Option (String → Bool)
  hasGitFile : Bool

/-- The function `toSlash` of filter.go. -/
def toSlash (env : Env) (p : String) : String :=
  if p = "" then p else env.ToSlash p

/-- The function `pathMatch` of filter.go. -/
def pathMatch (env : Env) (pattern path : String) : Bool :=
  env.PathMatch pattern path

/-- The `for` loop of `matchAny`, with `rel` already slash-normalised. -/
def matchAnyLoop (env : Env) (name rel : String) : List String → Bool
  | [] => false
  | p :: ps =>
    if p = "" then matchAnyLoop env name rel ps
    else if pathMatch env p name || pathMatch env p rel then true
    else matchAnyLoop env name rel ps

/-- The function `matchAny` of filter.go. -/
def matchAny (env : Env) (patterns : List String) (name rel : String) : Bool :=
  matchAnyLoop env name (toSlash env rel) patterns

/-- The gitignore test of `ShouldExclude`: enabled, file present, matcher
compiled, and the matcher matches the relative path. -/
def gitIgnoreMatches (f : Filter) (e : Entry) : Bool :=
  if f.cfg.UseGitignore && f.hasGitFile then
    match f.gitIgnore with
    | some m => m e.Rel
    | none => false
  else false

/-- The method `Filter.ShouldExclude`. -/
def ShouldExclude (env : Env) (f : Filter) (e : Entry) : Bool :=
  if f.cfg.ExcludeHidden && stringsHasPrefix e.Name "." then true
  else if gitIgnoreMatches f e then true
  else if e.IsDir && matchAny env f.cfg.ExcludeDir e.Name e.Rel then true
  else if !e.IsDir && matchAny env f.cfg.ExcludeFile e.Name e.Rel then true
  else if matchAny env f.cfg.Exclude e.Name e.Rel then true
  else false

/-! ## internal/walker -/

/-- A tree element (`walker.Node`). -/
structure Node where
  Name : String
  Rel : String
  IsDir : Bool
  IsSymlink : Bool
  LinkTarget : String
  Children : List Node

/-- Aggregate counts (`walker.Counts`). -/
structure Counts where
  Dirs : Nat
  Files : Nat
  Symlinks : Nat

/-- The set of `visitedSet`, as the list of its members. -/
abbrev visitedSet := List String

/-- The function `newVisited`. -/
def newVisited : visitedSet := []

/-- The method `visitedSet.Add`. -/
def visitedSet.Add (v : visitedSet) (path : String) : visitedSet :=
  path :: v

/-- The method `visitedSet.Seen`. -/
def visitedSet.Seen (v : visitedSet) (path : String) : Bool :=
  v.contains path

/-- The function `canonicalPath`. -/
def canonicalPath (env : Env) (p : String) : Except Error String :=
  match env.Abs p with
  | .error err => .error err
  | .ok abs =>
    match env.EvalSymlinks abs with
    | .error _ => .ok abs
    | .ok real => if real = "" then .error "empty canonical path" else .ok real

/-- The statement `node.Children = append(node.Children, child)`. -/
def Node.appendChild (node child : Node) : Node :=
  { node with Children := node.Children ++ [child] }

/-- The counter updates of `buildTree` for one appended child. -/
def Counts.bump (counts : Counts) (isDir isSymlink : Bool) : Counts :=
  let counts := if isSymlink then { counts with Symlinks := counts.Symlinks + 1 } else counts
  if isDir then { counts with Dirs := counts.Dirs + 1 }
  else { counts with Files := counts.Files + 1 }

/-- What a call of `buildTree` leaves behind: the node it was given, with the
children it appended, the visited set, the counts, and the returned error. -/
structure BuildResult where
  node : Node
  visited : visitedSet
  counts : Counts
  err : Option Error

/-- The test `filt != nil && filt.ShouldExclude(e)`. -/
def pruned (env : Env) (filt : Option Filter) (e : Entry) : Bool :=
  match filt with
  | none => false
  | some f => ShouldExclude env f e

/-- The recursive call of `buildTree` on a child and what the loop does with
its result: the child, as the call left it, is the last child of `node`; an
error is returned at once, otherwise the loop goes on with `k`. -/
def descend (recur : String → Node → Int → visitedSet → Counts → Option BuildResult)
    (k : Node → visitedSet → Counts → Option BuildResult)
    (node : Node) (childAbs : String) (child : Node) (nextDepth : Int)
    (visited : visitedSet) (counts : Counts) : Option BuildResult :=
  match recur childAbs child nextDepth visited counts with
  | none => none
  | some r =>
    match r.err with
    | some err => some ⟨node.appendChild r.node, r.visited, r.counts, some err⟩
    | none => k (node.appendChild r.node) r.visited r.counts

/-- The `for _, de := range entries` loop of `buildTree`; `recur` is the
recursive call of `buildTree`. -/
def buildEntries (env : Env) (cfg : Config) (filt : Option Filter)
    (recur : String → Node → Int → visitedSet → Counts → Option BuildResult)
    (absPath : String) (depth : Int) :
    List DirEntry → Node → visitedSet → Counts → Option BuildResult
  | [], node, visited, counts => some ⟨node, visited, counts, none⟩
  | de :: rest, node, visited, counts =>
    let continue_ := buildEntries env cfg filt recur absPath depth rest
    let name := de.Name
    let childAbs := filepathJoin env absPath name
    let rel :=
      if node.Rel ≠ "." then env.ToSlash (filepathJoin env node.Rel name)
      else env.ToSlash name
    match env.Lstat childAbs with
    | .error _ => continue_ node visited counts
    | .ok fi =>
      let isSymlink := fi.IsSymlink
      let isDir := de.IsDir
      let linkTarget :=
        if isSymlink then
          match env.Readlink childAbs with
          | .ok tgt => tgt
          | .error _ => ""
        else ""
      let e : Entry := ⟨childAbs, rel, name, isDir, isSymlink⟩
      if pruned env filt e then continue_ node visited counts
      else
        let child : Node := ⟨name, rel, isDir, isSymlink, linkTarget, []⟩
        let counts := counts.bump isDir isSymlink
        let nextAbs := childAbs
        let nextDepth := depth + 1
        if isSymlink then
          if cfg.FollowSymlinks then
            match env.Stat childAbs with
            | .error _ => continue_ (node.appendChild child) visited counts
            | .ok targetInfo =>
              if targetInfo.IsDir then
                match canonicalPath env childAbs with
                | .error _ => continue_ (node.appendChild child) visited counts
                | .ok real =>
                  if visited.Seen real then continue_ (node.appendChild child) visited counts
                  else
                    let visited := visited.Add real
                    if cfg.MaxDepth = 0 ∨ nextDepth ≤ cfg.MaxDepth then
                      descend recur continue_ node childAbs { child with IsDir := true }
                        nextDepth visited counts
                    else continue_ (node.appendChild child) visited counts
              else continue_ (node.appendChild child) visited counts
          else continue_ (node.appendChild child) visited counts
        else if isDir then
          match canonicalPath env nextAbs with
          | .ok real =>
            if visited.Seen real then continue_ (node.appendChild child) visited counts
            else descend recur continue_ node nextAbs child nextDepth (visited.Add real) counts
          | .error _ => descend recur continue_ node nextAbs child nextDepth visited counts
        else continue_ (node.appendChild child) visited counts

/-- The less function handed to `sort.Slice` in `buildTree`. -/
def entryLess (env : Env) (a b : DirEntry) : Bool :=
  stringLess (env.ToLower a.Name) (env.ToLower b.Name)

/-- The function `buildTree`. The first argument is the fuel: one unit per
nested call. -/
def buildTree (env : Env) (cfg : Config) (filt : Option Filter) :
    Nat → String → Node → Int → visitedSet → Counts → Option BuildResult
  | 0, _, _, _, _, _ => none
  | fuel + 1, absPath, node, depth, visited, counts =>
    if !node.IsDir then some ⟨node, visited, counts, none⟩
    else if 0 < cfg.MaxDepth ∧ cfg.MaxDepth ≤ depth then some ⟨node, visited, counts, none⟩
    else
      match env.ReadDir absPath with
      | .error _ => some ⟨node, visited, counts, none⟩
      | .ok entries =>
        buildEntries env cfg filt (buildTree env cfg filt fuel) absPath depth
          (sortSlice (entryLess env) entries) node visited counts

/-- The three results of `Walk`: the tree (`none` for nil), the counts and
the error. -/
structure WalkResult where
  tree : Option Node
  counts : Counts
  err : Option Error

/-- The function `Walk`. The first argument is the fuel of `buildTree`. -/
def Walk (env : Env) (fuel : Nat) (rootPath : String) (cfg : Config)
    (filt : Option Filter) : Option WalkResult :=
  let counts : Counts := ⟨0, 0, 0⟩
  match env.Abs rootPath with
  | .error err => some ⟨none, counts, some err⟩
  | .ok absRoot =>
    match env.Lstat absRoot with
    | .error err => some ⟨none, counts, some err⟩
    | .ok st =>
      let isSymlink := st.IsSymlink
      let rootRel := "."
      let rootNode : Node := ⟨env.Base absRoot, rootRel, st.IsDir, isSymlink, "", []⟩
      let counts :=
        if isSymlink then { counts with Symlinks := counts.Symlinks + 1 } else counts
      let rootNode :=
        if isSymlink then
          match env.Readlink absRoot with
          | .ok tgt => { rootNode with LinkTarget := tgt }
          | .error _ => rootNode
        else rootNode
      let counts :=
        if rootNode.IsDir then { counts with Dirs := counts.Dirs + 1 }
        else { counts with Files := counts.Files + 1 }
      let visited := newVisited
      match buildTree env cfg filt fuel absRoot rootNode 0 visited counts with
      | none => none
      | some r =>
        match r.err with
        | some err => some ⟨none, r.counts, some err⟩
        | none => some ⟨some r.node, r.counts, none⟩

/-! ## Notions used to state the properties -/

mutual
/-- All nodes of a tree, the node itself first (depth-first pre-order). -/
def Node.nodes : Node → List Node
  | ⟨name, rel, isDir, isSymlink, linkTarget, children⟩ =>
    ⟨name, rel, isDir, isSymlink, linkTarget, children⟩ :: nodesOfList children
/-- All nodes of a list of trees. -/
def nodesOfList : List Node → List Node
  | [] => []
  | c :: cs => c.nodes ++ nodesOfList cs
end

/-- The nodes of a tree other than its root. -/
def Node.descendants (n : Node) : List Node :=
  nodesOfList n.Children

/-- The number of nodes of a tree, root included. -/
def Node.size (n : Node) : Nat :=
  n.nodes.length

/-- The nodes at distance exactly `k` (in parent links) from the root `n`. -/
def Node.nodesAt : Nat → Node → List Node
  | 0, n => [n]
  | k + 1, n => n.Children.flatMap (Node.nodesAt k)

/-- The `Entry` that `buildTree` hands to the filter for a node, given the
absolute path and the raw directory flag of the listing. -/
def Node.entry (n : Node) (path : String) (rawIsDir : Bool) : Entry :=
  ⟨path, n.Rel, n.Name, rawIsDir, n.IsSymlink⟩

/-! ## The loop body of `buildTree` as a decision

`entryAction` reads the branches of the loop body as one of three outcomes;
`buildEntries_cons` proves that the loop acts on exactly this outcome, and the
proofs below reason about the outcome instead of the nested branches. -/

/-- The root-relative path `buildTree` computes for the entry `name` of `node`. -/
def entryRel (env : Env) (node : Node) (name : String) : String :=
  if node.Rel ≠ "." then env.ToSlash (filepathJoin env node.Rel name)
  else env.ToSlash name

/-- The link target text `buildTree` records for an entry. -/
def entryLinkTarget (env : Env) (childAbs : String) (isSymlink : Bool) : String :=
  if isSymlink then
    match env.Readlink childAbs with
    | .ok tgt => tgt
    | .error _ => ""
  else ""

/-- What one iteration of the loop of `buildTree` does with an entry. -/
inductive Action where
  | skip
  | leaf (child : Node) (visited : visitedSet) (counts : Counts)
  | expand (child : Node) (visited : visitedSet) (counts : Counts)

/-- The decision of one loop iteration of `buildTree`, read off the branches
of the loop body: skip the entry, append a childless node, or append a node
and call `buildTree` on it. -/
def entryAction (env : Env) (cfg : Config) (filt : Option Filter) (absPath : String)
    (depth : Int) (de : DirEntry) (node : Node) (visited : visitedSet) (counts : Counts) :
    Action :=
  let childAbs := filepathJoin env absPath de.Name
  let rel := entryRel env node de.Name
  match env.Lstat childAbs with
  | .error _ => .skip
  | .ok fi =>
    if pruned env filt ⟨childAbs, rel, de.Name, de.IsDir, fi.IsSymlink⟩ then .skip
    else
      let child : Node :=
        ⟨de.Name, rel, de.IsDir, fi.IsSymlink, entryLinkTarget env childAbs fi.IsSymlink, []⟩
      let counts := counts.bump de.IsDir fi.IsSymlink
      if fi.IsSymlink then
        if cfg.FollowSymlinks then
          match env.Stat childAbs with
          | .error _ => .leaf child visited counts
          | .ok targetInfo =>
            if targetInfo.IsDir then
              match canonicalPath env childAbs with
              | .error _ => .leaf child visited counts
              | .ok real =>
                if visited.Seen real then .leaf child visited counts
                else if cfg.MaxDepth = 0 ∨ depth + 1 ≤ cfg.MaxDepth then
                  .expand { child with IsDir := true } (visited.Add real) counts
                else .leaf child (visited.Add real) counts
            else .leaf child visited counts
        else .leaf child visited counts
      else if de.IsDir then
        match canonicalPath env childAbs with
        | .ok real =>
          if visited.Seen real then .leaf child visited counts
          else .expand child (visited.Add real) counts
        | .error _ => .expand child visited counts
      else .leaf child visited counts

/-- The root node `Walk` builds before it calls `buildTree`. -/
def rootNodeOf (env : Env) (absRoot : String) (st : FileInfo) : Node :=
  ⟨env.Base absRoot, ".", st.IsDir, st.IsSymlink, entryLinkTarget env absRoot st.IsSymlink, []⟩

/-- The counts `Walk` holds before it calls `buildTree`. -/
def rootCountsOf (st : FileInfo) : Counts :=
  (⟨0, 0, 0⟩ : Counts).bump st.IsDir st.IsSymlink

/-! ## Concrete file systems -/

/-- One path of a concrete file system: what `Lstat`, `Stat`, `ReadDir`,
`Readlink` and `EvalSymlinks` answer for it (`none` is an error). -/
structure FsRow where
  path : String
  info : FileInfo
  target : Option FileInfo
  listing : Option (List DirEntry)
  link : Option String
  real : Option String

/-- The row of a path in a table. -/
def lookupRow (rows : List FsRow) (p : String) : Option FsRow :=
  rows.find? (fun r => r.path = p)

/-- The answer of a system call read from a table; a missing path or a
missing answer is an error. -/
def answer {α : Type} (rows : List FsRow) (field : FsRow → Option α) (p : String) :
    Except Error α :=
  match lookupRow rows p with
  | none => .error "no such file or directory"
  | some r =>
    match field r with
    | none => .error "invalid argument"
    | some a => .ok a

/-- ASCII lower-casing, for the concrete file systems. -/
def asciiLower (s : String) : String :=
  String.mk (s.data.map Char.toLower)

/-- The last slash-separated component of a path. -/
def lastSegment : List Char → List Char → List Char
  | acc, [] => acc
  | acc, c :: rest => if c = '/' then lastSegment [] rest else lastSegment (acc ++ [c]) rest

/-- A POSIX environment over a table of paths: absolute clean paths are
their own `Abs` and `Clean`, `ToSlash` is the identity, and a pattern without
wildcards matches exactly itself. -/
def tableEnv (rows : List FsRow) : Env where
  Abs := fun p => .ok p
  Lstat := answer rows (fun r => some r.info)
  Stat := answer rows (fun r => r.target)
  ReadDir := answer rows (fun r => r.listing)
  Readlink := answer rows (fun r => r.link)
  EvalSymlinks := answer rows (fun r => r.real)
  Clean := fun p => p
  Base := fun p => String.mk (lastSegment [] p.data)
  ToSlash := fun p => p
  ToLower := asciiLower
  PathMatch := fun pattern path => pattern = path

/-- A regular directory row. -/
def dirRow (path : String) (listing : List DirEntry) : FsRow :=
  ⟨path, ⟨true, false⟩, some ⟨true, false⟩, some listing, none, some path⟩

/-- A regular file row. -/
def fileRow (path : String) : FsRow :=
  ⟨path, ⟨false, false⟩, some ⟨false, false⟩, none, none, some path⟩

/-- The example of the specification: `/root` holds `node_modules/` (with a
file inside) and `src/main.go`. -/
def exampleEnv : Env :=
  tableEnv
    [dirRow "/root" [⟨"node_modules", true⟩, ⟨"src", true⟩],
     dirRow "/root/node_modules" [⟨"pkg.js", false⟩],
     fileRow "/root/node_modules/pkg.js",
     dirRow "/root/src" [⟨"main.go", false⟩],
     fileRow "/root/src/main.go"]

/-- A configuration with every option off and no patterns. -/
def plainConfig (root : String) : Config :=
  ⟨root, "./TREE.md", [], [], [], 0, false, false, false⟩

/-- The configuration of the example: `exclude-dir = ["node_modules"]`. -/
def exampleConfig : Config :=
  { plainConfig "/root" with ExcludeDir := ["node_modules"] }

/-- The filter `filter.New` returns for a configuration without gitignore. -/
def plainFilter (root : String) (cfg : Config) : Filter :=
  ⟨cfg, root, none, false⟩

/-- A directory whose listing (in byte order, as `os.ReadDir` returns it)
is not in case-insensitive order. -/
def mixedCaseEnv : Env :=
  tableEnv
    [dirRow "/d" [⟨"B", false⟩, ⟨"a", false⟩, ⟨"c", true⟩],
     fileRow "/d/B",
     fileRow "/d/a",
     dirRow "/d/c" [⟨"Z", false⟩, ⟨"y", false⟩],
     fileRow "/d/c/Z",
     fileRow "/d/c/y"]

/-- The tree `Walk` returns on `mixedCaseEnv`. -/
def mixedCaseTree : Node :=
  ⟨"d", ".", true, false, "",
    [⟨"a", "a", false, false, "", []⟩,
     ⟨"B", "B", false, false, "", []⟩,
     ⟨"c", "c", true, false, "",
       [⟨"y", "c/y", false, false, "", []⟩, ⟨"Z", "c/Z", false, false, "", []⟩]⟩]⟩

/-- The number of members of `known` that are not in the visited set: the
termination measure of `buildTree`. -/
def unvisitedCount (known : List String) (v : visitedSet) : Nat :=
  (known.filter (fun c => !v.Seen c)).length

/-- The paths of the cyclic file system below `/r`: `some false` for a
sequence of `/a/up`, `some true` for such a sequence followed by `/a`. -/
def cycleShape : List Char → Option Bool
  | [] => some false
  | '/' :: 'a' :: [] => some true
  | '/' :: 'a' :: '/' :: 'u' :: 'p' :: rest => cycleShape rest
  | _ => none

/-- The paths of the cyclic file system: `/r`, then `/a/up` any number of
times, then possibly `/a`. -/
def cyclePath (p : String) : Option Bool :=
  match p.data with
  | '/' :: 'r' :: rest => cycleShape rest
  | _ => none

/-- A file system with a symlink to an ancestor: the directory `/r` holds the
directory `a`, and `/r/a` holds the symlink `up -> ..` whose target is `/r`.
Every path `/r/a/up/a/up/...` exists. -/
def cycleEnv : Env where
  Abs := fun p => .ok p
  Lstat := fun p =>
    match cyclePath p with
    | some true => .ok ⟨true, false⟩
    | some false => if p = "/r" then .ok ⟨true, false⟩ else .ok ⟨false, true⟩
    | none => .error "no such file or directory"
  Stat := fun p =>
    match cyclePath p with
    | some _ => .ok ⟨true, false⟩
    | none => .error "no such file or directory"
  ReadDir := fun p =>
    match cyclePath p with
    | some true => .ok [⟨"up", false⟩]
    | some false => .ok [⟨"a", true⟩]
    | none => .error "no such file or directory"
  Readlink := fun p =>
    match cyclePath p with
    | some false => if p = "/r" then .error "invalid argument" else .ok ".."
    | _ => .error "invalid argument"
  EvalSymlinks := fun p =>
    match cyclePath p with
    | some true => .ok "/r/a"
    | some false => .ok "/r"
    | none => .error "no such file or directory"
  Clean := fun p => p
  Base := fun p => String.mk (lastSegment [] p.data)
  ToSlash := fun p => p
  ToLower := asciiLower
  PathMatch := fun pattern path => pattern = path

/-- The plain configuration with follow-symlinks enabled. -/
def followConfig (root : String) : Config :=
  { plainConfig root with FollowSymlinks := true }

/-- The tree `Walk` returns on `cycleEnv` with follow-symlinks enabled. -/
def cycleTree : Node :=
  ⟨"r", ".", true, false, "",
    [⟨"a", "a", true, false, "",
      [⟨"up", "a/up", true, true, "..",
        [⟨"a", "a/up/a", true, false, "", []⟩]⟩]⟩]⟩

/-- The paths of the self-loop file system below `/r`: any number of `/loop`. -/
def loopShape : List Char → Bool
  | [] => true
  | '/' :: 'l' :: 'o' :: 'o' :: 'p' :: rest => loopShape rest
  | _ => false

/-- The paths of the self-loop file system. -/
def loopPath (p : String) : Bool :=
  match p.data with
  | '/' :: 'r' :: rest => loopShape rest
  | _ => false

/-- A file system whose root directory `/r` holds the symlink `loop -> .`,
whose target is `/r` itself. -/
def loopEnv : Env where
  Abs := fun p => .ok p
  Lstat := fun p =>
    if loopPath p then (if p = "/r" then .ok ⟨true, false⟩ else .ok ⟨false, true⟩)
    else .error "no such file or directory"
  Stat := fun p =>
    if loopPath p then .ok ⟨true, false⟩ else .error "no such file or directory"
  ReadDir := fun p =>
    if loopPath p then .ok [⟨"loop", false⟩] else .error "no such file or directory"
  Readlink := fun p =>
    if loopPath p then (if p = "/r" then .error "invalid argument" else .ok ".")
    else .error "invalid argument"
  EvalSymlinks := fun p =>
    if loopPath p then .ok "/r" else .error "no such file or directory"
  Clean := fun p => p
  Base := fun p => String.mk (lastSegment [] p.data)
  ToSlash := fun p => p
  ToLower := asciiLower
  PathMatch := fun pattern path => pattern = path

/-- The tree `Walk` returns on `loopEnv` with follow-symlinks enabled. -/
def loopTree : Node :=
  ⟨"r", ".", true, false, "",
    [⟨"loop", "loop", true, true, ".",
      [⟨"loop", "loop/loop", false, true, ".", []⟩]⟩]⟩

/-- The filter with its hidden-exclusion option set to `b`, all else equal. -/
def Filter.withHidden (f : Filter) (b : Bool) : Filter :=
  { f with cfg := { f.cfg with ExcludeHidden := b } }

/-- A directory with a hidden directory, a hidden file and a plain file. -/
def hiddenEnv : Env :=
  tableEnv
    [dirRow "/h" [⟨".git", true⟩, ⟨".env", false⟩, ⟨"a.txt", false⟩],
     dirRow "/h/.git" [⟨"config", false⟩],
     fileRow "/h/.git/config",
     fileRow "/h/.env",
     fileRow "/h/a.txt"]

/-- The tree of `hiddenEnv` with hidden-exclusion enabled. -/
def hiddenTreeOn : Node :=
  ⟨"h", ".", true, false, "", [⟨"a.txt", "a.txt", false, false, "", []⟩]⟩

/-- The tree of `hiddenEnv` with hidden-exclusion disabled. -/
def hiddenTreeOff : Node :=
  ⟨"h", ".", true, false, "",
    [⟨".env", ".env", false, false, "", []⟩,
     ⟨".git", ".git", true, false, "",
       [⟨"config", ".git/config", false, false, "", []⟩]⟩,
     ⟨"a.txt", "a.txt", false, false, "", []⟩]⟩

/-! ## The entries reachable without crossing a symlink -/

/-- The key `buildTree` uses for a directory in the visited set, if
`canonicalPath` gives one. -/
def canonicalKey (env : Env) (p : String) : Option String :=
  match canonicalPath env p with
  | .ok real => some real
  | .error _ => none

/-- In the words of the specification: one node per entry of a fully readable
directory, in the given order, each with the entries reachable below it
without crossing a symlink. `recur` gives the tree below a directory that is
not a symlink; a symlink is a childless node. The second component lists the
absolute paths of the directories entered. The result is `none` when an entry
cannot be inspected. -/
def reachableChildren (env : Env) (recur : String → Node → Option (Node × List String))
    (absPath parentRel : String) : List DirEntry → Option (List Node × List String)
  | [] => some ([], [])
  | de :: rest =>
    let childAbs := filepathJoin env absPath de.Name
    let rel :=
      if parentRel ≠ "." then env.ToSlash (filepathJoin env parentRel de.Name)
      else env.ToSlash de.Name
    match env.Lstat childAbs with
    | .error _ => none
    | .ok fi =>
      let child : Node :=
        ⟨de.Name, rel, de.IsDir, fi.IsSymlink, entryLinkTarget env childAbs fi.IsSymlink, []⟩
      let below : Option (Node × List String) :=
        if de.IsDir && !fi.IsSymlink then
          match recur childAbs child with
          | none => none
          | some (t, dirs) => some (t, childAbs :: dirs)
        else some (child, [])
      match below with
      | none => none
      | some (t, dirs) =>
        match reachableChildren env recur absPath parentRel rest with
        | none => none
        | some (ts, dirs') => some (t :: ts, dirs ++ dirs')

/-- In the words of the specification: the tree of the entries reachable from
the directory `absPath` without crossing a symlink, as children of `node`,
sorted by case-insensitive name, together with the absolute paths of the
directories entered below it. The result is `none` when a directory cannot be
listed or the fuel runs out. -/
def reachableTree (env : Env) : Nat → String → Node → Option (Node × List String)
  | 0, _, _ => none
  | fuel + 1, absPath, node =>
    match env.ReadDir absPath with
    | .error _ => none
    | .ok entries =>
      match reachableChildren env (reachableTree env fuel) absPath node.Rel
          (sortSlice (entryLess env) entries) with
      | none => none
      | some (kids, dirs) => some ({ node with Children := kids }, dirs)

/-- The reachable tree of a traversal root: the root node alone when the
root is not a directory. -/
def reachableFromRoot (env : Env) (fuel : Nat) (absRoot : String) (st : FileInfo) :
    Option (Node × List String) :=
  if st.IsDir then reachableTree env fuel absRoot (rootNodeOf env absRoot st)
  else some (rootNodeOf env absRoot st, [])

/-- The symlink example of the specification, seen from `/w/root`: the root
holds `link -> ../outside`, and `/w/outside` is a directory holding `a.txt`. -/
def linkEnv : Env :=
  tableEnv
    [dirRow "/w/root" [⟨"link", false⟩],
     ⟨"/w/root/link", ⟨false, true⟩, some ⟨true, false⟩, some [⟨"a.txt", false⟩],
       some "../outside", some "/w/outside"⟩,
     ⟨"/w/root/link/a.txt", ⟨false, false⟩, some ⟨false, false⟩, none, none,
       some "/w/outside/a.txt"⟩,
     dirRow "/w/outside" [⟨"a.txt", false⟩],
     fileRow "/w/outside/a.txt"]

/-- The entries of `linkEnv` reachable from the root without crossing a
symlink: the root and the link. -/
def linkReachable : Node :=
  ⟨"root", ".", true, false, "", [⟨"link", "link", false, true, "../outside", []⟩]⟩

/-- The tree `Walk` returns on `linkEnv` with follow-symlinks enabled. -/
def linkTreeFollowed : Node :=
  ⟨"root", ".", true, false, "",
    [⟨"link", "link", true, true, "../outside",
      [⟨"a.txt", "link/a.txt", false, false, "", []⟩]⟩]⟩

/-- The entries of `exampleEnv` reachable from `/root`. -/
def exampleReachable : Node :=
  ⟨"root", ".", true, false, "",
    [⟨"node_modules", "node_modules", true, false, "",
       [⟨"pkg.js", "node_modules/pkg.js", false, false, "", []⟩]⟩,
     ⟨"src", "src", true, false, "", [⟨"main.go", "src/main.go", false, false, "", []⟩]⟩]⟩

/-- The example file system seen from a process whose working directory
cannot be determined, so that `filepath.Abs` fails. -/
def noCwdEnv : Env :=
  { exampleEnv with Abs := fun _ => .error "getwd: no such file or directory" }

/-- A directory `/p` holding the unreadable directory `locked` (its listing
fails) and the file `z.txt`. -/
def lockedEnv : Env :=
  tableEnv
    [dirRow "/p" [⟨"locked", true⟩, ⟨"z.txt", false⟩],
     ⟨"/p/locked", ⟨true, false⟩, some ⟨true, false⟩, none, none, some "/p/locked"⟩,
     fileRow "/p/z.txt"]

/-- The tree `Walk` returns on `lockedEnv`. -/
def lockedTree : Node :=
  ⟨"p", ".", true, false, "",
    [⟨"locked", "locked", true, false, "", []⟩, ⟨"z.txt", "z.txt", false, false, "", []⟩]⟩

/-- The number of nodes of a tree, root included, that satisfy `P`. -/
def Node.count (P : Node → Bool) (n : Node) : Nat :=
  n.nodes.countP P

/-! ## Entries below a hidden directory -/

/-- A directory `/h` holding the hidden directory `.git` (with `config`) and
the symlink `.a -> .git`. -/
def hiddenLinkEnv : Env :=
  tableEnv
    [dirRow "/h" [⟨".a", false⟩, ⟨".git", true⟩],
     ⟨"/h/.a", ⟨false, true⟩, some ⟨true, false⟩, some [⟨"config", false⟩], some ".git",
       some "/h/.git"⟩,
     ⟨"/h/.a/config", ⟨false, false⟩, some ⟨false, false⟩, none, none,
       some "/h/.git/config"⟩,
     dirRow "/h/.git" [⟨"config", false⟩],
     fileRow "/h/.git/config"]

/-- The tree `Walk` returns on `hiddenLinkEnv` with follow-symlinks enabled
and hidden-exclusion disabled. -/
def hiddenLinkTree : Node :=
  ⟨"h", ".", true, false, "",
    [⟨".a", ".a", true, true, ".git", [⟨"config", ".a/config", false, false, "", []⟩]⟩,
     ⟨".git", ".git", true, false, "", []⟩]⟩

/-- The tree holds the entry reached from its root through the names `path`:
a chain of children with these names. -/
def Node.hasPath : List String → Node → Prop
  | [], _ => True
  | name :: rest, n => ∃ c ∈ n.Children, c.Name = name ∧ Node.hasPath rest c

/-- The entry reached from the directory `absPath` through the names `path`
exists: each name is listed in the directory before it and can be inspected,
and every entry on the way but the last is a directory and not a symlink. -/
def entryBelow (env : Env) : String → List String → Prop
  | _, [] => True
  | absPath, name :: rest =>
    ∃ entries de fi, env.ReadDir absPath = .ok entries ∧ de ∈ entries ∧ de.Name = name ∧
      env.Lstat (filepathJoin env absPath name) = .ok fi ∧
      (rest ≠ [] → de.IsDir = true ∧ fi.IsSymlink = false) ∧
      entryBelow env (filepathJoin env absPath name) rest

/-! ## Relative paths -/

/-- A single path component on a host whose separator is `sep`, as
`os.ReadDir` returns them: not empty, not `.` or `..`, and without a slash and
without a separator. -/
def plainName (sep : Char) (s : String) : Bool :=
  decide (s ≠ "") && decide (s ≠ ".") && decide (s ≠ "..") && !(s.data.contains '/') &&
    !(s.data.contains sep)

/-- The library function `filepath.ToSlash` on a host whose separator is
`sep`, by its documentation: each separator is replaced by a slash. -/
def slashed (sep : Char) (s : String) : String :=
  String.mk (s.data.map (fun c => if c = sep then '/' else c))

/-- The library function `filepath.FromSlash` on a host whose separator is
`sep`: each slash is replaced by a separator. -/
def unslashed (sep : Char) (s : String) : String :=
  String.mk (s.data.map (fun c => if c = '/' then sep else c))

/-- A relative path of an entry below the root: single path components
joined by slashes. -/
inductive goodRel (sep : Char) : String → Prop
  | single (b : String) : plainName sep b = true → goodRel sep b
  | join (a b : String) : goodRel sep a → plainName sep b = true → goodRel sep (a ++ "/" ++ b)

/-- In the words of the specification: the relative path of an entry `name`
whose parent has the relative path `parentRel`; the root's `.` counts as
empty. -/
def joinedRel (parentRel name : String) : String :=
  if parentRel = "." then name else parentRel ++ "/" ++ name

/-- The last component of a path whose separator is the backslash. -/
def lastBackslashSegment : List Char → List Char → List Char
  | acc, [] => acc
  | acc, c :: rest =>
    if c = '\\' then lastBackslashSegment [] rest else lastBackslashSegment (acc ++ [c]) rest

/-- The example file system on a host whose separator is the backslash:
`C:\w` holds `src\main.go`. On clean paths `filepath.Clean` only replaces the
slashes by backslashes, and `filepath.ToSlash` replaces the backslashes by
slashes. -/
def backslashEnv : Env :=
  { tableEnv
      [dirRow "C:\\w" [⟨"src", true⟩],
       dirRow "C:\\w\\src" [⟨"main.go", false⟩],
       fileRow "C:\\w\\src\\main.go"] with
    Clean := unslashed '\\'
    ToSlash := slashed '\\'
    Base := fun p => String.mk (lastBackslashSegment [] p.data) }

/-- The tree `Walk` returns on `backslashEnv`. -/
def backslashTree : Node :=
  ⟨"w", ".", true, false, "",
    [⟨"src", "src", true, false, "", [⟨"main.go", "src/main.go", false, false, "", []⟩]⟩]⟩

/-! ## internal/format -/

/-- The function `depthString`; `toString` stands for `fmt.Sprintf("%d", n)`. -/
def depthString (n : Int) : String :=
  if n ≤ 0 then "unlimited" else toString n

/-- The label `renderTree` and `renderSubtree` compute for a node (the same
statements appear three times in markdown.go): the name, then `/` for a
directory, then ` -> ` and the target for a symlink with a non-empty target. -/
def nodeLabel (node : Node) : String :=
  let label := node.Name
  let label := if node.IsDir then label ++ "/" else label
  if node.IsSymlink && decide (node.LinkTarget ≠ "") then label ++ (" -> " ++ node.LinkTarget)
  else label

mutual
/-- The function `renderSubtree`; the buffer is the string written so far. -/
def renderSubtree : String → Node → String → String
  | b, ⟨_, _, _, _, _, children⟩, pfx => renderSubtreeLoop b pfx children
/-- The `for i, child := range node.Children` loop of `renderSubtree`, on the
children from index `i` on; `last` holds when no child remains after it. -/
def renderSubtreeLoop : String → String → List Node → String
  | b, _, [] => b
  | b, pfx, child :: rest =>
    let last := rest.isEmpty
    let conn := if last then "└── " else "├── "
    let nextPfx := if last then pfx ++ "    " else pfx ++ "│   "
    let b := b ++ (pfx ++ conn ++ nodeLabel child ++ "\n")
    let b := if child.Children.length > 0 then renderSubtree b child nextPfx else b
    renderSubtreeLoop b pfx rest
end

/-- The `for i, child := range node.Children` loop of `renderTree`. -/
def renderTreeLoop : String → String → List Node → String
  | b, _, [] => b
  | b, pfx, child :: rest =>
    let last := rest.isEmpty
    let conn := if last then "└── " else "├── "
    let nextPfx := if last then pfx ++ "    " else pfx ++ "│   "
    let b := b ++ (pfx ++ conn ++ nodeLabel child ++ "\n")
    let b := if child.Children.length > 0 then renderSubtree b child nextPfx else b
    renderTreeLoop b pfx rest

/-- The function `renderTree`. -/
def renderTree (b : String) (node : Node) (pfx : String) (isRoot : Bool) : String :=
  let label := nodeLabel node
  let b := if isRoot then b ++ (label ++ "\n") else b ++ (pfx ++ label ++ "\n")
  let n := node.Children.length
  if n = 0 then b
  else renderTreeLoop b pfx node.Children

/-- The concatenation of a list of lines. -/
def joinLines : List String → String
  | [] => ""
  | l :: ls => l ++ joinLines ls

/-! ## Lines of a text -/

/-- The lines of a text from the character list `rest`, where `acc` holds the
characters of the current line read so far: every line break ends a line, and
text after the last line break is a last line when it is not empty. -/
def splitLines : List Char → List Char → List String
  | acc, [] => if acc.isEmpty then [] else [String.mk acc]
  | acc, c :: rest =>
    if c = '\n' then String.mk acc :: splitLines [] rest
    else splitLines (acc ++ [c]) rest

/-- The lines of a text, without their line breaks. -/
def linesOf (s : String) : List String :=
  splitLines [] s.data

/-- A directory `/r` holding one file whose name contains a line break. -/
def brokenNameEnv : Env :=
  tableEnv [dirRow "/r" [⟨"a\nb", false⟩], fileRow "/r/a\nb"]

/-- The tree `Walk` returns on `brokenNameEnv`. -/
def brokenNameTree : Node :=
  ⟨"r", ".", true, false, "", [⟨"a\nb", "a\nb", false, false, "", []⟩]⟩

/-! ## Theorems -/

/-- One iteration of the loop of `buildTree` acts on the outcome `entryAction`
gives for the entry. -/
theorem buildEntries_cons (env : Env) (cfg : Config) (filt : Option Filter)
    (recur : String → Node → Int → visitedSet → Counts → Option BuildResult)
    (absPath : String) (depth : Int) (de : DirEntry) (rest : List DirEntry)
    (node : Node) (visited : visitedSet) (counts : Counts) :
    buildEntries env cfg filt recur absPath depth (de :: rest) node visited counts =
      match entryAction env cfg filt absPath depth de node visited counts with
      | .skip => buildEntries env cfg filt recur absPath depth rest node visited counts
      | .leaf child v c =>
        buildEntries env cfg filt recur absPath depth rest (node.appendChild child) v c
      | .expand child v c =>
        descend recur (buildEntries env cfg filt recur absPath depth rest) node
          (filepathJoin env absPath de.Name) child (depth + 1) v c := by
  simp only [buildEntries, entryAction, entryRel, entryLinkTarget]
  generalize (if node.Rel ≠ "." then env.ToSlash (filepathJoin env node.Rel de.Name)
    else env.ToSlash de.Name) = rel
  cases env.Lstat (filepathJoin env absPath de.Name) with
  | error e => rfl
  | ok fi =>
    simp only
    generalize (if fi.IsSymlink = true then
      (match env.Readlink (filepathJoin env absPath de.Name) with
        | .ok tgt => tgt
        | .error _ => "") else "") = tgt
    by_cases hp : pruned env filt
        ⟨filepathJoin env absPath de.Name, rel, de.Name, de.IsDir, fi.IsSymlink⟩ = true
    · rw [if_pos hp, if_pos hp]
    · rw [if_neg hp, if_neg hp]
      cases hs : fi.IsSymlink with
      | true =>
        simp only [if_true]
        cases hf : cfg.FollowSymlinks with
        | false => simp
        | true =>
          simp only [if_true]
          cases env.Stat (filepathJoin env absPath de.Name) with
          | error e => rfl
          | ok ti =>
            simp only
            cases ti.IsDir with
            | false => simp
            | true =>
              simp only [if_true]
              cases canonicalPath env (filepathJoin env absPath de.Name) with
              | error e => rfl
              | ok real =>
                simp only
                by_cases hseen : visited.Seen real = true
                · rw [if_pos hseen, if_pos hseen]
                · rw [if_neg hseen, if_neg hseen]
                  by_cases hd : cfg.MaxDepth = 0 ∨ depth + 1 ≤ cfg.MaxDepth
                  · rw [if_pos hd, if_pos hd]
                  · rw [if_neg hd, if_neg hd]
      | false =>
        simp only [Bool.false_eq_true, if_false]
        cases de.IsDir with
        | false => simp
        | true =>
          simp only [if_true]
          cases canonicalPath env (filepathJoin env absPath de.Name) with
          | error e => rfl
          | ok real =>
            simp only
            by_cases hseen : visited.Seen real = true
            · rw [if_pos hseen, if_pos hseen]
            · rw [if_neg hseen, if_neg hseen]


/-- The proof rule for the loop of `buildTree`, given a contract `C` of the
recursive call: an invariant `L` that holds at the end of the listing and is
carried back over each of the three outcomes holds for the whole loop. -/
theorem buildEntries_rule (env : Env) (cfg : Config) (filt : Option Filter)
    (recur : String → Node → Int → visitedSet → Counts → Option BuildResult)
    (C : Int → String → Node → visitedSet → Counts → BuildResult → Prop)
    (L : Int → String → List DirEntry → Node → visitedSet → Counts → BuildResult → Prop)
    (h_rec : ∀ p n d v c r, recur p n d v c = some r → C d p n v c r ∧ r.err = none)
    (h_nil : ∀ d p n v c, L d p [] n v c ⟨n, v, c, none⟩)
    (h_skip : ∀ d p de rest n v c r, entryAction env cfg filt p d de n v c = .skip →
      L d p rest n v c r → L d p (de :: rest) n v c r)
    (h_leaf : ∀ d p de rest n v c r ch v' c',
      entryAction env cfg filt p d de n v c = .leaf ch v' c' →
      L d p rest (n.appendChild ch) v' c' r → L d p (de :: rest) n v c r)
    (h_expand : ∀ d p de rest n v c r ch v' c' rc,
      entryAction env cfg filt p d de n v c = .expand ch v' c' →
      C (d + 1) (filepathJoin env p de.Name) ch v' c' rc → rc.err = none →
      L d p rest (n.appendChild rc.node) rc.visited rc.counts r → L d p (de :: rest) n v c r)
    (p : String) (d : Int) :
    ∀ (entries : List DirEntry) (n : Node) (v : visitedSet) (c : Counts) (r : BuildResult),
      buildEntries env cfg filt recur p d entries n v c = some r →
      L d p entries n v c r ∧ r.err = none := by
  intro entries
  induction entries with
  | nil =>
    intro n v c r h
    simp only [buildEntries, Option.some.injEq] at h
    subst h
    exact ⟨h_nil d p n v c, rfl⟩
  | cons de rest ih =>
    intro n v c r h
    rw [buildEntries_cons] at h
    cases ha : entryAction env cfg filt p d de n v c with
    | skip =>
      rw [ha] at h
      have := ih n v c r h
      exact ⟨h_skip d p de rest n v c r ha this.1, this.2⟩
    | leaf ch v' c' =>
      rw [ha] at h
      have := ih (n.appendChild ch) v' c' r h
      exact ⟨h_leaf d p de rest n v c r ch v' c' ha this.1, this.2⟩
    | expand ch v' c' =>
      rw [ha] at h
      simp only [descend] at h
      cases hr : recur (filepathJoin env p de.Name) ch (d + 1) v' c' with
      | none => rw [hr] at h; exact absurd h (by simp)
      | some rc =>
        rw [hr] at h
        have hrc := h_rec _ _ _ _ _ _ hr
        simp only [hrc.2] at h
        have := ih _ _ _ r h
        exact ⟨h_expand d p de rest n v c r ch v' c' rc ha hrc.1 hrc.2 this.1, this.2⟩

/-- The proof rule for `buildTree`, by induction on the fuel: a contract `C`
that holds for the three early returns and follows from the loop invariant
`L` holds for every call that returns, and the returned error is nil. -/
theorem buildTree_rule (env : Env) (cfg : Config) (filt : Option Filter)
    (C : Int → String → Node → visitedSet → Counts → BuildResult → Prop)
    (L : Int → String → List DirEntry → Node → visitedSet → Counts → BuildResult → Prop)
    (h_ret : ∀ d p n v c,
      (n.IsDir = false ∨ (0 < cfg.MaxDepth ∧ cfg.MaxDepth ≤ d) ∨ ∃ e, env.ReadDir p = .error e) →
      C d p n v c ⟨n, v, c, none⟩)
    (h_loop : ∀ d p n v c entries r, n.IsDir = true → ¬(0 < cfg.MaxDepth ∧ cfg.MaxDepth ≤ d) →
      env.ReadDir p = .ok entries → L d p (sortSlice (entryLess env) entries) n v c r →
      C d p n v c r)
    (h_nil : ∀ d p n v c, L d p [] n v c ⟨n, v, c, none⟩)
    (h_skip : ∀ d p de rest n v c r, entryAction env cfg filt p d de n v c = .skip →
      L d p rest n v c r → L d p (de :: rest) n v c r)
    (h_leaf : ∀ d p de rest n v c r ch v' c',
      entryAction env cfg filt p d de n v c = .leaf ch v' c' →
      L d p rest (n.appendChild ch) v' c' r → L d p (de :: rest) n v c r)
    (h_expand : ∀ d p de rest n v c r ch v' c' rc,
      entryAction env cfg filt p d de n v c = .expand ch v' c' →
      C (d + 1) (filepathJoin env p de.Name) ch v' c' rc → rc.err = none →
      L d p rest (n.appendChild rc.node) rc.visited rc.counts r → L d p (de :: rest) n v c r) :
    ∀ (fuel : Nat) (p : String) (n : Node) (d : Int) (v : visitedSet) (c : Counts)
      (r : BuildResult),
      buildTree env cfg filt fuel p n d v c = some r → C d p n v c r ∧ r.err = none := by
  intro fuel
  induction fuel with
  | zero => intro p n d v c r h; simp [buildTree] at h
  | succ fuel ih =>
    intro p n d v c r h
    simp only [buildTree] at h
    cases hd : n.IsDir with
    | false =>
      simp only [hd, Bool.not_false, if_true, Option.some.injEq] at h
      subst h
      exact ⟨h_ret d p n v c (Or.inl hd), rfl⟩
    | true =>
      simp only [hd, Bool.not_true, Bool.false_eq_true, if_false] at h
      by_cases hg : 0 < cfg.MaxDepth ∧ cfg.MaxDepth ≤ d
      · rw [if_pos hg] at h
        simp only [Option.some.injEq] at h
        subst h
        exact ⟨h_ret d p n v c (Or.inr (Or.inl hg)), rfl⟩
      · rw [if_neg hg] at h
        cases hrd : env.ReadDir p with
        | error e =>
          rw [hrd] at h
          simp only [Option.some.injEq] at h
          subst h
          exact ⟨h_ret d p n v c (Or.inr (Or.inr ⟨e, hrd⟩)), rfl⟩
        | ok entries =>
          rw [hrd] at h
          have := buildEntries_rule env cfg filt (buildTree env cfg filt fuel) C L
            (fun p n d v c r hr => ih p n d v c r hr) h_nil h_skip h_leaf h_expand p d _ n v c r h
          exact ⟨h_loop d p n v c entries r hd hg hrd this.1, this.2⟩

theorem Node.nodes_eq (n : Node) : n.nodes = n :: nodesOfList n.Children := by
  cases n
  simp [Node.nodes]

theorem nodesOfList_append (xs ys : List Node) :
    nodesOfList (xs ++ ys) = nodesOfList xs ++ nodesOfList ys := by
  induction xs with
  | nil => simp [nodesOfList]
  | cons x xs ih => simp [nodesOfList, ih]

theorem mem_nodesOfList {m : Node} {cs : List Node} :
    m ∈ nodesOfList cs ↔ ∃ c ∈ cs, m ∈ c.nodes := by
  induction cs with
  | nil => simp [nodesOfList]
  | cons c cs ih => simp [nodesOfList, ih]

theorem matchAnyLoop_iff (env : Env) (name rel : String) (patterns : List String) :
    matchAnyLoop env name rel patterns = true ↔
      ∃ p ∈ patterns, p ≠ "" ∧ (env.PathMatch p name = true ∨ env.PathMatch p rel = true) := by
  induction patterns with
  | nil => simp [matchAnyLoop]
  | cons p ps ih =>
    have hstep : matchAnyLoop env name rel (p :: ps) =
        if p = "" then matchAnyLoop env name rel ps
        else if (env.PathMatch p name || env.PathMatch p rel) = true then true
        else matchAnyLoop env name rel ps := rfl
    rw [hstep]
    by_cases hp : p = ""
    · rw [if_pos hp, ih]
      constructor
      · rintro ⟨q, hq, h⟩; exact ⟨q, List.mem_cons_of_mem _ hq, h⟩
      · rintro ⟨q, hq, hne, h⟩
        rcases List.mem_cons.mp hq with hq | hq
        · exact absurd (hq ▸ hp) hne
        · exact ⟨q, hq, hne, h⟩
    · rw [if_neg hp]
      by_cases hm : (env.PathMatch p name || env.PathMatch p rel) = true
      · rw [if_pos hm]
        refine ⟨fun _ => ⟨p, List.mem_cons_self _ _, hp, ?_⟩, fun _ => rfl⟩
        simpa using hm
      · rw [if_neg hm, ih]
        constructor
        · rintro ⟨q, hq, h⟩; exact ⟨q, List.mem_cons_of_mem _ hq, h⟩
        · rintro ⟨q, hq, hne, h⟩
          rcases List.mem_cons.mp hq with hq | hq
          · subst hq
            exact absurd (by simpa using h) hm
          · exact ⟨q, hq, hne, h⟩

/-- C1: `ShouldExclude` returns true exactly when the hidden rule, the
gitignore rule, the type-specific pattern rule or the general pattern rule
applies; a pattern matches an entry when it is not the empty string and
`doublestar.PathMatch` accepts the base name or the slash-normalised relative
path. -/
theorem ShouldExclude_iff (env : Env) (f : Filter) (e : Entry) :
    ShouldExclude env f e = true ↔
      (f.cfg.ExcludeHidden = true ∧ stringsHasPrefix e.Name "." = true) ∨
      (f.cfg.UseGitignore = true ∧ f.hasGitFile = true ∧
        ∃ m, f.gitIgnore = some m ∧ m e.Rel = true) ∨
      ((e.IsDir = true ∧ ∃ p ∈ f.cfg.ExcludeDir, p ≠ "" ∧
          (env.PathMatch p e.Name = true ∨ env.PathMatch p (toSlash env e.Rel) = true)) ∨
        (e.IsDir = false ∧ ∃ p ∈ f.cfg.ExcludeFile, p ≠ "" ∧
          (env.PathMatch p e.Name = true ∨ env.PathMatch p (toSlash env e.Rel) = true))) ∨
      (∃ p ∈ f.cfg.Exclude, p ≠ "" ∧
        (env.PathMatch p e.Name = true ∨ env.PathMatch p (toSlash env e.Rel) = true)) := by
  have hg : gitIgnoreMatches f e = true ↔
      (f.cfg.UseGitignore = true ∧ f.hasGitFile = true ∧
        ∃ m, f.gitIgnore = some m ∧ m e.Rel = true) := by
    unfold gitIgnoreMatches
    cases f.cfg.UseGitignore <;> cases f.hasGitFile <;> cases f.gitIgnore <;> simp
  simp only [← matchAnyLoop_iff, ← hg]
  unfold ShouldExclude matchAny
  cases f.cfg.ExcludeHidden <;> cases stringsHasPrefix e.Name "." <;>
    cases gitIgnoreMatches f e <;> cases e.IsDir <;>
    cases matchAnyLoop env e.Name (toSlash env e.Rel) f.cfg.ExcludeDir <;>
    cases matchAnyLoop env e.Name (toSlash env e.Rel) f.cfg.ExcludeFile <;>
    cases matchAnyLoop env e.Name (toSlash env e.Rel) f.cfg.Exclude <;> simp

theorem entryAction_skip {env : Env} {cfg : Config} {filt : Option Filter} {p : String}
    {d : Int} {de : DirEntry} {n : Node} {v : visitedSet} {c : Counts}
    (h : entryAction env cfg filt p d de n v c = .skip) :
    (∃ e, env.Lstat (filepathJoin env p de.Name) = .error e) ∨
    ∃ fi, env.Lstat (filepathJoin env p de.Name) = .ok fi ∧
      pruned env filt ⟨filepathJoin env p de.Name, entryRel env n de.Name, de.Name, de.IsDir,
        fi.IsSymlink⟩ = true := by
  unfold entryAction at h
  cases hl : env.Lstat (filepathJoin env p de.Name) with
  | error e => exact Or.inl ⟨e, rfl⟩
  | ok fi =>
    refine Or.inr ⟨fi, rfl, ?_⟩
    simp only [hl] at h
    by_contra hp
    rw [if_neg hp] at h
    revert h
    cases fi.IsSymlink <;> cases cfg.FollowSymlinks <;> cases de.IsDir <;>
      simp only [Bool.false_eq_true, if_false, if_true] <;>
      (repeat' split) <;> simp

theorem entryAction_leaf {env : Env} {cfg : Config} {filt : Option Filter} {p : String}
    {d : Int} {de : DirEntry} {n : Node} {v : visitedSet} {c : Counts}
    {ch : Node} {v' : visitedSet} {c' : Counts}
    (h : entryAction env cfg filt p d de n v c = .leaf ch v' c') :
    ∃ fi, env.Lstat (filepathJoin env p de.Name) = .ok fi ∧
      pruned env filt ⟨filepathJoin env p de.Name, entryRel env n de.Name, de.Name, de.IsDir,
        fi.IsSymlink⟩ = false ∧
      ch = ⟨de.Name, entryRel env n de.Name, de.IsDir, fi.IsSymlink,
        entryLinkTarget env (filepathJoin env p de.Name) fi.IsSymlink, []⟩ ∧
      c' = c.bump de.IsDir fi.IsSymlink ∧
      (v' = v ∨ ∃ real, v' = v.Add real) := by
  unfold entryAction at h
  cases hl : env.Lstat (filepathJoin env p de.Name) with
  | error e => simp [hl] at h
  | ok fi =>
    simp only [hl] at h
    by_cases hp : pruned env filt ⟨filepathJoin env p de.Name, entryRel env n de.Name, de.Name,
        de.IsDir, fi.IsSymlink⟩ = true
    · rw [if_pos hp] at h; simp at h
    · rw [if_neg hp] at h
      refine ⟨fi, rfl, by simpa using hp, ?_⟩
      revert h
      cases fi.IsSymlink <;> cases cfg.FollowSymlinks <;> cases de.IsDir <;>
        simp only [Bool.false_eq_true, if_false, if_true] <;>
        (repeat' split) <;> intro h <;> simp only [Action.leaf.injEq, reduceCtorEq] at h <;>
        (obtain ⟨h1, h2, h3⟩ := h; subst h1 h2 h3; simp)

theorem entryAction_expand {env : Env} {cfg : Config} {filt : Option Filter} {p : String}
    {d : Int} {de : DirEntry} {n : Node} {v : visitedSet} {c : Counts}
    {ch : Node} {v' : visitedSet} {c' : Counts}
    (h : entryAction env cfg filt p d de n v c = .expand ch v' c') :
    ∃ fi, env.Lstat (filepathJoin env p de.Name) = .ok fi ∧
      pruned env filt ⟨filepathJoin env p de.Name, entryRel env n de.Name, de.Name, de.IsDir,
        fi.IsSymlink⟩ = false ∧
      ch = ⟨de.Name, entryRel env n de.Name, true, fi.IsSymlink,
        entryLinkTarget env (filepathJoin env p de.Name) fi.IsSymlink, []⟩ ∧
      c' = c.bump de.IsDir fi.IsSymlink ∧
      (fi.IsSymlink = false → de.IsDir = true) ∧
      (fi.IsSymlink = true → cfg.FollowSymlinks = true ∧
        (cfg.MaxDepth = 0 ∨ d + 1 ≤ cfg.MaxDepth)) ∧
      ((∃ real, canonicalPath env (filepathJoin env p de.Name) = .ok real ∧
          v.Seen real = false ∧ v' = v.Add real) ∨
        ((∃ e, canonicalPath env (filepathJoin env p de.Name) = .error e) ∧ v' = v ∧
          fi.IsSymlink = false)) := by
  unfold entryAction at h
  cases hl : env.Lstat (filepathJoin env p de.Name) with
  | error e => simp [hl] at h
  | ok fi =>
    simp only [hl] at h
    by_cases hp : pruned env filt ⟨filepathJoin env p de.Name, entryRel env n de.Name, de.Name,
        de.IsDir, fi.IsSymlink⟩ = true
    · rw [if_pos hp] at h; simp at h
    · rw [if_neg hp] at h
      refine ⟨fi, rfl, by simpa using hp, ?_⟩
      revert h
      cases hcp : canonicalPath env (filepathJoin env p de.Name) <;>
      cases fi.IsSymlink <;> cases cfg.FollowSymlinks <;> cases de.IsDir <;>
        simp only [Bool.false_eq_true, if_false, if_true] <;>
        (repeat' split) <;> intro h <;> simp only [Action.expand.injEq, reduceCtorEq] at h <;>
        (obtain ⟨h1, h2, h3⟩ := h; subst h1 h2 h3; simp_all)

theorem Node.appendChild_children (n ch : Node) :
    (n.appendChild ch).Children = n.Children ++ [ch] := rfl

theorem Node.with_children_nil (n : Node) :
    n = { n with Children := n.Children ++ [] } := by
  cases n; simp

/-- A call of `buildTree` only appends children to its node and only adds to
the visited set. -/
theorem buildTree_frame (env : Env) (cfg : Config) (filt : Option Filter)
    (fuel : Nat) (p : String) (n : Node) (d : Int) (v : visitedSet) (c : Counts)
    (r : BuildResult) (h : buildTree env cfg filt fuel p n d v c = some r) :
    ((∃ new, r.node = { n with Children := n.Children ++ new }) ∧ ∀ x ∈ v, x ∈ r.visited) ∧
      r.err = none := by
  refine buildTree_rule env cfg filt
    (fun _ _ n v _ r => (∃ new, r.node = { n with Children := n.Children ++ new }) ∧
      ∀ x ∈ v, x ∈ r.visited)
    (fun _ _ _ n v _ r => (∃ new, r.node = { n with Children := n.Children ++ new }) ∧
      ∀ x ∈ v, x ∈ r.visited)
    ?_ ?_ ?_ ?_ ?_ ?_ fuel p n d v c r h
  · intro d p n v c _
    exact ⟨⟨[], n.with_children_nil⟩, fun x hx => hx⟩
  · intro d p n v c entries r _ _ _ hL
    exact hL
  · intro d p n v c
    exact ⟨⟨[], n.with_children_nil⟩, fun x hx => hx⟩
  · intro d p de rest n v c r _ hL
    exact hL
  · intro d p de rest n v c r ch v' c' ha hL
    obtain ⟨fi, _, _, _, _, hv⟩ := entryAction_leaf ha
    obtain ⟨⟨new, hnew⟩, hsub⟩ := hL
    refine ⟨⟨ch :: new, ?_⟩, ?_⟩
    · rw [hnew]; simp [Node.appendChild]
    · intro x hx
      apply hsub
      rcases hv with hv | ⟨real, hv⟩
      · rw [hv]; exact hx
      · rw [hv]; exact List.mem_cons_of_mem _ hx
  · intro d p de rest n v c r ch v' c' rc ha hC _ hL
    obtain ⟨fi, _, _, _, _, _, _, hv⟩ := entryAction_expand ha
    obtain ⟨⟨new, hnew⟩, hsub⟩ := hL
    refine ⟨⟨rc.node :: new, ?_⟩, ?_⟩
    · rw [hnew]; simp [Node.appendChild]
    · intro x hx
      apply hsub
      apply hC.2
      rcases hv with ⟨real, _, _, hv⟩ | ⟨_, hv, _⟩
      · rw [hv]; exact List.mem_cons_of_mem _ hx
      · rw [hv]; exact hx

/-- The proof rule for `buildTree`: a contract `C` for calls and an invariant
`L` for the loop over the remaining entries. Every call returns a nil error. -/
theorem buildTree_rule_frame (env : Env) (cfg : Config) (filt : Option Filter)
    (C : Int → String → Node → visitedSet → Counts → BuildResult → Prop)
    (L : Int → String → List DirEntry → Node → visitedSet → Counts → BuildResult → Prop)
    (h_ret : ∀ d p n v c,
      (n.IsDir = false ∨ (0 < cfg.MaxDepth ∧ cfg.MaxDepth ≤ d) ∨ ∃ e, env.ReadDir p = .error e) →
      C d p n v c ⟨n, v, c, none⟩)
    (h_loop : ∀ d p n v c entries r, n.IsDir = true → ¬(0 < cfg.MaxDepth ∧ cfg.MaxDepth ≤ d) →
      env.ReadDir p = .ok entries → L d p (sortSlice (entryLess env) entries) n v c r →
      C d p n v c r)
    (h_nil : ∀ d p n v c, L d p [] n v c ⟨n, v, c, none⟩)
    (h_skip : ∀ d p de rest n v c r, entryAction env cfg filt p d de n v c = .skip →
      L d p rest n v c r → L d p (de :: rest) n v c r)
    (h_leaf : ∀ d p de rest n v c r ch v' c',
      entryAction env cfg filt p d de n v c = .leaf ch v' c' →
      L d p rest (n.appendChild ch) v' c' r → L d p (de :: rest) n v c r)
    (h_expand : ∀ d p de rest n v c r ch v' c' rc,
      entryAction env cfg filt p d de n v c = .expand ch v' c' →
      C (d + 1) (filepathJoin env p de.Name) ch v' c' rc →
      (∃ new, rc.node = { ch with Children := ch.Children ++ new }) →
      L d p rest (n.appendChild rc.node) rc.visited rc.counts r → L d p (de :: rest) n v c r)
    (fuel : Nat) (p : String) (n : Node) (d : Int) (v : visitedSet) (c : Counts)
    (r : BuildResult) (h : buildTree env cfg filt fuel p n d v c = some r) :
    C d p n v c r := by
  have := buildTree_rule env cfg filt
    (fun d p n v c r => C d p n v c r ∧ ∃ new, r.node = { n with Children := n.Children ++ new })
    (fun d p es n v c r => L d p es n v c r ∧
      ∃ new, r.node = { n with Children := n.Children ++ new })
    ?_ ?_ ?_ ?_ ?_ ?_ fuel p n d v c r h
  · exact this.1.1
  · intro d p n v c hc
    exact ⟨h_ret d p n v c hc, [], n.with_children_nil⟩
  · intro d p n v c entries r h1 h2 h3 hL
    exact ⟨h_loop d p n v c entries r h1 h2 h3 hL.1, hL.2⟩
  · intro d p n v c
    exact ⟨h_nil d p n v c, [], n.with_children_nil⟩
  · intro d p de rest n v c r ha hL
    exact ⟨h_skip d p de rest n v c r ha hL.1, hL.2⟩
  · intro d p de rest n v c r ch v' c' ha hL
    refine ⟨h_leaf d p de rest n v c r ch v' c' ha hL.1, ?_⟩
    obtain ⟨new, hnew⟩ := hL.2
    exact ⟨ch :: new, by rw [hnew]; simp [Node.appendChild]⟩
  · intro d p de rest n v c r ch v' c' rc ha hC _ hL
    refine ⟨h_expand d p de rest n v c r ch v' c' rc ha hC.1 hC.2 hL.1, ?_⟩
    obtain ⟨new, hnew⟩ := hL.2
    exact ⟨rc.node :: new, by rw [hnew]; simp [Node.appendChild]⟩

theorem Walk_eq (env : Env) (fuel : Nat) (rootPath : String) (cfg : Config)
    (filt : Option Filter) :
    Walk env fuel rootPath cfg filt =
      match env.Abs rootPath with
      | .error err => some ⟨none, ⟨0, 0, 0⟩, some err⟩
      | .ok absRoot =>
        match env.Lstat absRoot with
        | .error err => some ⟨none, ⟨0, 0, 0⟩, some err⟩
        | .ok st =>
          match buildTree env cfg filt fuel absRoot (rootNodeOf env absRoot st) 0 []
              (rootCountsOf st) with
          | none => none
          | some r =>
            match r.err with
            | some err => some ⟨none, r.counts, some err⟩
            | none => some ⟨some r.node, r.counts, none⟩ := by
  unfold Walk
  cases env.Abs rootPath with
  | error e => rfl
  | ok absRoot =>
    simp only
    cases env.Lstat absRoot with
    | error e => rfl
    | ok st =>
      obtain ⟨isDir, isSym⟩ := st
      cases isDir <;> cases isSym <;> simp only [rootNodeOf, rootCountsOf, entryLinkTarget] <;>
        first
          | rfl
          | (cases env.Readlink absRoot <;> rfl)

theorem Walk_ok {env : Env} {fuel : Nat} {rootPath : String} {cfg : Config}
    {filt : Option Filter} {tree : Node} {counts : Counts}
    (h : Walk env fuel rootPath cfg filt = some ⟨some tree, counts, none⟩) :
    ∃ absRoot st v, env.Abs rootPath = .ok absRoot ∧ env.Lstat absRoot = .ok st ∧
      buildTree env cfg filt fuel absRoot (rootNodeOf env absRoot st) 0 [] (rootCountsOf st) =
        some ⟨tree, v, counts, none⟩ := by
  rw [Walk_eq] at h
  cases ha : env.Abs rootPath with
  | error e => simp [ha] at h
  | ok absRoot =>
    simp only [ha] at h
    cases hl : env.Lstat absRoot with
    | error e => simp [hl] at h
    | ok st =>
      simp only [hl] at h
      cases hb : buildTree env cfg filt fuel absRoot (rootNodeOf env absRoot st) 0 []
          (rootCountsOf st) with
      | none => simp [hb] at h
      | some r =>
        simp only [hb] at h
        obtain ⟨node, v, c, err⟩ := r
        cases err with
        | some e => simp at h
        | none =>
          simp only [Option.some.injEq, WalkResult.mk.injEq, and_true] at h
          obtain ⟨h1, h2⟩ := h
          subst h1 h2
          exact ⟨absRoot, st, v, rfl, hl, hb⟩

theorem Node.size_pos (n : Node) : n.size = 1 + (nodesOfList n.Children).length := by
  unfold Node.size
  rw [Node.nodes_eq]
  simp [Nat.add_comm]

theorem Node.size_appendChild (n ch : Node) : (n.appendChild ch).size = n.size + ch.size := by
  rw [Node.size_pos, Node.size_pos n, Node.appendChild_children, nodesOfList_append]
  simp [nodesOfList, Node.size, Nat.add_assoc]

theorem Counts.bump_sum (c : Counts) (isDir isSymlink : Bool) :
    (c.bump isDir isSymlink).Dirs + (c.bump isDir isSymlink).Files = c.Dirs + c.Files + 1 := by
  unfold Counts.bump
  cases isDir <;> cases isSymlink <;> simp <;> omega

/-- A call of `buildTree` raises `Dirs + Files` by the number of nodes it adds. -/
theorem buildTree_counts (env : Env) (cfg : Config) (filt : Option Filter)
    (fuel : Nat) (p : String) (n : Node) (d : Int) (v : visitedSet) (c : Counts)
    (r : BuildResult) (h : buildTree env cfg filt fuel p n d v c = some r) :
    r.counts.Dirs + r.counts.Files + n.size = c.Dirs + c.Files + r.node.size := by
  refine buildTree_rule_frame env cfg filt
    (fun _ _ n _ c r => r.counts.Dirs + r.counts.Files + n.size = c.Dirs + c.Files + r.node.size)
    (fun _ _ _ n _ c r =>
      r.counts.Dirs + r.counts.Files + n.size = c.Dirs + c.Files + r.node.size)
    ?_ ?_ ?_ ?_ ?_ ?_ fuel p n d v c r h
  · intro d p n v c _; simp only
  · intro d p n v c entries r _ _ _ hL; exact hL
  · intro d p n v c; simp only
  · intro d p de rest n v c r _ hL; exact hL
  · intro d p de rest n v c r ch v' c' ha hL
    obtain ⟨fi, _, _, hch, hc, _⟩ := entryAction_leaf ha
    simp only at hL ⊢
    have hs : ch.size = 1 := by rw [hch, Node.size_pos]; simp [nodesOfList]
    have hb := Counts.bump_sum c de.IsDir fi.IsSymlink
    rw [Node.size_appendChild, hs, hc] at hL
    omega
  · intro d p de rest n v c r ch v' c' rc ha hC _ hL
    obtain ⟨fi, _, _, hch, hc, _⟩ := entryAction_expand ha
    simp only at hL hC ⊢
    have hs : ch.size = 1 := by rw [hch, Node.size_pos]; simp [nodesOfList]
    have hb := Counts.bump_sum c de.IsDir fi.IsSymlink
    rw [Node.size_appendChild] at hL
    rw [hs, hc] at hC
    omega

theorem rootNodeOf_size (env : Env) (absRoot : String) (st : FileInfo) :
    (rootNodeOf env absRoot st).size = 1 := by
  rw [Node.size_pos]; simp [rootNodeOf, nodesOfList]

theorem rootCountsOf_sum (st : FileInfo) :
    (rootCountsOf st).Dirs + (rootCountsOf st).Files = 1 := by
  unfold rootCountsOf
  rw [Counts.bump_sum]
  rfl

/-- C2: whenever `Walk` succeeds, `Counts.Dirs + Counts.Files` equals the
number of nodes of the returned tree, root included. -/
theorem counts_dirs_files_eq_nodes (env : Env) (fuel : Nat) (rootPath : String) (cfg : Config)
    (filt : Option Filter) (tree : Node) (counts : Counts)
    (h : Walk env fuel rootPath cfg filt = some ⟨some tree, counts, none⟩) :
    counts.Dirs + counts.Files = tree.size := by
  obtain ⟨absRoot, st, v, _, _, hb⟩ := Walk_ok h
  have := buildTree_counts env cfg filt fuel absRoot _ 0 [] _ _ hb
  rw [rootNodeOf_size, rootCountsOf_sum] at this
  simp only at this
  omega

theorem exampleWalk :
    Walk exampleEnv 3 "/root" exampleConfig (some (plainFilter "/root" exampleConfig)) =
      some ⟨some ⟨"root", ".", true, false, "",
        [⟨"src", "src", true, false, "", [⟨"main.go", "src/main.go", false, false, "", []⟩]⟩]⟩,
        ⟨2, 1, 0⟩, none⟩ := by
  rfl

/-- Witness of C2 on the example tree: two directories, one file, three nodes. -/
theorem counts_dirs_files_eq_nodes_witness :
    Walk exampleEnv 3 "/root" exampleConfig (some (plainFilter "/root" exampleConfig)) =
      some ⟨some ⟨"root", ".", true, false, "",
        [⟨"src", "src", true, false, "", [⟨"main.go", "src/main.go", false, false, "", []⟩]⟩]⟩,
        ⟨2, 1, 0⟩, none⟩ ∧
    (2 : Nat) + 1 = (⟨"root", ".", true, false, "",
        [⟨"src", "src", true, false, "",
          [⟨"main.go", "src/main.go", false, false, "", []⟩]⟩]⟩ : Node).size :=
  ⟨exampleWalk, counts_dirs_files_eq_nodes exampleEnv 3 "/root" exampleConfig
    (some (plainFilter "/root" exampleConfig)) _ _ exampleWalk⟩

theorem Node.nodesAt_child {n m ch : Node} {k : Nat} (hm : m ∈ n.nodesAt k)
    (hch : ch ∈ m.Children) : ch ∈ n.nodesAt (k + 1) := by
  induction k generalizing n with
  | zero =>
    simp only [Node.nodesAt, List.mem_singleton] at hm
    subst hm
    simp only [Node.nodesAt, List.mem_flatMap, List.mem_singleton]
    exact ⟨ch, hch, rfl⟩
  | succ k ih =>
    simp only [Node.nodesAt, List.mem_flatMap] at hm
    obtain ⟨c, hc, hm⟩ := hm
    have := ih hm
    rw [Node.nodesAt]
    exact List.mem_flatMap.mpr ⟨c, hc, this⟩

theorem Node.nodesAt_succ_eq_nil {n : Node} {k : Nat}
    (h : ∀ ch ∈ n.Children, ch.nodesAt k = []) : n.nodesAt (k + 1) = [] := by
  rw [Node.nodesAt]
  apply List.eq_nil_iff_forall_not_mem.mpr
  intro x hx
  obtain ⟨c, hc, hx⟩ := List.mem_flatMap.mp hx
  rw [h c hc] at hx
  exact absurd hx (List.not_mem_nil _)

theorem buildTree_depth (env : Env) (cfg : Config) (filt : Option Filter) (N : Nat)
    (hN : 0 < N) (hcfg : cfg.MaxDepth = N)
    (fuel : Nat) (p : String) (n : Node) (d : Int) (v : visitedSet) (c : Counts)
    (r : BuildResult) (h : buildTree env cfg filt fuel p n d v c = some r) :
    ∀ b : Nat, d + b = N → (∀ ch ∈ n.Children, ∀ k, b ≤ k → ch.nodesAt k = []) →
      ∀ ch ∈ r.node.Children, ∀ k, b ≤ k → ch.nodesAt k = [] := by
  refine buildTree_rule_frame env cfg filt
    (fun d _ n _ _ r => ∀ b : Nat, d + b = N →
      (∀ ch ∈ n.Children, ∀ k, b ≤ k → ch.nodesAt k = []) →
      ∀ ch ∈ r.node.Children, ∀ k, b ≤ k → ch.nodesAt k = [])
    (fun d _ _ n _ _ r => ∀ b : Nat, d + b = N → 1 ≤ b →
      (∀ ch ∈ n.Children, ∀ k, b ≤ k → ch.nodesAt k = []) →
      ∀ ch ∈ r.node.Children, ∀ k, b ≤ k → ch.nodesAt k = [])
    ?_ ?_ ?_ ?_ ?_ ?_ fuel p n d v c r h
  · intro d p n v c _ b _ hn
    exact hn
  · intro d p n v c entries r _ hg _ hL b hb hn
    refine hL b hb ?_ hn
    rw [hcfg] at hg
    have hN' : (0 : Int) < N := by exact_mod_cast hN
    have hd : d < N := lt_of_not_ge (fun hge => hg ⟨hN', hge⟩)
    omega
  · intro d p n v c b _ _ hn
    exact hn
  · intro d p de rest n v c r _ hL
    exact hL
  · intro d p de rest n v c r ch v' c' ha hL b hb hb1 hn
    obtain ⟨fi, _, _, hch, _, _⟩ := entryAction_leaf ha
    refine hL b hb hb1 ?_
    intro x hx k hk
    rw [Node.appendChild_children, List.mem_append, List.mem_singleton] at hx
    rcases hx with hx | hx
    · exact hn x hx k hk
    · subst hx
      obtain ⟨k', rfl⟩ : ∃ k', k = k' + 1 := ⟨k - 1, by omega⟩
      apply Node.nodesAt_succ_eq_nil
      rw [hch]
      intro y hy
      exact absurd hy (List.not_mem_nil _)
  · intro d p de rest n v c r ch v' c' rc ha hC _ hL b hb hb1 hn
    obtain ⟨fi, _, _, hch, _, _⟩ := entryAction_expand ha
    refine hL b hb hb1 ?_
    intro x hx k hk
    rw [Node.appendChild_children, List.mem_append, List.mem_singleton] at hx
    rcases hx with hx | hx
    · exact hn x hx k hk
    · subst hx
      obtain ⟨k', rfl⟩ : ∃ k', k = k' + 1 := ⟨k - 1, by omega⟩
      apply Node.nodesAt_succ_eq_nil
      have hC' := hC (b - 1) (by push_cast [Nat.cast_sub hb1]; omega) (by
        rw [hch]
        intro y hy
        exact absurd hy (List.not_mem_nil _))
      intro y hy
      exact hC' y hy k' (by omega)

/-- C3: with `MaxDepth = N > 0` the tree returned by `Walk` has no node at a
distance greater than `N` from the root, and every node at distance exactly
`N` has no children, whatever the file system, the filter and the
follow-symlinks setting. -/
theorem maxDepth_bounds_tree (env : Env) (fuel : Nat) (rootPath : String) (cfg : Config)
    (filt : Option Filter) (tree : Node) (counts : Counts) (N : Nat)
    (hN : 0 < N) (hcfg : cfg.MaxDepth = N)
    (h : Walk env fuel rootPath cfg filt = some ⟨some tree, counts, none⟩) :
    (∀ k, N < k → tree.nodesAt k = []) ∧ (∀ m ∈ tree.nodesAt N, m.Children = []) := by
  obtain ⟨absRoot, st, v, _, _, hb⟩ := Walk_ok h
  have hdepth := buildTree_depth env cfg filt N hN hcfg fuel absRoot _ 0 [] _ _ hb N
    (by simp) (by
      intro ch hch
      exact absurd hch (List.not_mem_nil _))
  simp only at hdepth
  have hfar : ∀ k, N < k → tree.nodesAt k = [] := by
    intro k hk
    obtain ⟨k', rfl⟩ : ∃ k', k = k' + 1 := ⟨k - 1, by omega⟩
    apply Node.nodesAt_succ_eq_nil
    intro ch hch
    exact hdepth ch hch k' (by omega)
  refine ⟨hfar, ?_⟩
  intro m hm
  cases hc : m.Children with
  | nil => rfl
  | cons ch rest =>
    have := Node.nodesAt_child hm (show ch ∈ m.Children by rw [hc]; exact List.mem_cons_self _ _)
    rw [hfar (N + 1) (by omega)] at this
    exact absurd this (List.not_mem_nil _)

/-- The example tree walked with `MaxDepth = 1` and no filter. -/
theorem exampleWalk_depth_one :
    Walk exampleEnv 3 "/root" { plainConfig "/root" with MaxDepth := 1 } none =
      some ⟨some ⟨"root", ".", true, false, "",
        [⟨"node_modules", "node_modules", true, false, "", []⟩,
         ⟨"src", "src", true, false, "", []⟩]⟩, ⟨3, 0, 0⟩, none⟩ := by
  rfl

/-- Witness of C3: with `MaxDepth = 1` the two non-empty directories below
the root are in the tree without children and nothing lies deeper. -/
theorem maxDepth_bounds_tree_witness :
    0 < 1 ∧
    Walk exampleEnv 3 "/root" { plainConfig "/root" with MaxDepth := 1 } none =
      some ⟨some ⟨"root", ".", true, false, "",
        [⟨"node_modules", "node_modules", true, false, "", []⟩,
         ⟨"src", "src", true, false, "", []⟩]⟩, ⟨3, 0, 0⟩, none⟩ ∧
    (∀ k, 1 < k → (⟨"root", ".", true, false, "",
        [⟨"node_modules", "node_modules", true, false, "", []⟩,
         ⟨"src", "src", true, false, "", []⟩]⟩ : Node).nodesAt k = []) ∧
    (∀ m ∈ (⟨"root", ".", true, false, "",
        [⟨"node_modules", "node_modules", true, false, "", []⟩,
         ⟨"src", "src", true, false, "", []⟩]⟩ : Node).nodesAt 1, m.Children = []) :=
  ⟨by decide, exampleWalk_depth_one,
    maxDepth_bounds_tree exampleEnv 3 "/root" { plainConfig "/root" with MaxDepth := 1 } none
      _ _ 1 (by decide) rfl exampleWalk_depth_one⟩

theorem stringLessList_iff (a b : List Char) :
    stringLessList a b = true ↔ a < b := by
  induction a generalizing b with
  | nil =>
    cases b with
    | nil => simp [stringLessList]
    | cons y ys =>
      simp only [stringLessList, true_iff]
      exact List.Lex.nil
  | cons x xs ih =>
    cases b with
    | nil => simp [stringLessList]
    | cons y ys =>
      simp only [stringLessList]
      by_cases h1 : x.toNat < y.toNat
      · simp only [h1, if_true, true_iff]
        exact List.Lex.rel (Char.lt_def.mpr (by simpa [Char.toNat, UInt32.lt_def] using h1))
      · by_cases h2 : y.toNat < x.toNat
        · simp only [h1, h2, if_true, if_false, Bool.false_eq_true, false_iff]
          intro hlt
          have hyx : y < x := Char.lt_def.mpr (by simpa [Char.toNat, UInt32.lt_def] using h2)
          have : (y :: ys) < (x :: xs) := List.Lex.rel hyx
          exact lt_asymm hlt this
        · have hxy : x = y := by
            apply Char.ext
            apply UInt32.ext  
            simp only [Char.toNat] at h1 h2
            omega
          subst hxy
          simp only [h1, if_false, ih]
          exact (List.Lex.cons_iff (r := (· < ·))).symm

/-- The computed comparison is the order on strings. -/
theorem stringLess_iff (a b : String) : stringLess a b = true ↔ a < b := by
  unfold stringLess
  rw [stringLessList_iff]
  exact String.lt_iff_toList_lt.symm

theorem mem_sortInsert {α : Type} (less : α → α → Bool) (x w : α) (l : List α) :
    w ∈ sortInsert less x l ↔ w = x ∨ w ∈ l := by
  induction l with
  | nil => simp [sortInsert]
  | cons y ys ih =>
    simp only [sortInsert]
    split
    · simp
    · simp only [List.mem_cons, ih]
      tauto

theorem sortInsert_perm {α : Type} (less : α → α → Bool) (x : α) (l : List α) :
    (sortInsert less x l).Perm (x :: l) := by
  induction l with
  | nil => simp [sortInsert]
  | cons y ys ih =>
    simp only [sortInsert]
    split
    · exact List.Perm.refl _
    · exact (List.Perm.cons y ih).trans (List.Perm.swap x y ys)

theorem sortSlice_perm {α : Type} (less : α → α → Bool) (xs : List α) :
    (sortSlice less xs).Perm xs := by
  unfold sortSlice
  suffices h : ∀ acc : List α,
      (xs.foldl (fun acc x => sortInsert less x acc) acc).Perm (acc ++ xs) by
    simpa using h []
  induction xs with
  | nil => intro acc; simp
  | cons x xs ih =>
    intro acc
    simp only [List.foldl_cons]
    refine (ih _).trans ?_
    refine ((sortInsert_perm less x acc).append_right xs).trans ?_
    simp only [List.cons_append]
    exact List.perm_middle.symm

theorem mem_sortSlice {α : Type} (less : α → α → Bool) (w : α) (xs : List α) :
    w ∈ sortSlice less xs ↔ w ∈ xs :=
  (sortSlice_perm less xs).mem_iff

theorem sortInsert_pairwise {α : Type} (less : α → α → Bool)
    (hasymm : ∀ a b, less a b = true → less b a = false)
    (htrans : ∀ a b c, less a b = true → less b c = true → less a c = true)
    (x : α) (l : List α) (hl : l.Pairwise (fun a b => less b a = false)) :
    (sortInsert less x l).Pairwise (fun a b => less b a = false) := by
  induction l with
  | nil => simp [sortInsert]
  | cons y ys ih =>
    simp only [sortInsert]
    rw [List.pairwise_cons] at hl
    by_cases hxy : less x y = true
    · rw [if_pos hxy]
      refine List.Pairwise.cons ?_ (List.Pairwise.cons hl.1 hl.2)
      intro z hz
      rcases List.mem_cons.mp hz with rfl | hz
      · exact hasymm _ _ hxy
      · have hzy := hl.1 z hz
        cases hzx : less z x with
        | false => rfl
        | true => rw [htrans z x y hzx hxy] at hzy; exact absurd hzy (by simp)
    · rw [if_neg hxy]
      refine List.Pairwise.cons ?_ (ih hl.2)
      intro w hw
      rcases (mem_sortInsert less x w ys).mp hw with rfl | hw
      · simpa using hxy
      · exact hl.1 w hw

theorem sortSlice_pairwise {α : Type} (less : α → α → Bool)
    (hasymm : ∀ a b, less a b = true → less b a = false)
    (htrans : ∀ a b c, less a b = true → less b c = true → less a c = true)
    (xs : List α) : (sortSlice less xs).Pairwise (fun a b => less b a = false) := by
  unfold sortSlice
  suffices h : ∀ acc : List α, acc.Pairwise (fun a b => less b a = false) →
      (xs.foldl (fun acc x => sortInsert less x acc) acc).Pairwise
        (fun a b => less b a = false) from h [] List.Pairwise.nil
  induction xs with
  | nil => intro acc h; exact h
  | cons x xs ih =>
    intro acc h
    exact ih _ (sortInsert_pairwise less hasymm htrans x acc h)

/-- The listing sorted as in `buildTree` is ascending by lower-cased name. -/
theorem sortSlice_entries_sorted (env : Env) (entries : List DirEntry) :
    (sortSlice (entryLess env) entries).Pairwise
      (fun a b => env.ToLower a.Name ≤ env.ToLower b.Name) := by
  have h := sortSlice_pairwise (entryLess env)
    (by
      intro a b hab
      have := (stringLess_iff _ _).mp hab
      cases hba : entryLess env b a with
      | false => rfl
      | true => exact absurd ((stringLess_iff _ _).mp hba) (lt_asymm this))
    (by
      intro a b c hab hbc
      exact (stringLess_iff _ _).mpr
        (lt_trans ((stringLess_iff _ _).mp hab) ((stringLess_iff _ _).mp hbc)))
    entries
  refine h.imp ?_
  intro a b hba
  apply le_of_not_lt
  intro hlt
  have := (stringLess_iff _ _).mpr hlt
  unfold entryLess at hba
  rw [this] at hba
  exact absurd hba (by simp)

theorem Node.mem_nodes_iff {m n : Node} :
    m ∈ n.nodes ↔ m = n ∨ ∃ ch ∈ n.Children, m ∈ ch.nodes := by
  rw [Node.nodes_eq, List.mem_cons, mem_nodesOfList]

theorem buildTree_sorted (env : Env) (cfg : Config) (filt : Option Filter)
    (fuel : Nat) (p : String) (n : Node) (d : Int) (v : visitedSet) (c : Counts)
    (r : BuildResult) (h : buildTree env cfg filt fuel p n d v c = some r) :
    n.Children = [] → ∀ m ∈ r.node.nodes,
      m.Children.Pairwise (fun c1 c2 => env.ToLower c1.Name ≤ env.ToLower c2.Name) := by
  refine buildTree_rule_frame env cfg filt
    (fun _ _ n _ _ r => n.Children = [] → ∀ m ∈ r.node.nodes,
      m.Children.Pairwise (fun c1 c2 => env.ToLower c1.Name ≤ env.ToLower c2.Name))
    (fun _ _ es n _ _ r => ∃ new, r.node.Children = n.Children ++ new ∧
      (new.map Node.Name).Sublist (es.map DirEntry.Name) ∧
      ∀ x ∈ new, ∀ m ∈ x.nodes,
        m.Children.Pairwise (fun c1 c2 => env.ToLower c1.Name ≤ env.ToLower c2.Name))
    ?_ ?_ ?_ ?_ ?_ ?_ fuel p n d v c r h
  · intro d p n v c _ hn m hm
    rcases Node.mem_nodes_iff.mp hm with rfl | ⟨ch, hch, _⟩
    · simp only [hn, List.Pairwise.nil]
    · simp only [hn] at hch
      exact absurd hch (List.not_mem_nil _)
  · intro d p n v c entries r _ _ _ hL hn m hm
    obtain ⟨new, hnew, hsub, hall⟩ := hL
    rw [hn, List.nil_append] at hnew
    rcases Node.mem_nodes_iff.mp hm with rfl | ⟨ch, hch, hm⟩
    · rw [hnew]
      have hs := (sortSlice_entries_sorted env entries)
      have hs' : ((sortSlice (entryLess env) entries).map DirEntry.Name).Pairwise
          (fun a b => env.ToLower a ≤ env.ToLower b) :=
        (List.pairwise_map (f := DirEntry.Name)
          (R := fun a b => env.ToLower a ≤ env.ToLower b)).mpr hs
      have hs'' : (new.map Node.Name).Pairwise
          (fun a b => env.ToLower a ≤ env.ToLower b) := hs'.sublist hsub
      exact (List.pairwise_map (f := Node.Name)
        (R := fun a b => env.ToLower a ≤ env.ToLower b)).mp hs''
    · rw [hnew] at hch
      exact hall ch hch m hm
  · intro d p n v c
    exact ⟨[], by simp, by simp, by simp⟩
  · intro d p de rest n v c r _ hL
    obtain ⟨new, hnew, hsub, hall⟩ := hL
    exact ⟨new, hnew, List.Sublist.cons _ hsub, hall⟩
  · intro d p de rest n v c r ch v' c' ha hL
    obtain ⟨fi, _, _, hch, _, _⟩ := entryAction_leaf ha
    obtain ⟨new, hnew, hsub, hall⟩ := hL
    refine ⟨ch :: new, ?_, ?_, ?_⟩
    · rw [hnew, Node.appendChild_children]; simp
    · have : ch.Name = de.Name := by rw [hch]
      simp only [List.map_cons, this]
      exact List.Sublist.cons₂ _ hsub
    · intro x hx m hm
      rcases List.mem_cons.mp hx with rfl | hx
      · rcases Node.mem_nodes_iff.mp hm with rfl | ⟨y, hy, _⟩
        · rw [hch]; exact List.Pairwise.nil
        · rw [hch] at hy; exact absurd hy (List.not_mem_nil _)
      · exact hall x hx m hm
  · intro d p de rest n v c r ch v' c' rc ha hC hframe hL
    obtain ⟨fi, _, _, hch, _, _⟩ := entryAction_expand ha
    obtain ⟨new, hnew, hsub, hall⟩ := hL
    obtain ⟨kids, hkids⟩ := hframe
    refine ⟨rc.node :: new, ?_, ?_, ?_⟩
    · rw [hnew, Node.appendChild_children]; simp
    · have : rc.node.Name = de.Name := by rw [hkids, hch]
      simp only [List.map_cons, this]
      exact List.Sublist.cons₂ _ hsub
    · intro x hx m hm
      rcases List.mem_cons.mp hx with rfl | hx
      · exact hC (by rw [hch]) m hm
      · exact hall x hx m hm

/-- C4: in the tree returned by `Walk` the children of every node are sorted
ascending by lower-cased name: the relation holds between any two children in
sequence order, in particular between consecutive ones. -/
theorem children_sorted_by_lower_name (env : Env) (fuel : Nat) (rootPath : String)
    (cfg : Config) (filt : Option Filter) (tree : Node) (counts : Counts)
    (h : Walk env fuel rootPath cfg filt = some ⟨some tree, counts, none⟩) :
    ∀ m ∈ tree.nodes,
      m.Children.Chain' (fun c1 c2 => env.ToLower c1.Name ≤ env.ToLower c2.Name) ∧
      m.Children.Pairwise (fun c1 c2 => env.ToLower c1.Name ≤ env.ToLower c2.Name) := by
  obtain ⟨absRoot, st, v, _, _, hb⟩ := Walk_ok h
  intro m hm
  have := buildTree_sorted env cfg filt fuel absRoot _ 0 [] _ _ hb rfl m hm
  exact ⟨List.Pairwise.chain' this, this⟩

theorem mixedCaseWalk :
    Walk mixedCaseEnv 3 "/d" (plainConfig "/d") none =
      some ⟨some mixedCaseTree, ⟨2, 4, 0⟩, none⟩ := by
  rfl

/-- Witness of C4: a listing in byte order `B, a, c` comes out as `a, B, c`. -/
theorem children_sorted_by_lower_name_witness :
    Walk mixedCaseEnv 3 "/d" (plainConfig "/d") none =
      some ⟨some mixedCaseTree, ⟨2, 4, 0⟩, none⟩ ∧
    ∀ m ∈ mixedCaseTree.nodes,
      m.Children.Chain'
        (fun c1 c2 => mixedCaseEnv.ToLower c1.Name ≤ mixedCaseEnv.ToLower c2.Name) ∧
      m.Children.Pairwise
        (fun c1 c2 => mixedCaseEnv.ToLower c1.Name ≤ mixedCaseEnv.ToLower c2.Name) :=
  ⟨mixedCaseWalk,
    children_sorted_by_lower_name mixedCaseEnv 3 "/d" (plainConfig "/d") none mixedCaseTree
      ⟨2, 4, 0⟩ mixedCaseWalk⟩

theorem buildEntries_mono (env : Env) (cfg : Config) (filt : Option Filter)
    (recur1 recur2 : String → Node → Int → visitedSet → Counts → Option BuildResult)
    (hrec : ∀ p n d v c r, recur1 p n d v c = some r → recur2 p n d v c = some r)
    (p : String) (d : Int) :
    ∀ (entries : List DirEntry) (n : Node) (v : visitedSet) (c : Counts) (r : BuildResult),
      buildEntries env cfg filt recur1 p d entries n v c = some r →
      buildEntries env cfg filt recur2 p d entries n v c = some r := by
  intro entries
  induction entries with
  | nil => intro n v c r h; simpa [buildEntries] using h
  | cons de rest ih =>
    intro n v c r h
    rw [buildEntries_cons] at h ⊢
    cases ha : entryAction env cfg filt p d de n v c with
    | skip => rw [ha] at h; exact ih _ _ _ _ h
    | leaf ch v' c' => rw [ha] at h; exact ih _ _ _ _ h
    | expand ch v' c' =>
      rw [ha] at h
      simp only [descend] at h ⊢
      cases hr : recur1 (filepathJoin env p de.Name) ch (d + 1) v' c' with
      | none => rw [hr] at h; exact absurd h (by simp)
      | some rc =>
        rw [hr] at h
        rw [hrec _ _ _ _ _ _ hr]
        simp only at h ⊢
        cases he : rc.err with
        | some e => rw [he] at h; simpa using h
        | none =>
          rw [he] at h
          exact ih _ _ _ _ h

theorem buildTree_fuel_succ (env : Env) (cfg : Config) (filt : Option Filter) :
    ∀ (fuel : Nat) (p : String) (n : Node) (d : Int) (v : visitedSet) (c : Counts)
      (r : BuildResult),
      buildTree env cfg filt fuel p n d v c = some r →
      buildTree env cfg filt (fuel + 1) p n d v c = some r := by
  intro fuel
  induction fuel with
  | zero => intro p n d v c r h; simp [buildTree] at h
  | succ fuel ih =>
    intro p n d v c r h
    rw [buildTree] at h ⊢
    split at h
    · rename_i h1; rw [if_pos h1]; exact h
    · rename_i h1
      rw [if_neg h1]
      split at h
      · rename_i h2; rw [if_pos h2]; exact h
      · rename_i h2
        rw [if_neg h2]
        cases hrd : env.ReadDir p with
        | error e => rw [hrd] at h; exact h
        | ok entries =>
          rw [hrd] at h
          exact buildEntries_mono env cfg filt _ _ ih p d _ n v c r h

/-- More fuel does not change a result of `buildTree`. -/
theorem buildTree_fuel_le (env : Env) (cfg : Config) (filt : Option Filter)
    {fuel fuel' : Nat} (hle : fuel ≤ fuel') {p : String} {n : Node} {d : Int}
    {v : visitedSet} {c : Counts} {r : BuildResult}
    (h : buildTree env cfg filt fuel p n d v c = some r) :
    buildTree env cfg filt fuel' p n d v c = some r := by
  induction hle with
  | refl => exact h
  | step _ ih => exact buildTree_fuel_succ env cfg filt _ _ _ _ _ _ _ ih

theorem visitedSet.Seen_iff (v : visitedSet) (x : String) : v.Seen x = true ↔ x ∈ v := by
  simp [visitedSet.Seen]

theorem unvisitedCount_mono (known : List String) {v v' : visitedSet}
    (h : ∀ x ∈ v, x ∈ v') : unvisitedCount known v' ≤ unvisitedCount known v := by
  unfold unvisitedCount
  apply List.Sublist.length_le
  apply List.monotone_filter_right
  intro x hx
  simp only [Bool.not_eq_true', Bool.not_eq_true] at hx ⊢
  cases hs : v.Seen x with
  | false => rfl
  | true =>
    have := h x ((visitedSet.Seen_iff v x).mp hs)
    rw [(visitedSet.Seen_iff v' x).mpr this] at hx
    exact absurd hx (by simp)

theorem unvisitedCount_add (known : List String) (v : visitedSet) (real : String)
    (hU : real ∈ known) (hv : v.Seen real = false) :
    unvisitedCount known (v.Add real) < unvisitedCount known v := by
  unfold unvisitedCount
  have hsub : (known.filter (fun c => !(v.Add real).Seen c)).Sublist
      (known.filter (fun c => !v.Seen c)) := by
    apply List.monotone_filter_right
    intro x hx
    simp only [Bool.not_eq_true', Bool.not_eq_true] at hx ⊢
    cases hs : v.Seen x with
    | false => rfl
    | true =>
      have : x ∈ v.Add real := List.mem_cons_of_mem _ ((visitedSet.Seen_iff v x).mp hs)
      rw [(visitedSet.Seen_iff _ x).mpr this] at hx
      exact absurd hx (by simp)
  rcases Nat.lt_or_ge (known.filter (fun c => !(v.Add real).Seen c)).length
      (known.filter (fun c => !v.Seen c)).length with hlt | hge
  · exact hlt
  · have heq := hsub.eq_of_length_le hge
    have hin : real ∈ known.filter (fun c => !v.Seen c) := by
      rw [List.mem_filter]
      exact ⟨hU, by simp [hv]⟩
    rw [← heq, List.mem_filter] at hin
    have : (v.Add real).Seen real = true :=
      (visitedSet.Seen_iff _ _).mpr (List.mem_cons_self _ _)
    rw [this] at hin
    exact absurd hin.2 (by simp)

theorem buildEntries_terminates (env : Env) (cfg : Config) (filt : Option Filter)
    (known : List String)
    (hU : ∀ p fi, env.Lstat p = .ok fi → ∃ c ∈ known, canonicalPath env p = .ok c)
    (recur : String → Node → Int → visitedSet → Counts → Option BuildResult) (k : Nat)
    (hrec : ∀ p n d v c, unvisitedCount known v < k →
      ∃ r, recur p n d v c = some r ∧ r.err = none ∧ ∀ x ∈ v, x ∈ r.visited)
    (p : String) (d : Int) :
    ∀ (entries : List DirEntry) (n : Node) (v : visitedSet) (c : Counts),
      unvisitedCount known v ≤ k →
      ∃ r, buildEntries env cfg filt recur p d entries n v c = some r ∧ r.err = none ∧
        ∀ x ∈ v, x ∈ r.visited := by
  intro entries
  induction entries with
  | nil =>
    intro n v c _
    exact ⟨⟨n, v, c, none⟩, rfl, rfl, fun x hx => hx⟩
  | cons de rest ih =>
    intro n v c hk
    rw [buildEntries_cons]
    cases ha : entryAction env cfg filt p d de n v c with
    | skip => exact ih n v c hk
    | leaf ch v' c' =>
      obtain ⟨fi, _, _, _, _, hv⟩ := entryAction_leaf ha
      have hsub : ∀ x ∈ v, x ∈ v' := by
        intro x hx
        rcases hv with hv | ⟨real, hv⟩
        · rw [hv]; exact hx
        · rw [hv]; exact List.mem_cons_of_mem _ hx
      obtain ⟨r, hr, he, hvis⟩ := ih (n.appendChild ch) v' c'
        (le_trans (unvisitedCount_mono known hsub) hk)
      exact ⟨r, hr, he, fun x hx => hvis x (hsub x hx)⟩
    | expand ch v' c' =>
      obtain ⟨fi, hl, _, _, _, _, _, hv⟩ := entryAction_expand ha
      obtain ⟨cp, hcU, hcp⟩ := hU _ fi hl
      rcases hv with ⟨real, hreal, hseen, hv'⟩ | ⟨⟨e, herr⟩, _, _⟩
      · rw [hcp] at hreal
        cases hreal
        have hlt : unvisitedCount known v' < k := by
          rw [hv']
          exact lt_of_lt_of_le (unvisitedCount_add known v cp hcU hseen) hk
        obtain ⟨rc, hrc, hrce, hrcv⟩ := hrec (filepathJoin env p de.Name) ch (d + 1) v' c' hlt
        simp only [descend, hrc, hrce]
        obtain ⟨r, hr, he, hvis⟩ := ih (n.appendChild rc.node) rc.visited rc.counts
          (le_trans (unvisitedCount_mono known hrcv) (le_of_lt hlt))
        refine ⟨r, hr, he, fun x hx => hvis x (hrcv x ?_)⟩
        rw [hv']
        exact List.mem_cons_of_mem _ hx
      · rw [hcp] at herr
        cases herr

/-- Fuel above the number of unvisited canonical paths is enough for
`buildTree` to return. -/
theorem buildTree_terminates (env : Env) (cfg : Config) (filt : Option Filter)
    (known : List String)
    (hU : ∀ p fi, env.Lstat p = .ok fi → ∃ c ∈ known, canonicalPath env p = .ok c) :
    ∀ (fuel : Nat) (p : String) (n : Node) (d : Int) (v : visitedSet) (c : Counts),
      unvisitedCount known v < fuel →
      ∃ r, buildTree env cfg filt fuel p n d v c = some r ∧ r.err = none ∧
        ∀ x ∈ v, x ∈ r.visited := by
  intro fuel
  induction fuel with
  | zero => intro p n d v c h; exact absurd h (Nat.not_lt_zero _)
  | succ fuel ih =>
    intro p n d v c h
    rw [buildTree]
    split
    · exact ⟨_, rfl, rfl, fun x hx => hx⟩
    · split
      · exact ⟨_, rfl, rfl, fun x hx => hx⟩
      · cases hrd : env.ReadDir p with
        | error e => exact ⟨_, rfl, rfl, fun x hx => hx⟩
        | ok entries =>
          exact buildEntries_terminates env cfg filt known hU _ fuel
            (fun p n d v c hlt => ih p n d v c hlt) p d _ n v c (Nat.le_of_lt_succ h)

theorem cycleWalk :
    Walk cycleEnv 3 "/r" (followConfig "/r") none =
      some ⟨some cycleTree, ⟨3, 1, 1⟩, none⟩ := by
  rfl

theorem loopWalk :
    Walk loopEnv 3 "/r" (followConfig "/r") none =
      some ⟨some loopTree, ⟨1, 2, 2⟩, none⟩ := by
  rfl

theorem cycleEnv_canonical (p : String) (fi : FileInfo)
    (h : cycleEnv.Lstat p = .ok fi) :
    ∃ c ∈ ["/r", "/r/a"], canonicalPath cycleEnv p = .ok c := by
  simp only [cycleEnv, canonicalPath] at h ⊢
  cases hp : cyclePath p with
  | none => rw [hp] at h; simp at h
  | some b =>
    cases b with
    | true => exact ⟨"/r/a", by simp, by simp⟩
    | false => exact ⟨"/r", by simp, by simp⟩

/-- C6: on a file system where every existing path canonicalises to one of
finitely many paths (`known`), `Walk` on an existing root terminates: there
is one tree and one counts value that `Walk` returns, without an error,
for every fuel above `known.length`, whatever the configuration and filter.
Each nested call of `buildTree` follows the addition of a new canonical path
to the visited set. -/
theorem walk_terminates (env : Env) (cfg : Config) (filt : Option Filter)
    (rootPath : String) (known : List String) (absRoot : String) (st : FileInfo)
    (hU : ∀ p fi, env.Lstat p = .ok fi → ∃ c ∈ known, canonicalPath env p = .ok c)
    (ha : env.Abs rootPath = .ok absRoot) (hl : env.Lstat absRoot = .ok st) :
    ∃ tree counts, ∀ fuel, known.length + 1 ≤ fuel →
      Walk env fuel rootPath cfg filt = some ⟨some tree, counts, none⟩ := by
  have hm : unvisitedCount known [] < known.length + 1 := by
    unfold unvisitedCount
    exact Nat.lt_succ_of_le (List.length_filter_le _ _)
  obtain ⟨r, hr, he, _⟩ := buildTree_terminates env cfg filt known hU (known.length + 1)
    absRoot (rootNodeOf env absRoot st) 0 [] (rootCountsOf st) hm
  refine ⟨r.node, r.counts, ?_⟩
  intro fuel hfuel
  have hr' := buildTree_fuel_le env cfg filt hfuel hr
  rw [Walk_eq, ha]
  simp only [hl, hr', he]

/-- Witness of C6: the cyclic file system, where `/r/a/up` points back to
`/r`, with follow-symlinks enabled and unlimited depth. -/
theorem walk_terminates_witness :
    cycleEnv.Abs "/r" = .ok "/r" ∧ cycleEnv.Lstat "/r" = .ok ⟨true, false⟩ ∧
    (followConfig "/r").FollowSymlinks = true ∧ (followConfig "/r").MaxDepth = 0 ∧
    ∃ tree counts, ∀ fuel, ["/r", "/r/a"].length + 1 ≤ fuel →
      Walk cycleEnv fuel "/r" (followConfig "/r") none = some ⟨some tree, counts, none⟩ :=
  ⟨rfl, rfl, rfl, rfl,
    walk_terminates cycleEnv (followConfig "/r") none "/r" ["/r", "/r/a"] "/r" ⟨true, false⟩
      cycleEnv_canonical rfl rfl⟩

theorem nodesOfList_appendChild (n ch : Node) :
    nodesOfList (n.appendChild ch).Children = nodesOfList n.Children ++ ch.nodes := by
  rw [Node.appendChild_children, nodesOfList_append]
  simp [nodesOfList]

theorem buildTree_accepted (env : Env) (cfg : Config) (f : Filter)
    (fuel : Nat) (p : String) (n : Node) (d : Int) (v : visitedSet) (c : Counts)
    (r : BuildResult) (h : buildTree env cfg (some f) fuel p n d v c = some r) :
    (∀ m ∈ nodesOfList n.Children, ∃ rawIsDir, (m.IsSymlink = false → rawIsDir = m.IsDir) ∧
      ∀ path, ShouldExclude env f (m.entry path rawIsDir) = false) →
    ∀ m ∈ nodesOfList r.node.Children, ∃ rawIsDir, (m.IsSymlink = false → rawIsDir = m.IsDir) ∧
      ∀ path, ShouldExclude env f (m.entry path rawIsDir) = false := by
  refine buildTree_rule_frame env cfg (some f)
    (fun _ _ n _ _ r =>
      (∀ m ∈ nodesOfList n.Children, ∃ rawIsDir, (m.IsSymlink = false → rawIsDir = m.IsDir) ∧
        ∀ path, ShouldExclude env f (m.entry path rawIsDir) = false) →
      ∀ m ∈ nodesOfList r.node.Children, ∃ rawIsDir,
        (m.IsSymlink = false → rawIsDir = m.IsDir) ∧
        ∀ path, ShouldExclude env f (m.entry path rawIsDir) = false)
    (fun _ _ _ n _ _ r =>
      (∀ m ∈ nodesOfList n.Children, ∃ rawIsDir, (m.IsSymlink = false → rawIsDir = m.IsDir) ∧
        ∀ path, ShouldExclude env f (m.entry path rawIsDir) = false) →
      ∀ m ∈ nodesOfList r.node.Children, ∃ rawIsDir,
        (m.IsSymlink = false → rawIsDir = m.IsDir) ∧
        ∀ path, ShouldExclude env f (m.entry path rawIsDir) = false)
    ?_ ?_ ?_ ?_ ?_ ?_ fuel p n d v c r h
  · intro d p n v c _ hn; exact hn
  · intro d p n v c entries r _ _ _ hL; exact hL
  · intro d p n v c hn; exact hn
  · intro d p de rest n v c r _ hL; exact hL
  · intro d p de rest n v c r ch v' c' ha hL hn
    obtain ⟨fi, _, hp, hch, _, _⟩ := entryAction_leaf ha
    apply hL
    intro m hm
    rw [nodesOfList_appendChild, List.mem_append] at hm
    rcases hm with hm | hm
    · exact hn m hm
    · have hm' : m = ch := by
        rw [Node.nodes_eq] at hm
        rw [hch] at hm ⊢
        simpa [nodesOfList] using hm
      subst hm'
      refine ⟨de.IsDir, fun _ => by rw [hch], fun path => ?_⟩
      rw [hch]
      exact hp
  · intro d p de rest n v c r ch v' c' rc ha hC hframe hL hn
    obtain ⟨fi, _, hp, hch, _, hreal, _⟩ := entryAction_expand ha
    obtain ⟨kids, hkids⟩ := hframe
    apply hL
    intro m hm
    rw [nodesOfList_appendChild, List.mem_append] at hm
    rcases hm with hm | hm
    · exact hn m hm
    · rcases Node.mem_nodes_iff.mp hm with rfl | ⟨x, hx, hmx⟩
      · refine ⟨de.IsDir, fun hs => ?_, fun path => ?_⟩
        · rw [hkids, hch] at hs ⊢
          exact hreal hs
        · rw [hkids, hch]
          exact hp
      · refine hC ?_ m (mem_nodesOfList.mpr ⟨x, hx, hmx⟩)
        intro y hy
        rw [hch] at hy
        simp [nodesOfList] at hy

theorem Walk_accepted {env : Env} {fuel : Nat} {rootPath : String} {cfg : Config}
    {f : Filter} {tree : Node} {counts : Counts}
    (h : Walk env fuel rootPath cfg (some f) = some ⟨some tree, counts, none⟩) :
    ∀ m ∈ tree.descendants, ∃ rawIsDir, (m.IsSymlink = false → rawIsDir = m.IsDir) ∧
      ∀ path, ShouldExclude env f (m.entry path rawIsDir) = false := by
  obtain ⟨absRoot, st, v, _, _, hb⟩ := Walk_ok h
  refine buildTree_accepted env cfg f fuel absRoot _ 0 [] _ _ hb ?_
  intro m hm
  simp [rootNodeOf, nodesOfList] at hm

theorem Walk_counts_descendants {env : Env} {fuel : Nat} {rootPath : String} {cfg : Config}
    {filt : Option Filter} {tree : Node} {counts : Counts}
    (h : Walk env fuel rootPath cfg filt = some ⟨some tree, counts, none⟩) :
    counts.Dirs + counts.Files = 1 + tree.descendants.length := by
  obtain ⟨absRoot, st, v, _, _, hb⟩ := Walk_ok h
  have := buildTree_counts env cfg filt fuel absRoot _ 0 [] _ _ hb
  rw [rootNodeOf_size, rootCountsOf_sum] at this
  simp only at this
  rw [Node.size_pos] at this
  unfold Node.descendants
  omega

theorem buildEntries_pruned (env : Env) (cfg : Config) (filt : Option Filter)
    (recur : String → Node → Int → visitedSet → Counts → Option BuildResult)
    (absPath : String) (depth : Int) (de : DirEntry) (rest : List DirEntry)
    (node : Node) (visited : visitedSet) (counts : Counts) (fi : FileInfo)
    (hl : env.Lstat (filepathJoin env absPath de.Name) = .ok fi)
    (hp : pruned env filt ⟨filepathJoin env absPath de.Name, entryRel env node de.Name,
      de.Name, de.IsDir, fi.IsSymlink⟩ = true) :
    buildEntries env cfg filt recur absPath depth (de :: rest) node visited counts =
      buildEntries env cfg filt recur absPath depth rest node visited counts := by
  rw [buildEntries_cons]
  have : entryAction env cfg filt absPath depth de node visited counts = .skip := by
    unfold entryAction
    simp only [hl, hp, if_true]
  rw [this]

/-- C8: with a filter, every non-root node of the tree returned by `Walk` was
accepted by `ShouldExclude` on the entry built from its relative path, name,
raw directory flag and symlink flag (the absolute path plays no part in the
decision), and only nodes are counted; an entry the filter excludes leaves the
node, the counts and the visited set as they were, so nothing below it is
read; and the example with `exclude-dir = ["node_modules"]` yields the tree
`root/ > src/ > main.go` with two directories and one file. -/
theorem excluded_entries_leave_no_trace (env : Env) (cfg : Config) (f : Filter) :
    (∀ fuel rootPath tree counts,
      Walk env fuel rootPath cfg (some f) = some ⟨some tree, counts, none⟩ →
      (∀ m ∈ tree.descendants, ∃ rawIsDir, (m.IsSymlink = false → rawIsDir = m.IsDir) ∧
        ∀ path, ShouldExclude env f (m.entry path rawIsDir) = false) ∧
      counts.Dirs + counts.Files = 1 + tree.descendants.length) ∧
    (∀ recur absPath depth de rest node visited counts fi,
      env.Lstat (filepathJoin env absPath de.Name) = .ok fi →
      ShouldExclude env f ⟨filepathJoin env absPath de.Name, entryRel env node de.Name,
        de.Name, de.IsDir, fi.IsSymlink⟩ = true →
      buildEntries env cfg (some f) recur absPath depth (de :: rest) node visited counts =
        buildEntries env cfg (some f) recur absPath depth rest node visited counts) ∧
    Walk exampleEnv 3 "/root" exampleConfig (some (plainFilter "/root" exampleConfig)) =
      some ⟨some ⟨"root", ".", true, false, "",
        [⟨"src", "src", true, false, "", [⟨"main.go", "src/main.go", false, false, "", []⟩]⟩]⟩,
        ⟨2, 1, 0⟩, none⟩ := by
  refine ⟨?_, ?_, exampleWalk⟩
  · intro fuel rootPath tree counts h
    exact ⟨Walk_accepted h, Walk_counts_descendants h⟩
  · intro recur absPath depth de rest node visited counts fi hl hp
    exact buildEntries_pruned env cfg (some f) recur absPath depth de rest node visited counts
      fi hl hp

/-- Witness of C8 on the example: the nodes `src` and `main.go` are accepted
by the filter, and the excluded `node_modules` is skipped by the loop. -/
theorem excluded_entries_leave_no_trace_witness :
    Walk exampleEnv 3 "/root" exampleConfig (some (plainFilter "/root" exampleConfig)) =
      some ⟨some ⟨"root", ".", true, false, "",
        [⟨"src", "src", true, false, "", [⟨"main.go", "src/main.go", false, false, "", []⟩]⟩]⟩,
        ⟨2, 1, 0⟩, none⟩ ∧
    ((∀ m ∈ (⟨"root", ".", true, false, "",
        [⟨"src", "src", true, false, "",
          [⟨"main.go", "src/main.go", false, false, "", []⟩]⟩]⟩ : Node).descendants,
        ∃ rawIsDir, (m.IsSymlink = false → rawIsDir = m.IsDir) ∧
          ∀ path, ShouldExclude exampleEnv (plainFilter "/root" exampleConfig)
            (m.entry path rawIsDir) = false) ∧
      (2 : Nat) + 1 = 1 + (⟨"root", ".", true, false, "",
        [⟨"src", "src", true, false, "",
          [⟨"main.go", "src/main.go", false, false, "", []⟩]⟩]⟩ : Node).descendants.length) ∧
    ShouldExclude exampleEnv (plainFilter "/root" exampleConfig)
      ⟨"/root/node_modules", "node_modules", "node_modules", true, false⟩ = true :=
  ⟨exampleWalk,
    (excluded_entries_leave_no_trace exampleEnv exampleConfig
      (plainFilter "/root" exampleConfig)).1 3 "/root" _ _ exampleWalk,
    by decide⟩

/-- C5, the code at the failing input: in the file system whose root `/r`
holds `loop -> .`, walked with follow-symlinks enabled, the canonical path of
`/r/loop` is the canonical path `/r` of the root, the root was expanded (it
has children), and the node `loop` below it was expanded again (it has a
child): `Walk` never adds the root to the visited set. -/
theorem root_expanded_twice_on_loop :
    Walk loopEnv 3 "/r" (followConfig "/r") none = some ⟨some loopTree, ⟨1, 2, 2⟩, none⟩ ∧
    canonicalPath loopEnv "/r/loop" = canonicalPath loopEnv "/r" ∧
    loopTree.Children ≠ [] ∧
    ∃ l ∈ loopTree.Children, l.Rel = "loop" ∧ l.IsSymlink = true ∧ l.Children ≠ [] := by
  refine ⟨loopWalk, rfl, by simp [loopTree], ?_⟩
  exact ⟨⟨"loop", "loop", true, true, ".", [⟨"loop", "loop/loop", false, true, ".", []⟩]⟩,
    by simp [loopTree], rfl, rfl, by simp⟩

/-- C7, the code at the failing input: in the file system where the directory
`/r/a` holds the symlink `up -> ..`, whose target is the traversal root `/r`,
an ancestor of `/r/a`, the node created for `up` with follow-symlinks enabled
is not closed: it has the child `a`. -/
theorem symlink_to_root_not_closed :
    Walk cycleEnv 3 "/r" (followConfig "/r") none = some ⟨some cycleTree, ⟨3, 1, 1⟩, none⟩ ∧
    cycleEnv.Readlink "/r/a/up" = .ok ".." ∧
    canonicalPath cycleEnv "/r/a/up" = canonicalPath cycleEnv "/r" ∧
    ∃ up ∈ cycleTree.nodesAt 2, up.Rel = "a/up" ∧ up.IsSymlink = true ∧
      up.Children.map Node.Name = ["a"] := by
  refine ⟨cycleWalk, rfl, rfl, ?_⟩
  exact ⟨⟨"up", "a/up", true, true, "..", [⟨"a", "a/up/a", true, false, "", []⟩]⟩,
    by simp [cycleTree, Node.nodesAt], rfl, rfl, rfl⟩

theorem buildTree_expand_eq (env : Env) (cfg : Config) (filt : Option Filter)
    (fuel : Nat) (p : String) (n : Node) (d : Int) (v : visitedSet) (c : Counts)
    (entries : List DirEntry) (hd : n.IsDir = true)
    (hg : ¬(0 < cfg.MaxDepth ∧ cfg.MaxDepth ≤ d)) (hrd : env.ReadDir p = .ok entries) :
    buildTree env cfg filt (fuel + 1) p n d v c =
      buildEntries env cfg filt (buildTree env cfg filt fuel) p d
        (sortSlice (entryLess env) entries) n v c := by
  rw [buildTree]
  simp only [hd, Bool.not_true, Bool.false_eq_true, if_false]
  rw [if_neg hg, hrd]

theorem buildEntries_present (env : Env) (cfg : Config) (filt : Option Filter)
    (fuel : Nat) (p : String) (d : Int) :
    ∀ (entries : List DirEntry) (n : Node) (v : visitedSet) (c : Counts) (r : BuildResult),
      buildEntries env cfg filt (buildTree env cfg filt fuel) p d entries n v c = some r →
      (∃ new, r.node = { n with Children := n.Children ++ new }) ∧
      ∀ de ∈ entries, ∀ fi, env.Lstat (filepathJoin env p de.Name) = .ok fi →
        pruned env filt ⟨filepathJoin env p de.Name, entryRel env n de.Name, de.Name,
          de.IsDir, fi.IsSymlink⟩ = false →
        ∃ ch ∈ r.node.Children, ch.Name = de.Name ∧ ch.Rel = entryRel env n de.Name ∧
          ch.IsSymlink = fi.IsSymlink := by
  intro entries n v c r h
  refine (buildEntries_rule env cfg filt (buildTree env cfg filt fuel)
    (fun _ _ n _ _ r => ∃ new, r.node = { n with Children := n.Children ++ new })
    (fun _ p es n _ _ r => (∃ new, r.node = { n with Children := n.Children ++ new }) ∧
      ∀ de ∈ es, ∀ fi, env.Lstat (filepathJoin env p de.Name) = .ok fi →
        pruned env filt ⟨filepathJoin env p de.Name, entryRel env n de.Name, de.Name,
          de.IsDir, fi.IsSymlink⟩ = false →
        ∃ ch ∈ r.node.Children, ch.Name = de.Name ∧ ch.Rel = entryRel env n de.Name ∧
          ch.IsSymlink = fi.IsSymlink)
    ?_ ?_ ?_ ?_ ?_ p d entries n v c r h).1
  · intro p n d v c r hr
    have := buildTree_frame env cfg filt fuel p n d v c r hr
    exact ⟨this.1.1, this.2⟩
  · intro d p n v c
    exact ⟨⟨[], n.with_children_nil⟩, fun de hde => absurd hde (List.not_mem_nil _)⟩
  · intro d p de rest n v c r ha hL
    refine ⟨hL.1, ?_⟩
    intro de' hde' fi hl hp
    rcases List.mem_cons.mp hde' with rfl | hde'
    · rcases entryAction_skip ha with ⟨e, he⟩ | ⟨fi', hl', hp'⟩
      · rw [hl] at he; cases he
      · rw [hl] at hl'
        cases hl'
        rw [hp] at hp'
        cases hp'
    · exact hL.2 de' hde' fi hl hp
  · intro d p de rest n v c r ch v' c' ha hL
    obtain ⟨fi', hl', _, hch, _, _⟩ := entryAction_leaf ha
    obtain ⟨⟨new, hnew⟩, hall⟩ := hL
    have hkids : r.node.Children = n.Children ++ ch :: new := by
      rw [hnew]; simp [Node.appendChild]
    refine ⟨⟨ch :: new, ?_⟩, ?_⟩
    · rw [hnew]; simp [Node.appendChild]
    · intro de' hde' fi hl hp
      rcases List.mem_cons.mp hde' with rfl | hde'
      · rw [hl] at hl'
        cases hl'
        refine ⟨ch, ?_, ?_, ?_, ?_⟩
        · rw [hkids]; simp
        · rw [hch]
        · rw [hch]
        · rw [hch]
      · exact hall de' hde' fi hl hp
  · intro d p de rest n v c r ch v' c' rc ha hC _ hL
    obtain ⟨fi', hl', _, hch, _, _⟩ := entryAction_expand ha
    obtain ⟨⟨new, hnew⟩, hall⟩ := hL
    obtain ⟨kids, hrc⟩ := hC
    have hkids : r.node.Children = n.Children ++ rc.node :: new := by
      rw [hnew]; simp [Node.appendChild]
    refine ⟨⟨rc.node :: new, ?_⟩, ?_⟩
    · rw [hnew]; simp [Node.appendChild]
    · intro de' hde' fi hl hp
      rcases List.mem_cons.mp hde' with rfl | hde'
      · rw [hl] at hl'
        cases hl'
        refine ⟨rc.node, ?_, ?_, ?_, ?_⟩
        · rw [hkids]; simp
        · rw [hrc, hch]
        · rw [hrc, hch]
        · rw [hrc, hch]
      · exact hall de' hde' fi hl hp

/-- Every listed entry that can be lstat-ed and is not excluded has a child
node in the directory `buildTree` lists. -/
theorem buildTree_present (env : Env) (cfg : Config) (filt : Option Filter)
    (fuel : Nat) (p : String) (n : Node) (d : Int) (v : visitedSet) (c : Counts)
    (r : BuildResult) (entries : List DirEntry)
    (h : buildTree env cfg filt fuel p n d v c = some r)
    (hd : n.IsDir = true) (hg : ¬(0 < cfg.MaxDepth ∧ cfg.MaxDepth ≤ d))
    (hrd : env.ReadDir p = .ok entries) :
    ∀ de ∈ entries, ∀ fi, env.Lstat (filepathJoin env p de.Name) = .ok fi →
      pruned env filt ⟨filepathJoin env p de.Name, entryRel env n de.Name, de.Name,
        de.IsDir, fi.IsSymlink⟩ = false →
      ∃ ch ∈ r.node.Children, ch.Name = de.Name ∧ ch.Rel = entryRel env n de.Name ∧
        ch.IsSymlink = fi.IsSymlink := by
  cases fuel with
  | zero => simp [buildTree] at h
  | succ fuel =>
    rw [buildTree_expand_eq env cfg filt fuel p n d v c entries hd hg hrd] at h
    intro de hde
    exact (buildEntries_present env cfg filt fuel p d _ n v c r h).2 de
      ((mem_sortSlice _ _ _).mpr hde)

theorem ShouldExclude_withHidden (env : Env) (f : Filter) (e : Entry) :
    ShouldExclude env (f.withHidden true) e =
      (stringsHasPrefix e.Name "." || ShouldExclude env (f.withHidden false) e) := by
  unfold ShouldExclude Filter.withHidden gitIgnoreMatches
  cases stringsHasPrefix e.Name "." <;> simp

theorem hiddenWalk_on :
    Walk hiddenEnv 3 "/h" { plainConfig "/h" with ExcludeHidden := true }
        (some (plainFilter "/h" { plainConfig "/h" with ExcludeHidden := true })) =
      some ⟨some hiddenTreeOn, ⟨1, 1, 0⟩, none⟩ := by
  rfl

theorem hiddenWalk_off :
    Walk hiddenEnv 3 "/h" (plainConfig "/h") (some (plainFilter "/h" (plainConfig "/h"))) =
      some ⟨some hiddenTreeOff, ⟨2, 3, 0⟩, none⟩ := by
  rfl

theorem hiddenBuild_off :
    buildTree hiddenEnv (plainConfig "/h") (some (plainFilter "/h" (plainConfig "/h"))) 3 "/h"
        (rootNodeOf hiddenEnv "/h" ⟨true, false⟩) 0 [] (rootCountsOf ⟨true, false⟩) =
      some ⟨hiddenTreeOff, ["/h/.git"], ⟨2, 3, 0⟩, none⟩ := by
  rfl

theorem entryAction_plain_leaf (env : Env) (cfg : Config) (filt : Option Filter)
    (p : String) (d : Int) (de : DirEntry) (n : Node) (v : visitedSet) (c : Counts)
    (fi : FileInfo) (hl : env.Lstat (filepathJoin env p de.Name) = .ok fi)
    (hpr : ∀ e, pruned env filt e = false) (hfollow : cfg.FollowSymlinks = false)
    (hleaf : (de.IsDir && !fi.IsSymlink) = false) :
    entryAction env cfg filt p d de n v c =
      .leaf ⟨de.Name, entryRel env n de.Name, de.IsDir, fi.IsSymlink,
        entryLinkTarget env (filepathJoin env p de.Name) fi.IsSymlink, []⟩ v
        (c.bump de.IsDir fi.IsSymlink) := by
  unfold entryAction
  simp only [hl, hpr, hfollow, Bool.false_eq_true, if_false]
  cases hs : fi.IsSymlink with
  | true => simp
  | false =>
    rw [hs] at hleaf
    have hd : de.IsDir = false := by simpa using hleaf
    simp [hd]

theorem entryAction_plain_dir (env : Env) (cfg : Config) (filt : Option Filter)
    (p : String) (d : Int) (de : DirEntry) (n : Node) (v : visitedSet) (c : Counts)
    (fi : FileInfo) (hl : env.Lstat (filepathJoin env p de.Name) = .ok fi)
    (hpr : ∀ e, pruned env filt e = false)
    (hdir : (de.IsDir && !fi.IsSymlink) = true)
    (hnew : ∀ real, canonicalKey env (filepathJoin env p de.Name) = some real → real ∉ v) :
    entryAction env cfg filt p d de n v c =
      .expand ⟨de.Name, entryRel env n de.Name, de.IsDir, fi.IsSymlink,
        entryLinkTarget env (filepathJoin env p de.Name) fi.IsSymlink, []⟩
        (match canonicalKey env (filepathJoin env p de.Name) with
          | some real => v.Add real
          | none => v)
        (c.bump de.IsDir fi.IsSymlink) := by
  have hd : de.IsDir = true := by
    cases h : de.IsDir with
    | true => rfl
    | false => rw [h] at hdir; simp at hdir
  have hs : fi.IsSymlink = false := by
    cases h : fi.IsSymlink with
    | false => rfl
    | true => rw [h] at hdir; simp at hdir
  unfold entryAction
  simp only [hl, hpr, hs, hd, Bool.false_eq_true, if_false, if_true]
  unfold canonicalKey at hnew ⊢
  cases hc : canonicalPath env (filepathJoin env p de.Name) with
  | error e => rfl
  | ok real =>
    simp only
    rw [hc] at hnew
    have : v.Seen real = false := by
      cases hseen : v.Seen real with
      | false => rfl
      | true => exact absurd ((visitedSet.Seen_iff v real).mp hseen) (hnew real rfl)
    rw [this]
    simp

theorem reachableChildren_cons (env : Env)
    (recur : String → Node → Option (Node × List String)) (absPath parentRel : String)
    (de : DirEntry) (rest : List DirEntry) (kids : List Node) (dirs : List String)
    (h : reachableChildren env recur absPath parentRel (de :: rest) = some (kids, dirs)) :
    ∃ fi t ds ts ds', env.Lstat (filepathJoin env absPath de.Name) = .ok fi ∧
      kids = t :: ts ∧ dirs = ds ++ ds' ∧
      reachableChildren env recur absPath parentRel rest = some (ts, ds') ∧
      (((de.IsDir && !fi.IsSymlink) = true ∧ ∃ ds0,
          recur (filepathJoin env absPath de.Name)
            ⟨de.Name, (if parentRel ≠ "." then env.ToSlash (filepathJoin env parentRel de.Name)
              else env.ToSlash de.Name), de.IsDir, fi.IsSymlink,
              entryLinkTarget env (filepathJoin env absPath de.Name) fi.IsSymlink, []⟩ =
            some (t, ds0) ∧ ds = filepathJoin env absPath de.Name :: ds0) ∨
        ((de.IsDir && !fi.IsSymlink) = false ∧ ds = [] ∧
          t = ⟨de.Name, (if parentRel ≠ "." then env.ToSlash (filepathJoin env parentRel de.Name)
              else env.ToSlash de.Name), de.IsDir, fi.IsSymlink,
              entryLinkTarget env (filepathJoin env absPath de.Name) fi.IsSymlink, []⟩)) := by
  rw [reachableChildren] at h
  cases hl : env.Lstat (filepathJoin env absPath de.Name) with
  | error e => rw [hl] at h; simp at h
  | ok fi =>
    rw [hl] at h
    simp only at h
    cases hb : (de.IsDir && !fi.IsSymlink) with
    | true =>
      rw [hb] at h
      simp only [if_true] at h
      cases hr : recur (filepathJoin env absPath de.Name)
          ⟨de.Name, (if parentRel ≠ "." then env.ToSlash (filepathJoin env parentRel de.Name)
            else env.ToSlash de.Name), de.IsDir, fi.IsSymlink,
            entryLinkTarget env (filepathJoin env absPath de.Name) fi.IsSymlink, []⟩ with
      | none => rw [hr] at h; simp at h
      | some td =>
        obtain ⟨t, ds0⟩ := td
        rw [hr] at h
        simp only at h
        cases hrest : reachableChildren env recur absPath parentRel rest with
        | none => rw [hrest] at h; simp at h
        | some tsd =>
          obtain ⟨ts, ds'⟩ := tsd
          rw [hrest] at h
          simp only [Option.some.injEq, Prod.mk.injEq] at h
          exact ⟨fi, t, _, ts, ds', rfl, h.1.symm, h.2.symm, rfl, Or.inl ⟨hb, ds0, hr, rfl⟩⟩
    | false =>
      rw [hb] at h
      simp only [Bool.false_eq_true, if_false] at h
      cases hrest : reachableChildren env recur absPath parentRel rest with
      | none => rw [hrest] at h; simp at h
      | some tsd =>
        obtain ⟨ts, ds'⟩ := tsd
        rw [hrest] at h
        simp only [Option.some.injEq, Prod.mk.injEq] at h
        exact ⟨fi, _, [], ts, ds', rfl, h.1.symm, h.2.symm, rfl, Or.inr ⟨hb, rfl, rfl⟩⟩

theorem Node.appendChild_with (n t : Node) (ts : List Node) :
    ({ n.appendChild t with Children := (n.appendChild t).Children ++ ts } : Node) =
      { n with Children := n.Children ++ t :: ts } := by
  simp [Node.appendChild]

theorem buildEntries_reachable (env : Env) (cfg : Config) (filt : Option Filter)
    (hfollow : cfg.FollowSymlinks = false) (hpr : ∀ e, pruned env filt e = false)
    (fuel : Nat)
    (ih : ∀ p n d v c t dirs, reachableTree env fuel p n = some (t, dirs) →
      n.IsDir = true → n.Children = [] → (dirs.filterMap (canonicalKey env)).Nodup →
      (∀ x ∈ dirs.filterMap (canonicalKey env), x ∉ v) →
      ∃ v' c', buildTree env cfg filt fuel p n d v c = some ⟨t, v', c', none⟩ ∧
        ∀ x, x ∈ v' ↔ x ∈ v ∨ x ∈ dirs.filterMap (canonicalKey env))
    (p : String) (d : Int) :
    ∀ (es : List DirEntry) (n : Node) (v : visitedSet) (c : Counts) (kids : List Node)
      (dirs : List String),
      reachableChildren env (reachableTree env fuel) p n.Rel es = some (kids, dirs) →
      (dirs.filterMap (canonicalKey env)).Nodup →
      (∀ x ∈ dirs.filterMap (canonicalKey env), x ∉ v) →
      ∃ v' c', buildEntries env cfg filt (buildTree env cfg filt fuel) p d es n v c =
          some ⟨{ n with Children := n.Children ++ kids }, v', c', none⟩ ∧
        ∀ x, x ∈ v' ↔ x ∈ v ∨ x ∈ dirs.filterMap (canonicalKey env) := by
  intro es
  induction es with
  | nil =>
    intro n v c kids dirs h _ _
    simp only [reachableChildren, Option.some.injEq, Prod.mk.injEq] at h
    obtain ⟨rfl, rfl⟩ := h
    refine ⟨v, c, ?_, by simp⟩
    simp only [buildEntries]
    rw [← n.with_children_nil]
  | cons de rest ihes =>
    intro n v c kids dirs h hnd hdisj
    obtain ⟨fi, t, ds, ts, ds', hl, rfl, rfl, hrest, hcase⟩ :=
      reachableChildren_cons env _ p n.Rel de rest kids dirs h
    rw [List.filterMap_append] at hnd hdisj
    obtain ⟨hnd1, hnd2, hdj⟩ := List.nodup_append.mp hnd
    rw [buildEntries_cons]
    rcases hcase with ⟨hb, ds0, hrec, rfl⟩ | ⟨hb, rfl, rfl⟩
    · -- a directory that is not a symlink
      have hnew : ∀ real, canonicalKey env (filepathJoin env p de.Name) = some real →
          real ∉ v := by
        intro real hk
        apply hdisj
        apply List.mem_append_left
        rw [List.filterMap_cons, hk]
        exact List.mem_cons_self _ _
      rw [entryAction_plain_dir env cfg filt p d de n v c fi hl hpr hb hnew]
      have hd : de.IsDir = true := by
        cases h : de.IsDir with
        | true => rfl
        | false => rw [h] at hb; simp at hb
      -- facts about the keys of the subtree
      have hsub : (ds0.filterMap (canonicalKey env)).Nodup ∧
          (∀ x ∈ ds0.filterMap (canonicalKey env), x ∉
            (match canonicalKey env (filepathJoin env p de.Name) with
              | some real => v.Add real
              | none => v)) := by
        cases hk : canonicalKey env (filepathJoin env p de.Name) with
        | none =>
          rw [List.filterMap_cons, hk] at hnd1
          refine ⟨hnd1, ?_⟩
          intro x hx
          apply hdisj
          apply List.mem_append_left
          rw [List.filterMap_cons, hk]
          exact hx
        | some real =>
          rw [List.filterMap_cons, hk] at hnd1
          obtain ⟨hreal, hnd0⟩ := List.nodup_cons.mp hnd1
          refine ⟨hnd0, ?_⟩
          intro x hx hmem
          rcases List.mem_cons.mp hmem with rfl | hmem
          · exact hreal hx
          · refine hdisj x ?_ hmem
            apply List.mem_append_left
            rw [List.filterMap_cons, hk]
            exact List.mem_cons_of_mem _ hx
      obtain ⟨v2, c2, hbt, hv2⟩ := ih (filepathJoin env p de.Name) _ (d + 1) _
        (c.bump de.IsDir fi.IsSymlink) t ds0 hrec hd rfl hsub.1 hsub.2
      have hv1 : ∀ x, x ∈ (match canonicalKey env (filepathJoin env p de.Name) with
            | some real => v.Add real
            | none => v) ↔
          x ∈ v ∨ x ∈ [filepathJoin env p de.Name].filterMap (canonicalKey env) := by
        intro x
        cases hk : canonicalKey env (filepathJoin env p de.Name) with
        | none => simp [List.filterMap_cons, hk]
        | some real =>
          simp only [List.filterMap_cons, hk, List.filterMap_nil, List.mem_singleton,
            visitedSet.Add, List.mem_cons]
          tauto
      have hkeys : ∀ x, x ∈ (filepathJoin env p de.Name :: ds0).filterMap (canonicalKey env) ↔
          x ∈ [filepathJoin env p de.Name].filterMap (canonicalKey env) ∨
            x ∈ ds0.filterMap (canonicalKey env) := by
        intro x
        rw [← List.mem_append, ← List.filterMap_append]
        rfl
      have hdisj2 : ∀ x ∈ ds'.filterMap (canonicalKey env), x ∉ v2 := by
        intro x hx hmem
        rcases (hv2 x).mp hmem with hmem | hmem
        · rcases (hv1 x).mp hmem with hmem | hmem
          · exact hdisj x (List.mem_append_right _ hx) hmem
          · exact hdj ((hkeys x).mpr (Or.inl hmem)) hx
        · exact hdj ((hkeys x).mpr (Or.inr hmem)) hx
      obtain ⟨v', c', hbe, hv'⟩ := ihes (n.appendChild t) v2 c2 ts ds' hrest hnd2 hdisj2
      refine ⟨v', c', ?_, ?_⟩
      · simp only [descend]
        rw [show entryRel env n de.Name =
          (if n.Rel ≠ "." then env.ToSlash (filepathJoin env n.Rel de.Name)
            else env.ToSlash de.Name) from rfl, hbt]
        simp only
        rw [hbe, Node.appendChild_with]
      · intro x
        rw [hv', hv2, hv1, List.filterMap_append, List.mem_append, hkeys]
        tauto
    · -- a file or a symlink
      rw [entryAction_plain_leaf env cfg filt p d de n v c fi hl hpr hfollow hb]
      simp only [List.filterMap_nil, List.nil_append] at hdisj ⊢
      obtain ⟨v', c', hbe, hv'⟩ := ihes (n.appendChild _) v (c.bump de.IsDir fi.IsSymlink)
        ts ds' hrest hnd2 hdisj
      refine ⟨v', c', ?_, hv'⟩
      rw [show entryRel env n de.Name =
        (if n.Rel ≠ "." then env.ToSlash (filepathJoin env n.Rel de.Name)
          else env.ToSlash de.Name) from rfl, hbe, Node.appendChild_with]

/-- Without symlink following, filter rules and depth limit, `buildTree`
builds the reachable tree and adds the canonical paths of the directories
entered to the visited set. -/
theorem buildTree_reachable (env : Env) (cfg : Config) (filt : Option Filter)
    (hfollow : cfg.FollowSymlinks = false) (hdepth : cfg.MaxDepth = 0)
    (hpr : ∀ e, pruned env filt e = false) :
    ∀ (fuel : Nat) (p : String) (n : Node) (d : Int) (v : visitedSet) (c : Counts) (t : Node)
      (dirs : List String),
      reachableTree env fuel p n = some (t, dirs) →
      n.IsDir = true → n.Children = [] → (dirs.filterMap (canonicalKey env)).Nodup →
      (∀ x ∈ dirs.filterMap (canonicalKey env), x ∉ v) →
      ∃ v' c', buildTree env cfg filt fuel p n d v c = some ⟨t, v', c', none⟩ ∧
        ∀ x, x ∈ v' ↔ x ∈ v ∨ x ∈ dirs.filterMap (canonicalKey env) := by
  intro fuel
  induction fuel with
  | zero => intro p n d v c t dirs h; simp [reachableTree] at h
  | succ fuel ih =>
    intro p n d v c t dirs h hd hkids hnd hdisj
    rw [reachableTree] at h
    cases hrd : env.ReadDir p with
    | error e => rw [hrd] at h; simp at h
    | ok entries =>
      rw [hrd] at h
      simp only at h
      cases hrc : reachableChildren env (reachableTree env fuel) p n.Rel
          (sortSlice (entryLess env) entries) with
      | none => rw [hrc] at h; simp at h
      | some kd =>
        obtain ⟨kids, ds⟩ := kd
        rw [hrc] at h
        simp only [Option.some.injEq, Prod.mk.injEq] at h
        obtain ⟨rfl, rfl⟩ := h
        have hg : ¬(0 < cfg.MaxDepth ∧ cfg.MaxDepth ≤ d) := by
          rw [hdepth]; intro hh; exact absurd hh.1 (by decide)
        rw [buildTree_expand_eq env cfg filt fuel p n d v c entries hd hg hrd]
        obtain ⟨v', c', hbe, hv'⟩ := buildEntries_reachable env cfg filt hfollow hpr fuel ih p d
          _ n v c kids ds hrc hnd hdisj
        refine ⟨v', c', ?_, hv'⟩
        rw [hbe, hkids, List.nil_append]

theorem pruned_of_no_rules (env : Env) (cfg : Config) (filt : Option Filter)
    (hf : ∀ f, filt = some f → f.cfg = cfg)
    (h1 : cfg.Exclude = []) (h2 : cfg.ExcludeDir = []) (h3 : cfg.ExcludeFile = [])
    (h4 : cfg.UseGitignore = false) (h5 : cfg.ExcludeHidden = false) (e : Entry) :
    pruned env filt e = false := by
  cases filt with
  | none => rfl
  | some f =>
    have := hf f rfl
    simp only [pruned, ShouldExclude, gitIgnoreMatches, matchAny, this, h1, h2, h3, h4, h5,
      matchAnyLoop]
    simp

/-- C10, as the claim states it, fails with follow-symlinks enabled: in the
symlink example the root and `link` are the two entries reachable without
crossing a symlink, while the tree `Walk` returns also holds `link/a.txt`,
an entry reached across the link, and `Dirs + Files` is three. -/
theorem follow_symlinks_adds_entries :
    (followConfig "/w/root").Exclude = [] ∧ (followConfig "/w/root").ExcludeDir = [] ∧
    (followConfig "/w/root").ExcludeFile = [] ∧ (followConfig "/w/root").UseGitignore = false ∧
    (followConfig "/w/root").ExcludeHidden = false ∧ (followConfig "/w/root").MaxDepth = 0 ∧
    reachableFromRoot linkEnv 3 "/w/root" ⟨true, false⟩ = some (linkReachable, []) ∧
    Walk linkEnv 3 "/w/root" (followConfig "/w/root") none =
      some ⟨some linkTreeFollowed, ⟨1, 2, 1⟩, none⟩ ∧
    linkTreeFollowed ≠ linkReachable ∧
    (1 : Nat) + 2 ≠ linkReachable.size := by
  refine ⟨rfl, rfl, rfl, rfl, rfl, rfl, rfl, rfl, ?_, by decide⟩
  intro h
  have := congrArg Node.size h
  revert this
  decide

/-- C10, amended: when follow-symlinks is disabled, there are no exclusion
patterns, gitignore and hidden-exclusion are off, the depth is unlimited, the
entries reachable from the root without crossing a symlink form the finite,
fully readable tree `t`, and the directories entered have pairwise distinct
canonical paths, `Walk` returns exactly `t` (one node per reachable entry,
each at its own position) and `Dirs + Files` is the number of those entries,
root included. -/
theorem walk_eq_reachable_tree (env : Env) (fuel : Nat) (rootPath : String) (cfg : Config)
    (filt : Option Filter) (absRoot : String) (st : FileInfo) (t : Node) (dirs : List String)
    (hfuel : 0 < fuel)
    (hf : ∀ f, filt = some f → f.cfg = cfg)
    (h1 : cfg.Exclude = []) (h2 : cfg.ExcludeDir = []) (h3 : cfg.ExcludeFile = [])
    (h4 : cfg.UseGitignore = false) (h5 : cfg.ExcludeHidden = false)
    (hdepth : cfg.MaxDepth = 0) (hfollow : cfg.FollowSymlinks = false)
    (ha : env.Abs rootPath = .ok absRoot) (hl : env.Lstat absRoot = .ok st)
    (hreach : reachableFromRoot env fuel absRoot st = some (t, dirs))
    (hnd : (dirs.filterMap (canonicalKey env)).Nodup) :
    ∃ counts, Walk env fuel rootPath cfg filt = some ⟨some t, counts, none⟩ ∧
      counts.Dirs + counts.Files = t.size := by
  have hpr := pruned_of_no_rules env cfg filt hf h1 h2 h3 h4 h5
  have hbuild : ∃ v' c', buildTree env cfg filt fuel absRoot (rootNodeOf env absRoot st) 0 []
      (rootCountsOf st) = some ⟨t, v', c', none⟩ := by
    unfold reachableFromRoot at hreach
    cases hd : st.IsDir with
    | true =>
      rw [hd] at hreach
      simp only [if_true] at hreach
      obtain ⟨v', c', hb, _⟩ := buildTree_reachable env cfg filt hfollow hdepth hpr fuel absRoot
        _ 0 [] (rootCountsOf st) t dirs hreach (by simp [rootNodeOf, hd]) rfl hnd
        (fun x _ => List.not_mem_nil x)
      exact ⟨v', c', hb⟩
    | false =>
      rw [hd] at hreach
      simp only [Bool.false_eq_true, if_false, Option.some.injEq, Prod.mk.injEq] at hreach
      obtain ⟨rfl, _⟩ := hreach
      obtain ⟨k, rfl⟩ : ∃ k, fuel = k + 1 := ⟨fuel - 1, by omega⟩
      refine ⟨[], rootCountsOf st, ?_⟩
      rw [buildTree]
      simp [rootNodeOf, hd]
  obtain ⟨v', c', hb⟩ := hbuild
  refine ⟨c', ?_, ?_⟩
  · rw [Walk_eq, ha]
    simp only [hl, hb]
  · have := buildTree_counts env cfg filt fuel absRoot _ 0 [] _ _ hb
    rw [rootNodeOf_size, rootCountsOf_sum] at this
    simp only at this
    omega

/-- Witness of the amended C10: the example tree walked without a filter. -/
theorem walk_eq_reachable_tree_witness :
    reachableFromRoot exampleEnv 3 "/root" ⟨true, false⟩ =
      some (exampleReachable, ["/root/node_modules", "/root/src"]) ∧
    ∃ counts, Walk exampleEnv 3 "/root" (plainConfig "/root") none =
        some ⟨some exampleReachable, counts, none⟩ ∧
      counts.Dirs + counts.Files = exampleReachable.size :=
  ⟨rfl,
    walk_eq_reachable_tree exampleEnv 3 "/root" (plainConfig "/root") none "/root"
      ⟨true, false⟩ exampleReachable ["/root/node_modules", "/root/src"] (by decide)
      (fun f hf => by cases hf) rfl rfl rfl rfl rfl rfl rfl rfl rfl rfl (by decide)⟩

theorem matchAnyLoop_filter (env : Env) (name rel : String) (patterns : List String) :
    matchAnyLoop env name rel patterns =
      matchAnyLoop env name rel (patterns.filter (fun p => decide (p ≠ ""))) := by
  induction patterns with
  | nil => rfl
  | cons p ps ih =>
    by_cases hp : p = ""
    · have hf : (p :: ps).filter (fun p => decide (p ≠ "")) =
          ps.filter (fun p => decide (p ≠ "")) := by
        simp [List.filter, hp]
      rw [hf, ← ih]
      simp only [matchAnyLoop, hp, if_true]
    · have hf : (p :: ps).filter (fun p => decide (p ≠ "")) =
          p :: ps.filter (fun p => decide (p ≠ "")) := by
        simp [List.filter, hp]
      rw [hf]
      simp only [matchAnyLoop, hp, if_false, ih]

/-- C14: empty pattern strings never match: `matchAny` gives the same answer
on a pattern list and on the list with its empty strings removed, and a list
of empty strings only matches nothing, whatever the name and the relative
path (the empty string included) and whatever `doublestar.PathMatch` says of
an empty pattern. -/
theorem empty_patterns_never_match (env : Env) (patterns : List String) (name rel : String) :
    matchAny env patterns name rel =
      matchAny env (patterns.filter (fun p => decide (p ≠ ""))) name rel ∧
    ((∀ p ∈ patterns, p = "") → matchAny env patterns name rel = false) := by
  constructor
  · unfold matchAny
    exact matchAnyLoop_filter env name (toSlash env rel) patterns
  · intro h
    unfold matchAny
    cases hm : matchAnyLoop env name (toSlash env rel) patterns with
    | false => rfl
    | true =>
      obtain ⟨p, hp, hne, _⟩ := (matchAnyLoop_iff env name (toSlash env rel) patterns).mp hm
      exact absurd (h p hp) hne

/-- Witness of C14: two empty patterns against the empty name and path, in an
environment whose `PathMatch` accepts the empty pattern on the empty path. -/
theorem empty_patterns_never_match_witness :
    exampleEnv.PathMatch "" "" = true ∧
    (∀ p ∈ ["", ""], p = "") ∧
    matchAny exampleEnv ["", ""] "" "" = matchAny exampleEnv [] "" "" ∧
    matchAny exampleEnv ["", ""] "" "" = false :=
  ⟨by decide, by decide,
    (empty_patterns_never_match exampleEnv ["", ""] "" "").1,
    (empty_patterns_never_match exampleEnv ["", ""] "" "").2 (by decide)⟩

theorem exampleWalk_plain :
    Walk exampleEnv 3 "/root" (plainConfig "/root") none =
      some ⟨some exampleReachable, ⟨3, 2, 0⟩, none⟩ := by
  rfl

/-- C17: `Walk` returns an error exactly when `filepath.Abs` fails on the root
path or `os.Lstat` fails on the absolute root: in both cases it returns that
error at once, with a nil tree; otherwise whatever `Walk` returns has a nil
error and a non-nil tree, because every call of `buildTree` that returns,
returns a nil error; and on a file system whose existing paths canonicalise
to finitely many paths it does return, for every fuel above their number. -/
theorem walk_fails_only_at_root (env : Env) (cfg : Config) (filt : Option Filter)
    (rootPath : String) :
    (∀ e, env.Abs rootPath = .error e →
      ∀ fuel, Walk env fuel rootPath cfg filt = some ⟨none, ⟨0, 0, 0⟩, some e⟩) ∧
    (∀ absRoot e, env.Abs rootPath = .ok absRoot → env.Lstat absRoot = .error e →
      ∀ fuel, Walk env fuel rootPath cfg filt = some ⟨none, ⟨0, 0, 0⟩, some e⟩) ∧
    (∀ absRoot st, env.Abs rootPath = .ok absRoot → env.Lstat absRoot = .ok st →
      ∀ fuel r, Walk env fuel rootPath cfg filt = some r →
        r.err = none ∧ ∃ tree, r.tree = some tree) ∧
    (∀ fuel absPath node depth visited counts r,
      buildTree env cfg filt fuel absPath node depth visited counts = some r → r.err = none) ∧
    (∀ absRoot st (known : List String), env.Abs rootPath = .ok absRoot → env.Lstat absRoot = .ok st →
      (∀ p fi, env.Lstat p = .ok fi → ∃ c ∈ known, canonicalPath env p = .ok c) →
      ∃ tree counts, ∀ fuel, known.length + 1 ≤ fuel →
        Walk env fuel rootPath cfg filt = some ⟨some tree, counts, none⟩) := by
  refine ⟨?_, ?_, ?_, ?_, ?_⟩
  · intro e ha fuel
    rw [Walk_eq, ha]
  · intro absRoot e ha hl fuel
    rw [Walk_eq, ha]
    simp only [hl]
  · intro absRoot st ha hl fuel r h
    rw [Walk_eq, ha] at h
    simp only [hl] at h
    cases hb : buildTree env cfg filt fuel absRoot (rootNodeOf env absRoot st) 0 []
        (rootCountsOf st) with
    | none => rw [hb] at h; simp at h
    | some br =>
      rw [hb] at h
      have he := (buildTree_frame env cfg filt fuel absRoot _ 0 [] _ br hb).2
      simp only [he, Option.some.injEq] at h
      subst h
      exact ⟨rfl, br.node, rfl⟩
  · intro fuel absPath node depth visited counts r h
    exact (buildTree_frame env cfg filt fuel absPath node depth visited counts r h).2
  · intro absRoot st known ha hl hU
    have hm : unvisitedCount known [] < known.length + 1 := by
      unfold unvisitedCount
      exact Nat.lt_succ_of_le (List.length_filter_le _ _)
    obtain ⟨r, hr, he, _⟩ := buildTree_terminates env cfg filt known hU (known.length + 1)
      absRoot (rootNodeOf env absRoot st) 0 [] (rootCountsOf st) hm
    refine ⟨r.node, r.counts, ?_⟩
    intro fuel hfuel
    have hr' := buildTree_fuel_le env cfg filt hfuel hr
    rw [Walk_eq, ha]
    simp only [hl, hr', he]

/-- Witness of C17: `Abs` failing, `Lstat` failing on a missing root, and the
example root, where the walk returns a tree and no error. -/
theorem walk_fails_only_at_root_witness :
    (∀ fuel, Walk noCwdEnv fuel "root" (plainConfig "root") none =
      some ⟨none, ⟨0, 0, 0⟩, some "getwd: no such file or directory"⟩) ∧
    (∀ fuel, Walk exampleEnv fuel "/missing" (plainConfig "/missing") none =
      some ⟨none, ⟨0, 0, 0⟩, some "no such file or directory"⟩) ∧
    Walk exampleEnv 3 "/root" (plainConfig "/root") none =
      some ⟨some exampleReachable, ⟨3, 2, 0⟩, none⟩ ∧
    ((⟨some exampleReachable, ⟨3, 2, 0⟩, none⟩ : WalkResult).err = none ∧
      ∃ tree, (⟨some exampleReachable, ⟨3, 2, 0⟩, none⟩ : WalkResult).tree = some tree) :=
  ⟨(walk_fails_only_at_root noCwdEnv (plainConfig "root") none "root").1 _ rfl,
    (walk_fails_only_at_root exampleEnv (plainConfig "/missing") none "/missing").2.1
      "/missing" _ rfl rfl,
    exampleWalk_plain,
    (walk_fails_only_at_root exampleEnv (plainConfig "/root") none "/root").2.2.1
      "/root" ⟨true, false⟩ rfl rfl 3 _ exampleWalk_plain⟩

/-- A failed listing makes `buildTree` return at once, with a nil error. -/
theorem buildTree_unreadable (env : Env) (cfg : Config) (filt : Option Filter)
    (fuel : Nat) (absPath : String) (node : Node) (depth : Int) (visited : visitedSet)
    (counts : Counts) (e : Error) (h : env.ReadDir absPath = .error e) :
    buildTree env cfg filt (fuel + 1) absPath node depth visited counts =
      some ⟨node, visited, counts, none⟩ := by
  rw [buildTree]
  split
  · rfl
  · split
    · rfl
    · rw [h]

theorem lockedWalk :
    Walk lockedEnv 2 "/p" (plainConfig "/p") none =
      some ⟨some lockedTree, ⟨2, 1, 0⟩, none⟩ := by
  rfl

/-- C11: a call of `buildTree` on a directory whose listing fails returns a
nil error and leaves the node, the counts and the visited set as they are;
when the loop has appended and counted a child directory and the listing of
that child fails, the child stays in the tree without children, stays
counted, and the loop goes on with the remaining entries; a root whose
listing fails is returned as a childless, counted tree without an error; and
whatever `Walk` returns on an existing root has a nil error and a tree. -/
theorem unreadable_directory_is_kept (env : Env) (cfg : Config) (filt : Option Filter) :
    (∀ fuel absPath node depth visited counts e, env.ReadDir absPath = .error e →
      buildTree env cfg filt (fuel + 1) absPath node depth visited counts =
        some ⟨node, visited, counts, none⟩) ∧
    (∀ fuel absPath depth de rest node visited counts ch v' c' e,
      entryAction env cfg filt absPath depth de node visited counts = .expand ch v' c' →
      env.ReadDir (filepathJoin env absPath de.Name) = .error e →
      ch.Name = de.Name ∧ ch.Children = [] ∧
      c'.Dirs + c'.Files = counts.Dirs + counts.Files + 1 ∧
      buildEntries env cfg filt (buildTree env cfg filt (fuel + 1)) absPath depth (de :: rest)
          node visited counts =
        buildEntries env cfg filt (buildTree env cfg filt (fuel + 1)) absPath depth rest
          (node.appendChild ch) v' c') ∧
    (∀ fuel rootPath absRoot st e, env.Abs rootPath = .ok absRoot →
      env.Lstat absRoot = .ok st → env.ReadDir absRoot = .error e →
      Walk env (fuel + 1) rootPath cfg filt =
        some ⟨some (rootNodeOf env absRoot st), rootCountsOf st, none⟩) ∧
    (∀ fuel rootPath absRoot st r, env.Abs rootPath = .ok absRoot →
      env.Lstat absRoot = .ok st → Walk env fuel rootPath cfg filt = some r →
      r.err = none ∧ ∃ tree, r.tree = some tree) := by
  refine ⟨?_, ?_, ?_, ?_⟩
  · intro fuel absPath node depth visited counts e h
    exact buildTree_unreadable env cfg filt fuel absPath node depth visited counts e h
  · intro fuel absPath depth de rest node visited counts ch v' c' e ha hrd
    obtain ⟨fi, _, _, hch, hc, _⟩ := entryAction_expand ha
    refine ⟨by rw [hch], by rw [hch], by rw [hc]; exact Counts.bump_sum _ _ _, ?_⟩
    rw [buildEntries_cons, ha]
    simp only [descend]
    rw [buildTree_unreadable env cfg filt fuel _ ch (depth + 1) v' c' e hrd]
  · intro fuel rootPath absRoot st e ha hl hrd
    rw [Walk_eq, ha]
    simp only [hl]
    rw [buildTree_unreadable env cfg filt fuel absRoot _ 0 [] _ e hrd]
  · intro fuel rootPath absRoot st r ha hl h
    rw [Walk_eq, ha] at h
    simp only [hl] at h
    cases hb : buildTree env cfg filt fuel absRoot (rootNodeOf env absRoot st) 0 []
        (rootCountsOf st) with
    | none => rw [hb] at h; simp at h
    | some br =>
      rw [hb] at h
      have he := (buildTree_frame env cfg filt fuel absRoot _ 0 [] _ br hb).2
      simp only [he, Option.some.injEq] at h
      subst h
      exact ⟨rfl, br.node, rfl⟩

/-- Witness of C11: `/p` holds the unreadable directory `locked` and the file
`z.txt`; `locked` is in the tree without children and counted, `z.txt`
follows it, and there is no error. -/
theorem unreadable_directory_is_kept_witness :
    lockedEnv.ReadDir "/p/locked" = .error "invalid argument" ∧
    Walk lockedEnv 2 "/p" (plainConfig "/p") none =
      some ⟨some lockedTree, ⟨2, 1, 0⟩, none⟩ ∧
    buildTree lockedEnv (plainConfig "/p") none 1 "/p/locked"
        ⟨"locked", "locked", true, false, "", []⟩ 1 ["/p/locked"] ⟨2, 0, 0⟩ =
      some ⟨⟨"locked", "locked", true, false, "", []⟩, ["/p/locked"], ⟨2, 0, 0⟩, none⟩ ∧
    ((⟨some lockedTree, ⟨2, 1, 0⟩, none⟩ : WalkResult).err = none ∧
      ∃ tree, (⟨some lockedTree, ⟨2, 1, 0⟩, none⟩ : WalkResult).tree = some tree) :=
  ⟨rfl, lockedWalk,
    (unreadable_directory_is_kept lockedEnv (plainConfig "/p") none).1 0 "/p/locked" _ 1 _ _
      "invalid argument" rfl,
    (unreadable_directory_is_kept lockedEnv (plainConfig "/p") none).2.2.2 2 "/p" "/p"
      ⟨true, false⟩ _ rfl rfl lockedWalk⟩

theorem buildTree_not_dir (env : Env) (cfg : Config) (filt : Option Filter)
    (fuel : Nat) (p : String) (n : Node) (d : Int) (v : visitedSet) (c : Counts)
    (r : BuildResult) (hd : n.IsDir = false)
    (h : buildTree env cfg filt fuel p n d v c = some r) : r = ⟨n, v, c, none⟩ := by
  cases fuel with
  | zero => simp [buildTree] at h
  | succ fuel =>
    rw [buildTree] at h
    simp only [hd, Bool.not_false, if_true, Option.some.injEq] at h
    exact h.symm

/-- Without symlink following, `buildTree` gives no children to a symlink. -/
theorem buildTree_symlinks_closed (env : Env) (cfg : Config) (filt : Option Filter)
    (hfollow : cfg.FollowSymlinks = false)
    (fuel : Nat) (p : String) (n : Node) (d : Int) (v : visitedSet) (c : Counts)
    (r : BuildResult) (h : buildTree env cfg filt fuel p n d v c = some r) :
    (∀ m ∈ nodesOfList n.Children, m.IsSymlink = true → m.Children = []) →
    ∀ m ∈ nodesOfList r.node.Children, m.IsSymlink = true → m.Children = [] := by
  refine buildTree_rule_frame env cfg filt
    (fun _ _ n _ _ r =>
      (∀ m ∈ nodesOfList n.Children, m.IsSymlink = true → m.Children = []) →
      ∀ m ∈ nodesOfList r.node.Children, m.IsSymlink = true → m.Children = [])
    (fun _ _ _ n _ _ r =>
      (∀ m ∈ nodesOfList n.Children, m.IsSymlink = true → m.Children = []) →
      ∀ m ∈ nodesOfList r.node.Children, m.IsSymlink = true → m.Children = [])
    ?_ ?_ ?_ ?_ ?_ ?_ fuel p n d v c r h
  · intro d p n v c _ hn; exact hn
  · intro d p n v c entries r _ _ _ hL; exact hL
  · intro d p n v c hn; exact hn
  · intro d p de rest n v c r _ hL; exact hL
  · intro d p de rest n v c r ch v' c' ha hL hn
    obtain ⟨fi, _, _, hch, _, _⟩ := entryAction_leaf ha
    apply hL
    intro m hm
    rw [nodesOfList_appendChild, List.mem_append] at hm
    rcases hm with hm | hm
    · exact hn m hm
    · rcases Node.mem_nodes_iff.mp hm with rfl | ⟨x, hx, _⟩
      · intro _; rw [hch]
      · rw [hch] at hx; exact absurd hx (List.not_mem_nil _)
  · intro d p de rest n v c r ch v' c' rc ha hC hframe hL hn
    obtain ⟨fi, _, _, hch, _, _, hsym, _⟩ := entryAction_expand ha
    obtain ⟨kids, hkids⟩ := hframe
    have hns : fi.IsSymlink = false := by
      cases hs : fi.IsSymlink with
      | false => rfl
      | true =>
        have := (hsym hs).1
        rw [hfollow] at this
        cases this
    apply hL
    intro m hm
    rw [nodesOfList_appendChild, List.mem_append] at hm
    rcases hm with hm | hm
    · exact hn m hm
    · rcases Node.mem_nodes_iff.mp hm with rfl | ⟨x, hx, hmx⟩
      · intro hs
        rw [hkids, hch] at hs
        simp only at hs
        rw [hns] at hs
        cases hs
      · refine hC ?_ m (mem_nodesOfList.mpr ⟨x, hx, hmx⟩)
        intro y hy
        rw [hch] at hy
        simp [nodesOfList] at hy

/-- C12: with follow-symlinks disabled, every node of the tree returned by
`Walk` that is a symlink has no children, the root included, whatever `Stat`
says of the link's target. For the root this uses that `os.Lstat` never
reports a symlink as a directory. -/
theorem unfollowed_symlinks_have_no_children (env : Env) (fuel : Nat) (rootPath : String)
    (cfg : Config) (filt : Option Filter) (tree : Node) (counts : Counts)
    (hfollow : cfg.FollowSymlinks = false)
    (hlstat : ∀ p fi, env.Lstat p = .ok fi → fi.IsSymlink = true → fi.IsDir = false)
    (h : Walk env fuel rootPath cfg filt = some ⟨some tree, counts, none⟩) :
    ∀ m ∈ tree.nodes, m.IsSymlink = true → m.Children = [] := by
  obtain ⟨absRoot, st, v, _, hl, hb⟩ := Walk_ok h
  intro m hm hs
  rcases Node.mem_nodes_iff.mp hm with rfl | ⟨ch, hch, hmch⟩
  · obtain ⟨⟨new, hnew⟩, _⟩ := (buildTree_frame env cfg filt fuel absRoot _ 0 [] _ _ hb).1
    simp only at hnew
    have hsym : st.IsSymlink = true := by
      rw [hnew] at hs
      exact hs
    have hd := hlstat absRoot st hl hsym
    have := buildTree_not_dir env cfg filt fuel absRoot _ 0 [] _ _ (by simp [rootNodeOf, hd]) hb
    simp only [BuildResult.mk.injEq] at this
    rw [this.1]
    rfl
  · refine buildTree_symlinks_closed env cfg filt hfollow fuel absRoot _ 0 [] _ _ hb ?_ m
      (mem_nodesOfList.mpr ⟨ch, hch, hmch⟩) hs
    intro y hy
    simp [rootNodeOf, nodesOfList] at hy

theorem linkWalk_plain :
    Walk linkEnv 3 "/w/root" (plainConfig "/w/root") none =
      some ⟨some linkReachable, ⟨1, 1, 1⟩, none⟩ := by
  rfl

theorem tableEnv_lstat_symlink (rows : List FsRow)
    (hrows : ∀ r ∈ rows, r.info.IsSymlink = true → r.info.IsDir = false)
    (p : String) (fi : FileInfo) (h : (tableEnv rows).Lstat p = .ok fi)
    (hs : fi.IsSymlink = true) : fi.IsDir = false := by
  simp only [tableEnv, answer, lookupRow] at h
  cases hf : rows.find? (fun r => decide (r.path = p)) with
  | none => rw [hf] at h; simp at h
  | some r =>
    rw [hf] at h
    simp only [Except.ok.injEq] at h
    subst h
    exact hrows r (List.mem_of_find?_eq_some hf) hs

/-- Witness of C12: the symlink example with follow-symlinks disabled; `link`
points to a directory and has no children. -/
theorem unfollowed_symlinks_have_no_children_witness :
    (plainConfig "/w/root").FollowSymlinks = false ∧
    linkEnv.Stat "/w/root/link" = .ok ⟨true, false⟩ ∧
    Walk linkEnv 3 "/w/root" (plainConfig "/w/root") none =
      some ⟨some linkReachable, ⟨1, 1, 1⟩, none⟩ ∧
    ∀ m ∈ linkReachable.nodes, m.IsSymlink = true → m.Children = [] :=
  ⟨rfl, rfl, linkWalk_plain,
    unfollowed_symlinks_have_no_children linkEnv 3 "/w/root" (plainConfig "/w/root") none
      linkReachable ⟨1, 1, 1⟩ rfl
      (tableEnv_lstat_symlink _ (by decide)) linkWalk_plain⟩

theorem entryAction_skip_iff (env : Env) (cfg : Config) (filt : Option Filter) (p : String)
    (d : Int) (de : DirEntry) (n : Node) (v : visitedSet) (c : Counts) (fi : FileInfo)
    (hl : env.Lstat (filepathJoin env p de.Name) = .ok fi) :
    entryAction env cfg filt p d de n v c = .skip ↔
      pruned env filt ⟨filepathJoin env p de.Name, entryRel env n de.Name, de.Name, de.IsDir,
        fi.IsSymlink⟩ = true := by
  constructor
  · intro h
    rcases entryAction_skip h with ⟨e, he⟩ | ⟨fi', hl', hp⟩
    · rw [hl] at he; cases he
    · rw [hl] at hl'
      cases hl'
      exact hp
  · intro hp
    unfold entryAction
    simp only [hl, hp, if_true]

theorem ShouldExclude_not_dir (env : Env) (f : Filter) (e : Entry) (he : e.IsDir = false)
    (dirPatterns : List String) :
    ShouldExclude env f e =
      ShouldExclude env { f with cfg := { f.cfg with ExcludeDir := dirPatterns } } e := by
  unfold ShouldExclude gitIgnoreMatches
  simp [he]

theorem ShouldExclude_dir_patterns_only (env : Env) (f : Filter) (e : Entry)
    (he : e.IsDir = false) (h1 : f.cfg.Exclude = []) (h3 : f.cfg.ExcludeFile = [])
    (h4 : f.cfg.UseGitignore = false) (h5 : f.cfg.ExcludeHidden = false) :
    ShouldExclude env f e = false := by
  simp [ShouldExclude, gitIgnoreMatches, matchAny, he, h1, h3, h4, h5, matchAnyLoop]

theorem linkWalk_dir_pattern :
    Walk linkEnv 3 "/w/root" { followConfig "/w/root" with ExcludeDir := ["link"] }
        (some (plainFilter "/w/root" { followConfig "/w/root" with ExcludeDir := ["link"] })) =
      some ⟨some linkTreeFollowed, ⟨1, 2, 1⟩, none⟩ := by
  rfl

theorem linkBuild_dir_pattern :
    buildTree linkEnv { followConfig "/w/root" with ExcludeDir := ["link"] }
        (some (plainFilter "/w/root" { followConfig "/w/root" with ExcludeDir := ["link"] }))
        3 "/w/root" (rootNodeOf linkEnv "/w/root" ⟨true, false⟩) 0 []
        (rootCountsOf ⟨true, false⟩) =
      some ⟨linkTreeFollowed, ["/w/outside"], ⟨1, 2, 1⟩, none⟩ := by
  rfl

theorem gitIgnoreMatches_iff (f : Filter) (e : Entry) :
    gitIgnoreMatches f e = true ↔
      (f.cfg.UseGitignore = true ∧ f.hasGitFile = true ∧
        ∃ m, f.gitIgnore = some m ∧ m e.Rel = true) := by
  unfold gitIgnoreMatches
  cases f.cfg.UseGitignore <;> cases f.hasGitFile <;> cases f.gitIgnore <;> simp

theorem ShouldExclude_not_dir_iff (env : Env) (f : Filter) (e : Entry) (he : e.IsDir = false) :
    ShouldExclude env f e = true ↔
      (f.cfg.ExcludeHidden = true ∧ stringsHasPrefix e.Name "." = true) ∨
      gitIgnoreMatches f e = true ∨
      matchAny env f.cfg.ExcludeFile e.Name e.Rel = true ∨
      matchAny env f.cfg.Exclude e.Name e.Rel = true := by
  unfold ShouldExclude
  rw [he]
  cases f.cfg.ExcludeHidden <;> cases stringsHasPrefix e.Name "." <;>
    cases gitIgnoreMatches f e <;>
    cases matchAny env f.cfg.ExcludeFile e.Name e.Rel <;>
    cases matchAny env f.cfg.Exclude e.Name e.Rel <;> simp

theorem linkWalk_file_pattern :
    Walk linkEnv 3 "/w/root" { followConfig "/w/root" with ExcludeFile := ["link"] }
        (some (plainFilter "/w/root" { followConfig "/w/root" with ExcludeFile := ["link"] })) =
      some ⟨some ⟨"root", ".", true, false, "", []⟩, ⟨1, 0, 0⟩, none⟩ := by
  rfl

theorem linkWalk_general_pattern :
    Walk linkEnv 3 "/w/root" { followConfig "/w/root" with Exclude := ["link"] }
        (some (plainFilter "/w/root" { followConfig "/w/root" with Exclude := ["link"] })) =
      some ⟨some ⟨"root", ".", true, false, "", []⟩, ⟨1, 0, 0⟩, none⟩ := by
  rfl

/-- C19: the `Entry` the loop of `buildTree` hands to the filter carries the
directory flag of the listing (`de.IsDir()`), not of the link's target: an
entry that can be lstat-ed is skipped exactly when the filter excludes that
`Entry`, whatever `Stat` says and whatever the follow-symlinks setting. A
symlink, which the listing reports as not a directory, is therefore skipped
exactly when the hidden rule, the gitignore rule, a file-exclude pattern or a
general exclude pattern applies to it; the decision of `ShouldExclude` does
not depend on the directory-exclude list, a filter with directory-exclude
patterns only accepts it, and its node is in the tree. -/
theorem symlinks_ignore_dir_exclude (env : Env) (cfg : Config) (f : Filter) :
    (∀ absPath depth de node visited counts fi,
      env.Lstat (filepathJoin env absPath de.Name) = .ok fi →
      (entryAction env cfg (some f) absPath depth de node visited counts = .skip ↔
        ShouldExclude env f ⟨filepathJoin env absPath de.Name, entryRel env node de.Name,
          de.Name, de.IsDir, fi.IsSymlink⟩ = true)) ∧
    (∀ absPath depth de node visited counts fi,
      env.Lstat (filepathJoin env absPath de.Name) = .ok fi →
      fi.IsSymlink = true → de.IsDir = false →
      (entryAction env cfg (some f) absPath depth de node visited counts = .skip ↔
        (f.cfg.ExcludeHidden = true ∧ stringsHasPrefix de.Name "." = true) ∨
        (f.cfg.UseGitignore = true ∧ f.hasGitFile = true ∧
          ∃ m, f.gitIgnore = some m ∧ m (entryRel env node de.Name) = true) ∨
        (∃ p ∈ f.cfg.ExcludeFile, p ≠ "" ∧
          (env.PathMatch p de.Name = true ∨
            env.PathMatch p (toSlash env (entryRel env node de.Name)) = true)) ∨
        (∃ p ∈ f.cfg.Exclude, p ≠ "" ∧
          (env.PathMatch p de.Name = true ∨
            env.PathMatch p (toSlash env (entryRel env node de.Name)) = true)))) ∧
    (∀ e, e.IsDir = false →
      (ShouldExclude env f e = true ↔
        (f.cfg.ExcludeHidden = true ∧ stringsHasPrefix e.Name "." = true) ∨
        gitIgnoreMatches f e = true ∨
        matchAny env f.cfg.ExcludeFile e.Name e.Rel = true ∨
        matchAny env f.cfg.Exclude e.Name e.Rel = true)) ∧
    (∀ e dirPatterns, e.IsDir = false →
      ShouldExclude env f e =
        ShouldExclude env { f with cfg := { f.cfg with ExcludeDir := dirPatterns } } e) ∧
    (f.cfg.Exclude = [] → f.cfg.ExcludeFile = [] → f.cfg.UseGitignore = false →
      f.cfg.ExcludeHidden = false →
      (∀ e, e.IsDir = false → ShouldExclude env f e = false) ∧
      ∀ fuel absPath node depth visited counts r entries,
        buildTree env cfg (some f) fuel absPath node depth visited counts = some r →
        node.IsDir = true → ¬(0 < cfg.MaxDepth ∧ cfg.MaxDepth ≤ depth) →
        env.ReadDir absPath = .ok entries →
        ∀ de ∈ entries, ∀ fi, env.Lstat (filepathJoin env absPath de.Name) = .ok fi →
          fi.IsSymlink = true → de.IsDir = false →
          ∃ ch ∈ r.node.Children, ch.Name = de.Name ∧ ch.IsSymlink = true) := by
  refine ⟨?_, ?_, ?_, ?_, ?_⟩
  · intro absPath depth de node visited counts fi hl
    exact entryAction_skip_iff env cfg (some f) absPath depth de node visited counts fi hl
  · intro absPath depth de node visited counts fi hl hs hraw
    rw [entryAction_skip_iff env cfg (some f) absPath depth de node visited counts fi hl]
    simp only [pruned]
    rw [ShouldExclude_not_dir_iff env f _ hraw]
    simp only [gitIgnoreMatches_iff, matchAny, matchAnyLoop_iff]
  · intro e he
    exact ShouldExclude_not_dir_iff env f e he
  · intro e dirPatterns he
    exact ShouldExclude_not_dir env f e he dirPatterns
  · intro h1 h3 h4 h5
    refine ⟨fun e he => ShouldExclude_dir_patterns_only env f e he h1 h3 h4 h5, ?_⟩
    intro fuel absPath node depth visited counts r entries h hd hg hrd de hde fi hl hs hraw
    obtain ⟨ch, hch, hname, _, hsym⟩ := buildTree_present env cfg (some f) fuel absPath node
      depth visited counts r entries h hd hg hrd de hde fi hl
      (ShouldExclude_dir_patterns_only env f _ hraw h1 h3 h4 h5)
    exact ⟨ch, hch, hname, by rw [hsym, hs]⟩

/-- Witness of C19: the symlink example with follow-symlinks enabled; the
target of `link` is a directory. With `exclude-dir = ["link"]` the link is
still in the tree; with `exclude-file = ["link"]` or `exclude = ["link"]` it
is skipped and the tree is the root alone. -/
theorem symlinks_ignore_dir_exclude_witness :
    linkEnv.Stat "/w/root/link" = .ok ⟨true, false⟩ ∧
    Walk linkEnv 3 "/w/root" { followConfig "/w/root" with ExcludeDir := ["link"] }
        (some (plainFilter "/w/root" { followConfig "/w/root" with ExcludeDir := ["link"] })) =
      some ⟨some linkTreeFollowed, ⟨1, 2, 1⟩, none⟩ ∧
    ShouldExclude linkEnv
        (plainFilter "/w/root" { followConfig "/w/root" with ExcludeDir := ["link"] })
        ⟨"/w/root/link", "link", "link", false, true⟩ = false ∧
    (∃ ch ∈ linkTreeFollowed.Children, ch.Name = "link" ∧ ch.IsSymlink = true) ∧
    Walk linkEnv 3 "/w/root" { followConfig "/w/root" with ExcludeFile := ["link"] }
        (some (plainFilter "/w/root" { followConfig "/w/root" with ExcludeFile := ["link"] })) =
      some ⟨some ⟨"root", ".", true, false, "", []⟩, ⟨1, 0, 0⟩, none⟩ ∧
    Walk linkEnv 3 "/w/root" { followConfig "/w/root" with Exclude := ["link"] }
        (some (plainFilter "/w/root" { followConfig "/w/root" with Exclude := ["link"] })) =
      some ⟨some ⟨"root", ".", true, false, "", []⟩, ⟨1, 0, 0⟩, none⟩ ∧
    entryAction linkEnv { followConfig "/w/root" with ExcludeFile := ["link"] }
        (some (plainFilter "/w/root" { followConfig "/w/root" with ExcludeFile := ["link"] }))
        "/w/root" 0 ⟨"link", false⟩ (rootNodeOf linkEnv "/w/root" ⟨true, false⟩) []
        (rootCountsOf ⟨true, false⟩) = .skip :=
  ⟨rfl, linkWalk_dir_pattern,
    ((symlinks_ignore_dir_exclude linkEnv
      { followConfig "/w/root" with ExcludeDir := ["link"] }
      (plainFilter "/w/root" { followConfig "/w/root" with ExcludeDir := ["link"] })).2.2.2.2
      rfl rfl rfl rfl).1 _ rfl,
    ((symlinks_ignore_dir_exclude linkEnv
      { followConfig "/w/root" with ExcludeDir := ["link"] }
      (plainFilter "/w/root" { followConfig "/w/root" with ExcludeDir := ["link"] })).2.2.2.2
      rfl rfl rfl rfl).2 3 "/w/root" _ 0 [] _ _ [⟨"link", false⟩] linkBuild_dir_pattern rfl
      (by decide) rfl ⟨"link", false⟩ (by simp) ⟨false, true⟩ rfl rfl rfl,
    linkWalk_file_pattern, linkWalk_general_pattern,
    ((symlinks_ignore_dir_exclude linkEnv
      { followConfig "/w/root" with ExcludeFile := ["link"] }
      (plainFilter "/w/root" { followConfig "/w/root" with ExcludeFile := ["link"] })).2.1
      "/w/root" 0 ⟨"link", false⟩ (rootNodeOf linkEnv "/w/root" ⟨true, false⟩) []
      (rootCountsOf ⟨true, false⟩) ⟨false, true⟩ rfl rfl rfl).mpr
      (Or.inr (Or.inr (Or.inl ⟨"link", List.mem_singleton.mpr rfl, by decide, Or.inl rfl⟩)))⟩

theorem Node.count_eq (P : Node → Bool) (n : Node) :
    n.count P = (if P n then 1 else 0) + (nodesOfList n.Children).countP P := by
  unfold Node.count
  rw [Node.nodes_eq, List.countP_cons]
  omega

theorem Node.count_appendChild (P : Node → Bool) (n ch : Node)
    (hP : P (n.appendChild ch) = P n) :
    (n.appendChild ch).count P = n.count P + ch.count P := by
  rw [Node.count_eq, Node.count_eq P n, nodesOfList_appendChild, List.countP_append, hP]
  unfold Node.count
  omega

/-- `buildTree` raises each counter by the number of nodes of its kind that it
adds: directories that are not symlinks, files or symlinks, and symlinks. -/
theorem buildTree_count_kinds (env : Env) (cfg : Config) (filt : Option Filter)
    (hlist : ∀ p es de fi, env.ReadDir p = .ok es → de ∈ es →
      env.Lstat (filepathJoin env p de.Name) = .ok fi → fi.IsSymlink = true → de.IsDir = false)
    (fuel : Nat) (p : String) (n : Node) (d : Int) (v : visitedSet) (c : Counts)
    (r : BuildResult) (h : buildTree env cfg filt fuel p n d v c = some r) :
    r.counts.Dirs + n.count (fun m => m.IsDir && !m.IsSymlink) =
        c.Dirs + r.node.count (fun m => m.IsDir && !m.IsSymlink) ∧
    r.counts.Files + n.count (fun m => !m.IsDir || m.IsSymlink) =
        c.Files + r.node.count (fun m => !m.IsDir || m.IsSymlink) ∧
    r.counts.Symlinks + n.count (fun m => m.IsSymlink) =
        c.Symlinks + r.node.count (fun m => m.IsSymlink) := by
  refine buildTree_rule_frame env cfg filt
    (fun _ _ n _ c r =>
      r.counts.Dirs + n.count (fun m => m.IsDir && !m.IsSymlink) =
          c.Dirs + r.node.count (fun m => m.IsDir && !m.IsSymlink) ∧
      r.counts.Files + n.count (fun m => !m.IsDir || m.IsSymlink) =
          c.Files + r.node.count (fun m => !m.IsDir || m.IsSymlink) ∧
      r.counts.Symlinks + n.count (fun m => m.IsSymlink) =
          c.Symlinks + r.node.count (fun m => m.IsSymlink))
    (fun _ p es n _ c r =>
      (∀ de ∈ es, ∀ fi, env.Lstat (filepathJoin env p de.Name) = .ok fi →
        fi.IsSymlink = true → de.IsDir = false) →
      r.counts.Dirs + n.count (fun m => m.IsDir && !m.IsSymlink) =
          c.Dirs + r.node.count (fun m => m.IsDir && !m.IsSymlink) ∧
      r.counts.Files + n.count (fun m => !m.IsDir || m.IsSymlink) =
          c.Files + r.node.count (fun m => !m.IsDir || m.IsSymlink) ∧
      r.counts.Symlinks + n.count (fun m => m.IsSymlink) =
          c.Symlinks + r.node.count (fun m => m.IsSymlink))
    ?_ ?_ ?_ ?_ ?_ ?_ fuel p n d v c r h
  · intro d p n v c _
    exact ⟨rfl, rfl, rfl⟩
  · intro d p n v c entries r _ _ hrd hL
    apply hL
    intro de hde fi hl hs
    exact hlist p entries de fi hrd ((mem_sortSlice _ _ _).mp hde) hl hs
  · intro d p n v c _
    exact ⟨rfl, rfl, rfl⟩
  · intro d p de rest n v c r _ hL hes
    exact hL (fun de' hde' => hes de' (List.mem_cons_of_mem _ hde'))
  · intro d p de rest n v c r ch v' c' ha hL hes
    obtain ⟨fi, hl, _, hch, hc, _⟩ := entryAction_leaf ha
    have hraw := hes de (List.mem_cons_self _ _) fi hl
    have hrest := hL (fun de' hde' => hes de' (List.mem_cons_of_mem _ hde'))
    rw [Node.count_appendChild (fun m => m.IsDir && !m.IsSymlink) n ch rfl,
      Node.count_appendChild (fun m => !m.IsDir || m.IsSymlink) n ch rfl,
      Node.count_appendChild (fun m => m.IsSymlink) n ch rfl] at hrest
    have h1 : ch.count (fun m => m.IsDir && !m.IsSymlink) + c.Dirs = c'.Dirs ∧
        ch.count (fun m => !m.IsDir || m.IsSymlink) + c.Files = c'.Files ∧
        ch.count (fun m => m.IsSymlink) + c.Symlinks = c'.Symlinks := by
      rw [hc, hch]
      simp only [Node.count_eq, nodesOfList, List.countP_nil, Counts.bump]
      revert hraw
      cases de.IsDir <;> cases fi.IsSymlink <;> simp <;> omega
    omega
  · intro d p de rest n v c r ch v' c' rc ha hC hframe hL hes
    obtain ⟨fi, hl, _, hch, hc, hreal, _⟩ := entryAction_expand ha
    obtain ⟨kids, hkids⟩ := hframe
    have hraw := hes de (List.mem_cons_self _ _) fi hl
    have hrest := hL (fun de' hde' => hes de' (List.mem_cons_of_mem _ hde'))
    rw [Node.count_appendChild (fun m => m.IsDir && !m.IsSymlink) n rc.node rfl,
      Node.count_appendChild (fun m => !m.IsDir || m.IsSymlink) n rc.node rfl,
      Node.count_appendChild (fun m => m.IsSymlink) n rc.node rfl] at hrest
    have h1 : ch.count (fun m => m.IsDir && !m.IsSymlink) + c.Dirs = c'.Dirs ∧
        ch.count (fun m => !m.IsDir || m.IsSymlink) + c.Files = c'.Files ∧
        ch.count (fun m => m.IsSymlink) + c.Symlinks = c'.Symlinks := by
      rw [hc, hch]
      simp only [Node.count_eq, nodesOfList, List.countP_nil, Counts.bump]
      revert hraw hreal
      cases de.IsDir <;> cases fi.IsSymlink <;> simp <;> omega
    omega

theorem buildTree_symlinks_not_dir (env : Env) (cfg : Config) (filt : Option Filter)
    (hfollow : cfg.FollowSymlinks = false)
    (hlist : ∀ p es de fi, env.ReadDir p = .ok es → de ∈ es →
      env.Lstat (filepathJoin env p de.Name) = .ok fi → fi.IsSymlink = true → de.IsDir = false)
    (fuel : Nat) (p : String) (n : Node) (d : Int) (v : visitedSet) (c : Counts)
    (r : BuildResult) (h : buildTree env cfg filt fuel p n d v c = some r) :
    (∀ m ∈ nodesOfList n.Children, m.IsSymlink = true → m.IsDir = false) →
    ∀ m ∈ nodesOfList r.node.Children, m.IsSymlink = true → m.IsDir = false := by
  refine buildTree_rule_frame env cfg filt
    (fun _ _ n _ _ r =>
      (∀ m ∈ nodesOfList n.Children, m.IsSymlink = true → m.IsDir = false) →
      ∀ m ∈ nodesOfList r.node.Children, m.IsSymlink = true → m.IsDir = false)
    (fun _ p es n _ _ r =>
      (∀ de ∈ es, ∀ fi, env.Lstat (filepathJoin env p de.Name) = .ok fi →
        fi.IsSymlink = true → de.IsDir = false) →
      (∀ m ∈ nodesOfList n.Children, m.IsSymlink = true → m.IsDir = false) →
      ∀ m ∈ nodesOfList r.node.Children, m.IsSymlink = true → m.IsDir = false)
    ?_ ?_ ?_ ?_ ?_ ?_ fuel p n d v c r h
  · intro d p n v c _ hn; exact hn
  · intro d p n v c entries r _ _ hrd hL
    apply hL
    intro de hde fi hl hs
    exact hlist p entries de fi hrd ((mem_sortSlice _ _ _).mp hde) hl hs
  · intro d p n v c _ hn; exact hn
  · intro d p de rest n v c r _ hL hes
    exact hL (fun de' hde' => hes de' (List.mem_cons_of_mem _ hde'))
  · intro d p de rest n v c r ch v' c' ha hL hes hn
    obtain ⟨fi, hl, _, hch, _, _⟩ := entryAction_leaf ha
    have hraw := hes de (List.mem_cons_self _ _) fi hl
    apply hL (fun de' hde' => hes de' (List.mem_cons_of_mem _ hde'))
    intro m hm
    rw [nodesOfList_appendChild, List.mem_append] at hm
    rcases hm with hm | hm
    · exact hn m hm
    · rcases Node.mem_nodes_iff.mp hm with rfl | ⟨x, hx, _⟩
      · rw [hch]; exact hraw
      · rw [hch] at hx; exact absurd hx (List.not_mem_nil _)
  · intro d p de rest n v c r ch v' c' rc ha hC hframe hL hes hn
    obtain ⟨fi, _, _, hch, _, _, hsym, _⟩ := entryAction_expand ha
    obtain ⟨kids, hkids⟩ := hframe
    have hns : fi.IsSymlink = false := by
      cases hs : fi.IsSymlink with
      | false => rfl
      | true =>
        have := (hsym hs).1
        rw [hfollow] at this
        cases this
    apply hL (fun de' hde' => hes de' (List.mem_cons_of_mem _ hde'))
    intro m hm
    rw [nodesOfList_appendChild, List.mem_append] at hm
    rcases hm with hm | hm
    · exact hn m hm
    · rcases Node.mem_nodes_iff.mp hm with rfl | ⟨x, hx, hmx⟩
      · intro hs
        rw [hkids, hch] at hs
        simp only at hs
        rw [hns] at hs
        cases hs
      · refine hC ?_ m (mem_nodesOfList.mpr ⟨x, hx, hmx⟩)
        intro y hy
        rw [hch] at hy
        simp [nodesOfList] at hy

theorem linkWalk_followed :
    Walk linkEnv 3 "/w/root" (followConfig "/w/root") none =
      some ⟨some linkTreeFollowed, ⟨1, 2, 1⟩, none⟩ := by
  rfl

/-- C18, as the claim states it, fails for a followed symlink: in the symlink
example with follow-symlinks enabled, `link` is counted as a file when it is
appended and its `IsDir` is set afterwards, so the tree has two nodes with
`IsDir = true` and one with `IsDir = false` while `Dirs = 1` and `Files = 2`. -/
theorem followed_symlink_counted_as_file :
    Walk linkEnv 3 "/w/root" (followConfig "/w/root") none =
      some ⟨some linkTreeFollowed, ⟨1, 2, 1⟩, none⟩ ∧
    linkTreeFollowed.count (fun m => m.IsDir) = 2 ∧
    linkTreeFollowed.count (fun m => !m.IsDir) = 1 ∧
    (1 : Nat) ≠ linkTreeFollowed.count (fun m => m.IsDir) ∧
    (2 : Nat) ≠ linkTreeFollowed.count (fun m => !m.IsDir) :=
  ⟨linkWalk_followed, by decide, by decide, by decide, by decide⟩

/-- C18, amended: when the listing and `Lstat` never report a symlink as a
directory, as `os.DirEntry.IsDir` and `os.Lstat` do, and `Walk` succeeds,
`Symlinks` is the number of nodes with `IsSymlink = true`, `Dirs` is the
number of nodes with `IsDir = true` that are not symlinks, and `Files` is the
number of nodes with `IsDir = false` or `IsSymlink = true`: a symlink is
counted as a file, also when it was followed and its `IsDir` was set. With
follow-symlinks disabled these are the numbers of nodes with `IsDir = true`
and with `IsDir = false`. -/
theorem counts_by_kind (env : Env) (fuel : Nat) (rootPath : String) (cfg : Config)
    (filt : Option Filter) (tree : Node) (counts : Counts)
    (hlstat : ∀ p fi, env.Lstat p = .ok fi → fi.IsSymlink = true → fi.IsDir = false)
    (hlist : ∀ p es de fi, env.ReadDir p = .ok es → de ∈ es →
      env.Lstat (filepathJoin env p de.Name) = .ok fi → fi.IsSymlink = true → de.IsDir = false)
    (h : Walk env fuel rootPath cfg filt = some ⟨some tree, counts, none⟩) :
    (counts.Dirs = tree.count (fun m => m.IsDir && !m.IsSymlink) ∧
      counts.Files = tree.count (fun m => !m.IsDir || m.IsSymlink) ∧
      counts.Symlinks = tree.count (fun m => m.IsSymlink)) ∧
    (cfg.FollowSymlinks = false →
      counts.Dirs = tree.count (fun m => m.IsDir) ∧
      counts.Files = tree.count (fun m => !m.IsDir)) := by
  obtain ⟨absRoot, st, v, _, hl, hb⟩ := Walk_ok h
  have hroot := hlstat absRoot st hl
  have hk := buildTree_count_kinds env cfg filt hlist fuel absRoot _ 0 [] _ _ hb
  simp only at hk
  have hr : (rootNodeOf env absRoot st).count (fun m => m.IsDir && !m.IsSymlink) =
        (rootCountsOf st).Dirs ∧
      (rootNodeOf env absRoot st).count (fun m => !m.IsDir || m.IsSymlink) =
        (rootCountsOf st).Files ∧
      (rootNodeOf env absRoot st).count (fun m => m.IsSymlink) =
        (rootCountsOf st).Symlinks := by
    simp only [Node.count_eq, rootNodeOf, rootCountsOf, nodesOfList, List.countP_nil,
      Counts.bump]
    revert hroot
    cases st.IsDir <;> cases st.IsSymlink <;> simp
  have hmain : counts.Dirs = tree.count (fun m => m.IsDir && !m.IsSymlink) ∧
      counts.Files = tree.count (fun m => !m.IsDir || m.IsSymlink) ∧
      counts.Symlinks = tree.count (fun m => m.IsSymlink) := by
    omega
  refine ⟨hmain, ?_⟩
  intro hfollow
  have hsym : ∀ m ∈ tree.nodes, m.IsSymlink = true → m.IsDir = false := by
    intro m hm hs
    rcases Node.mem_nodes_iff.mp hm with rfl | ⟨ch, hch, hmch⟩
    · obtain ⟨⟨new, hnew⟩, _⟩ := (buildTree_frame env cfg filt fuel absRoot _ 0 [] _ _ hb).1
      simp only at hnew
      rw [hnew] at hs ⊢
      exact hroot hs
    · refine buildTree_symlinks_not_dir env cfg filt hfollow hlist fuel absRoot _ 0 [] _ _ hb
        ?_ m (mem_nodesOfList.mpr ⟨ch, hch, hmch⟩) hs
      intro y hy
      simp [rootNodeOf, nodesOfList] at hy
  have e1 : tree.count (fun m => m.IsDir) = tree.count (fun m => m.IsDir && !m.IsSymlink) := by
    unfold Node.count
    apply List.countP_congr
    intro m hm
    have := hsym m hm
    revert this
    cases m.IsDir <;> cases m.IsSymlink <;> simp
  have e2 : tree.count (fun m => !m.IsDir) =
      tree.count (fun m => !m.IsDir || m.IsSymlink) := by
    unfold Node.count
    apply List.countP_congr
    intro m hm
    have := hsym m hm
    revert this
    cases m.IsDir <;> cases m.IsSymlink <;> simp
  rw [e1, e2]
  exact ⟨hmain.1, hmain.2.1⟩

theorem tableEnv_readDir (rows : List FsRow) (Q : DirEntry → Prop)
    (hrows : ∀ r ∈ rows, ∀ l, r.listing = some l → ∀ de ∈ l, Q de)
    (p : String) (es : List DirEntry) (h : (tableEnv rows).ReadDir p = .ok es) :
    ∀ de ∈ es, Q de := by
  simp only [tableEnv, answer, lookupRow] at h
  cases hf : rows.find? (fun r => decide (r.path = p)) with
  | none => rw [hf] at h; simp at h
  | some r =>
    rw [hf] at h
    simp only at h
    cases hlst : r.listing with
    | none => rw [hlst] at h; simp at h
    | some l =>
      rw [hlst] at h
      simp only [Except.ok.injEq] at h
      subst h
      exact hrows r (List.mem_of_find?_eq_some hf) l hlst

/-- Witness of the amended C18: the symlink example with follow-symlinks
enabled, where the followed `link` counts as a file. -/
theorem counts_by_kind_witness :
    Walk linkEnv 3 "/w/root" (followConfig "/w/root") none =
      some ⟨some linkTreeFollowed, ⟨1, 2, 1⟩, none⟩ ∧
    ((1 : Nat) = linkTreeFollowed.count (fun m => m.IsDir && !m.IsSymlink) ∧
      (2 : Nat) = linkTreeFollowed.count (fun m => !m.IsDir || m.IsSymlink) ∧
      (1 : Nat) = linkTreeFollowed.count (fun m => m.IsSymlink)) :=
  ⟨linkWalk_followed,
    (counts_by_kind linkEnv 3 "/w/root" (followConfig "/w/root") none linkTreeFollowed
      ⟨1, 2, 1⟩ (tableEnv_lstat_symlink _ (by decide))
      (fun p es de _ hrd hde _ _ =>
        tableEnv_readDir _ (fun de => de.IsDir = false) (by decide) p es hrd de hde)
      linkWalk_followed).1⟩

theorem plainName_spec {sep : Char} {s : String} (h : plainName sep s = true) :
    s ≠ "" ∧ s ≠ "." ∧ s ≠ ".." ∧ '/' ∉ s.data ∧ sep ∉ s.data := by
  unfold plainName at h
  simp only [Bool.and_eq_true, decide_eq_true_eq, Bool.not_eq_true'] at h
  refine ⟨h.1.1.1.1, h.1.1.1.2, h.1.1.2, ?_, ?_⟩
  · intro hm
    have : s.data.contains '/' = true := by simpa using hm
    rw [h.1.2] at this
    cases this
  · intro hm
    have : s.data.contains sep = true := by simpa using hm
    rw [h.2] at this
    cases this

theorem slashed_of_no_separator (sep : Char) (s : String) (h : sep ∈ s.data → sep = '/') :
    slashed sep s = s := by
  unfold slashed
  apply String.ext
  simp only
  have : ∀ l : List Char, (sep ∈ l → sep = '/') →
      l.map (fun c => if c = sep then '/' else c) = l := by
    intro l
    induction l with
    | nil => intro _; rfl
    | cons c l ih =>
      intro hl
      rw [List.map_cons, ih (fun hm => hl (List.mem_cons_of_mem _ hm))]
      by_cases hc : c = sep
      · rw [if_pos hc, hc, hl (by simp [hc])]
      · rw [if_neg hc]
  exact this s.data h

theorem slashed_unslashed (sep : Char) (s : String) (h : sep ∈ s.data → sep = '/') :
    slashed sep (unslashed sep s) = s := by
  unfold slashed unslashed
  apply String.ext
  simp only [List.map_map]
  have : ∀ l : List Char, (sep ∈ l → sep = '/') →
      l.map ((fun c => if c = sep then '/' else c) ∘ (fun c => if c = '/' then sep else c))
        = l := by
    intro l
    induction l with
    | nil => intro _; rfl
    | cons c l ih =>
      intro hl
      rw [List.map_cons, ih (fun hm => hl (List.mem_cons_of_mem _ hm))]
      simp only [Function.comp]
      by_cases hc : c = '/'
      · rw [if_pos hc, if_pos rfl, hc]
      · rw [if_neg hc]
        by_cases hs : c = sep
        · exact absurd (hs ▸ hl (by simp [hs])) hc
        · rw [if_neg hs]
  exact this s.data h

theorem unslashed_slash (s : String) : unslashed '/' s = s := by
  unfold unslashed
  apply String.ext
  simp only
  induction s.data with
  | nil => rfl
  | cons c l ih =>
    rw [List.map_cons, ih]
    by_cases hc : c = '/'
    · rw [if_pos hc, hc]
    · rw [if_neg hc]

theorem goodRel_spec {sep : Char} {s : String} (h : goodRel sep s) :
    s ≠ "" ∧ s ≠ "." ∧ (sep ∈ s.data → sep = '/') := by
  induction h with
  | single b hb =>
    obtain ⟨h1, h2, _, _, h5⟩ := plainName_spec hb
    exact ⟨h1, h2, fun hm => absurd hm h5⟩
  | join a b _ hb ih =>
    obtain ⟨_, _, _, _, h5⟩ := plainName_spec hb
    have hdata : (a ++ "/" ++ b).data = a.data ++ '/' :: b.data := by
      simp [String.data_append]
    refine ⟨?_, ?_, ?_⟩
    · intro h
      have := congrArg String.data h
      rw [hdata] at this
      simp at this
    · intro h
      have := congrArg String.data h
      rw [hdata] at this
      have hm : '/' ∈ a.data ++ '/' :: b.data := by simp
      rw [this] at hm
      revert hm
      decide
    · intro hm
      rw [hdata, List.mem_append, List.mem_cons] at hm
      rcases hm with hm | hm | hm
      · exact ih.2.2 hm
      · exact hm
      · exact absurd hm h5

theorem entryRel_joined (env : Env) (sep : Char) (hslash : ∀ s, env.ToSlash s = slashed sep s)
    (hclean : ∀ a b, goodRel sep a → plainName sep b = true →
      env.Clean (a ++ "/" ++ b) = unslashed sep (a ++ "/" ++ b))
    (n : Node) (name : String) (hn : n.Rel = "." ∨ goodRel sep n.Rel)
    (hname : plainName sep name = true) :
    entryRel env n name = joinedRel n.Rel name ∧ goodRel sep (entryRel env n name) := by
  unfold entryRel joinedRel
  by_cases hr : n.Rel = "."
  · simp only [hr, ne_eq, not_true_eq_false, if_false, if_true, hslash]
    rw [slashed_of_no_separator sep name
      (fun hm => absurd hm (plainName_spec hname).2.2.2.2)]
    exact ⟨rfl, goodRel.single name hname⟩
  · rcases hn with hn | hn
    · exact absurd hn hr
    · have hj := goodRel.join _ _ hn hname
      simp only [ne_eq, hr, not_false_eq_true, if_true, if_false, hslash, filepathJoin,
        (goodRel_spec hn).1]
      rw [hclean _ _ hn hname, slashed_unslashed sep _ (goodRel_spec hj).2.2]
      exact ⟨rfl, hj⟩

/-- `buildTree` gives every child the relative path joined from its
parent's and its name. -/
theorem buildTree_rels (env : Env) (cfg : Config) (filt : Option Filter) (sep : Char)
    (hslash : ∀ s, env.ToSlash s = slashed sep s)
    (hclean : ∀ a b, goodRel sep a → plainName sep b = true →
      env.Clean (a ++ "/" ++ b) = unslashed sep (a ++ "/" ++ b))
    (hnames : ∀ p es, env.ReadDir p = .ok es → ∀ de ∈ es, plainName sep de.Name = true)
    (fuel : Nat) (p : String) (n : Node) (d : Int) (v : visitedSet) (c : Counts)
    (r : BuildResult) (h : buildTree env cfg filt fuel p n d v c = some r) :
    (n.Rel = "." ∨ goodRel sep n.Rel) →
    ((∀ m ∈ nodesOfList n.Children, goodRel sep m.Rel) ∧
      ∀ m ∈ n.nodes, ∀ ch ∈ m.Children, ch.Rel = joinedRel m.Rel ch.Name) →
    (∀ m ∈ nodesOfList r.node.Children, goodRel sep m.Rel) ∧
      ∀ m ∈ r.node.nodes, ∀ ch ∈ m.Children, ch.Rel = joinedRel m.Rel ch.Name := by
  refine buildTree_rule_frame env cfg filt
    (fun _ _ n _ _ r => (n.Rel = "." ∨ goodRel sep n.Rel) →
      ((∀ m ∈ nodesOfList n.Children, goodRel sep m.Rel) ∧
        ∀ m ∈ n.nodes, ∀ ch ∈ m.Children, ch.Rel = joinedRel m.Rel ch.Name) →
      (∀ m ∈ nodesOfList r.node.Children, goodRel sep m.Rel) ∧
        ∀ m ∈ r.node.nodes, ∀ ch ∈ m.Children, ch.Rel = joinedRel m.Rel ch.Name)
    (fun _ _ es n _ _ r => (∀ de ∈ es, plainName sep de.Name = true) →
      (n.Rel = "." ∨ goodRel sep n.Rel) →
      ((∀ m ∈ nodesOfList n.Children, goodRel sep m.Rel) ∧
        ∀ m ∈ n.nodes, ∀ ch ∈ m.Children, ch.Rel = joinedRel m.Rel ch.Name) →
      (∀ m ∈ nodesOfList r.node.Children, goodRel sep m.Rel) ∧
        ∀ m ∈ r.node.nodes, ∀ ch ∈ m.Children, ch.Rel = joinedRel m.Rel ch.Name)
    ?_ ?_ ?_ ?_ ?_ ?_ fuel p n d v c r h
  · intro d p n v c _ _ hn; exact hn
  · intro d p n v c entries r _ _ hrd hL
    apply hL
    intro de hde
    exact hnames p entries hrd de ((mem_sortSlice _ _ _).mp hde)
  · intro d p n v c _ _ hn; exact hn
  · intro d p de rest n v c r _ hL hes
    exact hL (fun de' hde' => hes de' (List.mem_cons_of_mem _ hde'))
  · intro d p de rest n v c r ch v' c' ha hL hes hrel hn
    obtain ⟨fi, _, _, hch, _, _⟩ := entryAction_leaf ha
    obtain ⟨hj, hg⟩ := entryRel_joined env sep hslash hclean n de.Name hrel
      (hes de (List.mem_cons_self _ _))
    have hchRel : ch.Rel = entryRel env n de.Name := by rw [hch]
    have hchName : ch.Name = de.Name := by rw [hch]
    have hchKids : ch.Children = [] := by rw [hch]
    apply hL (fun de' hde' => hes de' (List.mem_cons_of_mem _ hde')) hrel
    constructor
    · intro m hm
      rw [nodesOfList_appendChild, List.mem_append] at hm
      rcases hm with hm | hm
      · exact hn.1 m hm
      · rcases Node.mem_nodes_iff.mp hm with rfl | ⟨x, hx, _⟩
        · rw [hchRel]; exact hg
        · rw [hchKids] at hx; exact absurd hx (List.not_mem_nil _)
    · intro m hm x hx
      rcases Node.mem_nodes_iff.mp hm with rfl | ⟨y, hy, hmy⟩
      · rw [Node.appendChild_children, List.mem_append, List.mem_singleton] at hx
        rcases hx with hx | hx
        · exact hn.2 n (Node.mem_nodes_iff.mpr (Or.inl rfl)) x hx
        · subst hx
          rw [hchRel, hchName, hj]
          rfl
      · rw [Node.appendChild_children, List.mem_append, List.mem_singleton] at hy
        rcases hy with hy | hy
        · exact hn.2 m (Node.mem_nodes_iff.mpr (Or.inr ⟨y, hy, hmy⟩)) x hx
        · subst hy
          rcases Node.mem_nodes_iff.mp hmy with rfl | ⟨z, hz, _⟩
          · rw [hchKids] at hx; exact absurd hx (List.not_mem_nil _)
          · rw [hchKids] at hz; exact absurd hz (List.not_mem_nil _)
  · intro d p de rest n v c r ch v' c' rc ha hC hframe hL hes hrel hn
    obtain ⟨fi, _, _, hch, _, _⟩ := entryAction_expand ha
    obtain ⟨kids, hkids⟩ := hframe
    obtain ⟨hj, hg⟩ := entryRel_joined env sep hslash hclean n de.Name hrel
      (hes de (List.mem_cons_self _ _))
    have hchRel : ch.Rel = entryRel env n de.Name := by rw [hch]
    have hchName : ch.Name = de.Name := by rw [hch]
    have hchKids : ch.Children = [] := by rw [hch]
    have hrcRel : rc.node.Rel = ch.Rel := by rw [hkids]
    have hrcName : rc.node.Name = ch.Name := by rw [hkids]
    have hsub := hC (Or.inr (hchRel ▸ hg)) ⟨by
        intro m hm
        rw [hchKids] at hm
        simp [nodesOfList] at hm, by
        intro m hm x hx
        rcases Node.mem_nodes_iff.mp hm with rfl | ⟨y, hy, _⟩
        · rw [hchKids] at hx; exact absurd hx (List.not_mem_nil _)
        · rw [hchKids] at hy; exact absurd hy (List.not_mem_nil _)⟩
    apply hL (fun de' hde' => hes de' (List.mem_cons_of_mem _ hde')) hrel
    constructor
    · intro m hm
      rw [nodesOfList_appendChild, List.mem_append] at hm
      rcases hm with hm | hm
      · exact hn.1 m hm
      · rcases Node.mem_nodes_iff.mp hm with rfl | ⟨x, hx, hmx⟩
        · rw [hrcRel, hchRel]; exact hg
        · exact hsub.1 m (mem_nodesOfList.mpr ⟨x, hx, hmx⟩)
    · intro m hm x hx
      rcases Node.mem_nodes_iff.mp hm with rfl | ⟨y, hy, hmy⟩
      · rw [Node.appendChild_children, List.mem_append, List.mem_singleton] at hx
        rcases hx with hx | hx
        · exact hn.2 n (Node.mem_nodes_iff.mpr (Or.inl rfl)) x hx
        · subst hx
          rw [hrcRel, hrcName, hchRel, hchName, hj]
          rfl
      · rw [Node.appendChild_children, List.mem_append, List.mem_singleton] at hy
        rcases hy with hy | hy
        · exact hn.2 m (Node.mem_nodes_iff.mpr (Or.inr ⟨y, hy, hmy⟩)) x hx
        · subst hy
          exact hsub.2 m hmy x hx

/-- C15: on a host whose separator is `sep` (`ToSlash` replaces each separator
by a slash; `Clean` changes a relative path of single components joined by
slashes only by writing the separator for each slash) and whose listings
return single path components, the tree returned by `Walk` has a root with
`Rel = "."` and `Name` the base name of the absolute root path, a child of the
root has `Rel = Name`, and a child of any other node has
`Rel = parent.Rel + "/" + Name`; and the `Entry` that the filter accepted when
a node was appended carries the node's `Rel` and `Name`. -/
theorem rel_is_slash_joined_names (env : Env) (sep : Char) (fuel : Nat) (rootPath : String)
    (cfg : Config) (filt : Option Filter) (tree : Node) (counts : Counts)
    (hslash : ∀ s, env.ToSlash s = slashed sep s)
    (hclean : ∀ a b, goodRel sep a → plainName sep b = true →
      env.Clean (a ++ "/" ++ b) = unslashed sep (a ++ "/" ++ b))
    (hnames : ∀ p es, env.ReadDir p = .ok es → ∀ de ∈ es, plainName sep de.Name = true)
    (h : Walk env fuel rootPath cfg filt = some ⟨some tree, counts, none⟩) :
    tree.Rel = "." ∧
    (∃ absRoot, env.Abs rootPath = .ok absRoot ∧ tree.Name = env.Base absRoot) ∧
    (∀ ch ∈ tree.Children, ch.Rel = ch.Name) ∧
    (∀ m ∈ tree.descendants, ∀ ch ∈ m.Children, ch.Rel = m.Rel ++ "/" ++ ch.Name) ∧
    (∀ absPath depth de node visited cnt ch v' c',
      (entryAction env cfg filt absPath depth de node visited cnt = .leaf ch v' c' ∨
        entryAction env cfg filt absPath depth de node visited cnt = .expand ch v' c') →
      ∃ fi, env.Lstat (filepathJoin env absPath de.Name) = .ok fi ∧
        pruned env filt ⟨filepathJoin env absPath de.Name, ch.Rel, ch.Name, de.IsDir,
          fi.IsSymlink⟩ = false) := by
  obtain ⟨absRoot, st, v, ha, _, hb⟩ := Walk_ok h
  obtain ⟨⟨new, hnew⟩, _⟩ := (buildTree_frame env cfg filt fuel absRoot _ 0 [] _ _ hb).1
  simp only at hnew
  have hrel : tree.Rel = "." := by rw [hnew]; rfl
  have hinv := buildTree_rels env cfg filt sep hslash hclean hnames fuel absRoot _ 0 [] _ _
    hb (Or.inl rfl) ⟨by
      intro m hm
      simp [rootNodeOf, nodesOfList] at hm, by
      intro m hm x hx
      rcases Node.mem_nodes_iff.mp hm with rfl | ⟨y, hy, _⟩
      · exact absurd hx (List.not_mem_nil _)
      · exact absurd hy (List.not_mem_nil _)⟩
  simp only at hinv
  refine ⟨hrel, ⟨absRoot, ha, by rw [hnew]; rfl⟩, ?_, ?_, ?_⟩
  · intro ch hch
    have := hinv.2 tree (Node.mem_nodes_iff.mpr (Or.inl rfl)) ch hch
    rw [this, hrel]
    rfl
  · intro m hm ch hch
    have hg := hinv.1 m hm
    obtain ⟨c0, hc0, hmc0⟩ := mem_nodesOfList.mp hm
    have := hinv.2 m (Node.mem_nodes_iff.mpr (Or.inr ⟨c0, hc0, hmc0⟩)) ch hch
    rw [this]
    unfold joinedRel
    rw [if_neg (goodRel_spec hg).2.1]
  · intro absPath depth de node visited cnt ch v' c' hact
    rcases hact with hact | hact
    · obtain ⟨fi, hl, hp, hch, _, _⟩ := entryAction_leaf hact
      refine ⟨fi, hl, ?_⟩
      rw [hch]
      exact hp
    · obtain ⟨fi, hl, hp, hch, _, _⟩ := entryAction_expand hact
      refine ⟨fi, hl, ?_⟩
      rw [hch]
      exact hp

theorem backslashWalk :
    Walk backslashEnv 3 "C:\\w" (plainConfig "C:\\w") none =
      some ⟨some backslashTree, ⟨2, 1, 0⟩, none⟩ := by
  rfl

/-- Witness of C15: the example tree on a host whose separator is the slash,
where `src/main.go` is the `Rel` of `main.go` below `src`, and the same on a
host whose separator is the backslash, where `filepath.Join` gives
`src\main.go` and `filepath.ToSlash` turns it into `src/main.go`. -/
theorem rel_is_slash_joined_names_witness :
    (Walk exampleEnv 3 "/root" (plainConfig "/root") none =
        some ⟨some exampleReachable, ⟨3, 2, 0⟩, none⟩ ∧
      exampleReachable.Rel = "." ∧
      (∃ absRoot, exampleEnv.Abs "/root" = .ok absRoot ∧
        exampleReachable.Name = exampleEnv.Base absRoot) ∧
      (∀ ch ∈ exampleReachable.Children, ch.Rel = ch.Name) ∧
      (∀ m ∈ exampleReachable.descendants, ∀ ch ∈ m.Children,
        ch.Rel = m.Rel ++ "/" ++ ch.Name)) ∧
    (Walk backslashEnv 3 "C:\\w" (plainConfig "C:\\w") none =
        some ⟨some backslashTree, ⟨2, 1, 0⟩, none⟩ ∧
      filepathJoin backslashEnv "src" "main.go" = "src\\main.go" ∧
      backslashEnv.ToSlash "src\\main.go" = "src/main.go" ∧
      backslashTree.Rel = "." ∧
      (∃ absRoot, backslashEnv.Abs "C:\\w" = .ok absRoot ∧
        backslashTree.Name = backslashEnv.Base absRoot) ∧
      (∀ ch ∈ backslashTree.Children, ch.Rel = ch.Name) ∧
      (∀ m ∈ backslashTree.descendants, ∀ ch ∈ m.Children,
        ch.Rel = m.Rel ++ "/" ++ ch.Name)) :=
  ⟨⟨exampleWalk_plain,
      (rel_is_slash_joined_names exampleEnv '/' 3 "/root" (plainConfig "/root") none
        exampleReachable ⟨3, 2, 0⟩
        (fun s => (slashed_of_no_separator '/' s (fun _ => rfl)).symm)
        (fun a b _ _ => (unslashed_slash (a ++ "/" ++ b)).symm)
        (fun p es hrd => tableEnv_readDir _ (fun de => plainName '/' de.Name = true)
          (by decide) p es hrd) exampleWalk_plain).1,
      (rel_is_slash_joined_names exampleEnv '/' 3 "/root" (plainConfig "/root") none
        exampleReachable ⟨3, 2, 0⟩
        (fun s => (slashed_of_no_separator '/' s (fun _ => rfl)).symm)
        (fun a b _ _ => (unslashed_slash (a ++ "/" ++ b)).symm)
        (fun p es hrd => tableEnv_readDir _ (fun de => plainName '/' de.Name = true)
          (by decide) p es hrd) exampleWalk_plain).2.1,
      (rel_is_slash_joined_names exampleEnv '/' 3 "/root" (plainConfig "/root") none
        exampleReachable ⟨3, 2, 0⟩
        (fun s => (slashed_of_no_separator '/' s (fun _ => rfl)).symm)
        (fun a b _ _ => (unslashed_slash (a ++ "/" ++ b)).symm)
        (fun p es hrd => tableEnv_readDir _ (fun de => plainName '/' de.Name = true)
          (by decide) p es hrd) exampleWalk_plain).2.2.1,
      (rel_is_slash_joined_names exampleEnv '/' 3 "/root" (plainConfig "/root") none
        exampleReachable ⟨3, 2, 0⟩
        (fun s => (slashed_of_no_separator '/' s (fun _ => rfl)).symm)
        (fun a b _ _ => (unslashed_slash (a ++ "/" ++ b)).symm)
        (fun p es hrd => tableEnv_readDir _ (fun de => plainName '/' de.Name = true)
          (by decide) p es hrd) exampleWalk_plain).2.2.2.1⟩,
    ⟨backslashWalk, by decide, by decide,
      (rel_is_slash_joined_names backslashEnv '\\' 3 "C:\\w" (plainConfig "C:\\w") none
        backslashTree ⟨2, 1, 0⟩ (fun _ => rfl) (fun _ _ _ _ => rfl)
        (fun p es hrd => tableEnv_readDir _ (fun de => plainName '\\' de.Name = true)
          (by decide) p es hrd) backslashWalk).1,
      (rel_is_slash_joined_names backslashEnv '\\' 3 "C:\\w" (plainConfig "C:\\w") none
        backslashTree ⟨2, 1, 0⟩ (fun _ => rfl) (fun _ _ _ _ => rfl)
        (fun p es hrd => tableEnv_readDir _ (fun de => plainName '\\' de.Name = true)
          (by decide) p es hrd) backslashWalk).2.1,
      (rel_is_slash_joined_names backslashEnv '\\' 3 "C:\\w" (plainConfig "C:\\w") none
        backslashTree ⟨2, 1, 0⟩ (fun _ => rfl) (fun _ _ _ _ => rfl)
        (fun p es hrd => tableEnv_readDir _ (fun de => plainName '\\' de.Name = true)
          (by decide) p es hrd) backslashWalk).2.2.1,
      (rel_is_slash_joined_names backslashEnv '\\' 3 "C:\\w" (plainConfig "C:\\w") none
        backslashTree ⟨2, 1, 0⟩ (fun _ => rfl) (fun _ _ _ _ => rfl)
        (fun p es hrd => tableEnv_readDir _ (fun de => plainName '\\' de.Name = true)
          (by decide) p es hrd) backslashWalk).2.2.2.1⟩⟩

theorem sortSlice_singleton {α : Type} (less : α → α → Bool) (x : α) :
    sortSlice less [x] = [x] := rfl

/-- C13, as the claim states it, fails for the label without following: in
the symlink example with follow-symlinks disabled the node of `link` is
childless, but it is not a directory node, so its label is
`link -> ../outside`, without the directory suffix. -/
theorem unfollowed_link_label_has_no_suffix :
    linkEnv.Readlink "/w/root/link" = .ok "../outside" ∧
    linkEnv.Stat "/w/root/link" = .ok ⟨true, false⟩ ∧
    Walk linkEnv 3 "/w/root" (plainConfig "/w/root") none =
      some ⟨some linkReachable, ⟨1, 1, 1⟩, none⟩ ∧
    ∃ l, linkReachable.Children = [l] ∧ l.Name = "link" ∧ l.Children = [] ∧
      nodeLabel l = "link -> ../outside" ∧ nodeLabel l ≠ "link/ -> ../outside" ∧
      renderTree "" linkReachable "" true = "root/\n└── link -> ../outside\n" :=
  ⟨rfl, rfl, linkWalk_plain,
    ⟨"link", "link", false, true, "../outside", []⟩, rfl, rfl, rfl, by decide, by decide,
    by decide⟩

/-- C13, amended: for a root whose listing is the single symlink `link` with
target text `../outside`, and no filter rule against it: with follow-symlinks
disabled the node of `link` is childless and its label is
`link -> ../outside`; with follow-symlinks enabled, unlimited depth and a
target directory holding only the file `a.txt`, the node is a directory node
with the label `link/ -> ../outside` and exactly one child, `a.txt`. -/
theorem symlink_example (env : Env) (cfg : Config) (filt : Option Filter)
    (rootPath absRoot : String)
    (ha : env.Abs rootPath = .ok absRoot) (hl : env.Lstat absRoot = .ok ⟨true, false⟩)
    (hrd : env.ReadDir absRoot = .ok [⟨"link", false⟩])
    (hll : env.Lstat (filepathJoin env absRoot "link") = .ok ⟨false, true⟩)
    (hrl : env.Readlink (filepathJoin env absRoot "link") = .ok "../outside")
    (hpr : ∀ e, pruned env filt e = false) :
    (cfg.FollowSymlinks = false → ∀ fuel, ∃ tree counts l,
      Walk env (fuel + 1) rootPath cfg filt = some ⟨some tree, counts, none⟩ ∧
      tree.Children = [l] ∧ l.Name = "link" ∧ l.Children = [] ∧
      nodeLabel l = "link -> ../outside") ∧
    (cfg.FollowSymlinks = true → cfg.MaxDepth = 0 →
      ∀ real st, env.Stat (filepathJoin env absRoot "link") = .ok st → st.IsDir = true →
      canonicalPath env (filepathJoin env absRoot "link") = .ok real →
      env.ReadDir (filepathJoin env absRoot "link") = .ok [⟨"a.txt", false⟩] →
      env.Lstat (filepathJoin env (filepathJoin env absRoot "link") "a.txt") =
        .ok ⟨false, false⟩ →
      ∀ fuel, ∃ tree counts l a,
        Walk env (fuel + 2) rootPath cfg filt = some ⟨some tree, counts, none⟩ ∧
        tree.Children = [l] ∧ l.Name = "link" ∧ l.Children = [a] ∧ a.Name = "a.txt" ∧
        a.Children = [] ∧ nodeLabel l = "link/ -> ../outside") := by
  constructor
  · intro hfollow fuel
    have hact : entryAction env cfg filt absRoot 0 ⟨"link", false⟩
        (rootNodeOf env absRoot ⟨true, false⟩) [] (rootCountsOf ⟨true, false⟩) =
        .leaf ⟨"link", entryRel env (rootNodeOf env absRoot ⟨true, false⟩) "link", false, true,
          "../outside", []⟩ [] ((rootCountsOf ⟨true, false⟩).bump false true) := by
      unfold entryAction
      simp [hll, hpr, hfollow, entryLinkTarget, hrl]
    refine ⟨(rootNodeOf env absRoot ⟨true, false⟩).appendChild
        ⟨"link", entryRel env (rootNodeOf env absRoot ⟨true, false⟩) "link", false, true,
          "../outside", []⟩, (rootCountsOf ⟨true, false⟩).bump false true,
      ⟨"link", entryRel env (rootNodeOf env absRoot ⟨true, false⟩) "link", false, true,
          "../outside", []⟩, ?_, rfl, rfl, rfl, rfl⟩
    rw [Walk_eq, ha]
    simp only [hl]
    rw [buildTree_expand_eq env cfg filt fuel absRoot _ 0 [] _ [⟨"link", false⟩] rfl
      (by intro hh; exact absurd (lt_of_lt_of_le hh.1 hh.2) (by decide)) hrd,
      sortSlice_singleton, buildEntries_cons, hact]
    simp only [buildEntries]
  · intro hfollow hdepth real st hst hdir hcan hrd2 hla fuel
    have hact : entryAction env cfg filt absRoot 0 ⟨"link", false⟩
        (rootNodeOf env absRoot ⟨true, false⟩) [] (rootCountsOf ⟨true, false⟩) =
        .expand ⟨"link", entryRel env (rootNodeOf env absRoot ⟨true, false⟩) "link", true, true,
          "../outside", []⟩ [real] ((rootCountsOf ⟨true, false⟩).bump false true) := by
      unfold entryAction
      simp [hll, hpr, hfollow, entryLinkTarget, hrl, hst, hdir, hcan, hdepth,
        visitedSet.Seen, visitedSet.Add]
    have hgate : ∀ d : Int, ¬(0 < cfg.MaxDepth ∧ cfg.MaxDepth ≤ d) := by
      intro d hh
      rw [hdepth] at hh
      exact absurd hh.1 (by decide)
    have hact2 : ∀ (n : Node) (v : visitedSet) (c : Counts),
        entryAction env cfg filt (filepathJoin env absRoot "link") (0 + 1) ⟨"a.txt", false⟩
          n v c =
        .leaf ⟨"a.txt", entryRel env n "a.txt", false, false, "", []⟩ v
          (c.bump false false) := by
      intro n v c
      unfold entryAction
      simp [hla, hpr, entryLinkTarget]
    refine ⟨(rootNodeOf env absRoot ⟨true, false⟩).appendChild
        ((⟨"link", entryRel env (rootNodeOf env absRoot ⟨true, false⟩) "link", true, true,
          "../outside", []⟩ : Node).appendChild
          ⟨"a.txt", entryRel env ⟨"link",
            entryRel env (rootNodeOf env absRoot ⟨true, false⟩) "link", true, true,
            "../outside", []⟩ "a.txt", false, false, "", []⟩),
      ((rootCountsOf ⟨true, false⟩).bump false true).bump false false,
      (⟨"link", entryRel env (rootNodeOf env absRoot ⟨true, false⟩) "link", true, true,
          "../outside", []⟩ : Node).appendChild
          ⟨"a.txt", entryRel env ⟨"link",
            entryRel env (rootNodeOf env absRoot ⟨true, false⟩) "link", true, true,
            "../outside", []⟩ "a.txt", false, false, "", []⟩,
      ⟨"a.txt", entryRel env ⟨"link",
            entryRel env (rootNodeOf env absRoot ⟨true, false⟩) "link", true, true,
            "../outside", []⟩ "a.txt", false, false, "", []⟩,
      ?_, rfl, rfl, rfl, rfl, rfl, rfl⟩
    rw [Walk_eq, ha]
    simp only [hl]
    rw [buildTree_expand_eq env cfg filt (fuel + 1) absRoot _ 0 [] _ [⟨"link", false⟩] rfl
      (hgate 0) hrd, sortSlice_singleton, buildEntries_cons, hact]
    simp only [descend]
    rw [buildTree_expand_eq env cfg filt fuel (filepathJoin env absRoot "link") _ (0 + 1) _ _
      [⟨"a.txt", false⟩] rfl (hgate _) hrd2, sortSlice_singleton, buildEntries_cons, hact2]
    simp only [buildEntries]

/-- Witness of the amended C13: the symlink example, without and with
follow-symlinks. -/
theorem symlink_example_witness :
    linkEnv.ReadDir "/w/root" = .ok [⟨"link", false⟩] ∧
    linkEnv.Readlink "/w/root/link" = .ok "../outside" ∧
    (∃ tree counts l,
      Walk linkEnv 3 "/w/root" (plainConfig "/w/root") none = some ⟨some tree, counts, none⟩ ∧
      tree.Children = [l] ∧ l.Name = "link" ∧ l.Children = [] ∧
      nodeLabel l = "link -> ../outside") ∧
    (∃ tree counts l a,
      Walk linkEnv 3 "/w/root" (followConfig "/w/root") none =
        some ⟨some tree, counts, none⟩ ∧
      tree.Children = [l] ∧ l.Name = "link" ∧ l.Children = [a] ∧ a.Name = "a.txt" ∧
      a.Children = [] ∧ nodeLabel l = "link/ -> ../outside") :=
  ⟨rfl, rfl,
    (symlink_example linkEnv (plainConfig "/w/root") none "/w/root" "/w/root" rfl rfl rfl rfl
      rfl (fun _ => rfl)).1 rfl 2,
    (symlink_example linkEnv (followConfig "/w/root") none "/w/root" "/w/root" rfl rfl rfl rfl
      rfl (fun _ => rfl)).2 rfl rfl "/w/outside" ⟨true, false⟩ rfl rfl rfl rfl rfl 1⟩

/-- C20, the code at the failing input: in the symlink example with
follow-symlinks enabled, `MaxDepth = -1` leaves `link` unexpanded and counts
two entries, while `MaxDepth = 0` expands it and counts three; `depthString`
reports both as `unlimited`. The gate of `buildTree` tests `MaxDepth > 0`,
the symlink branch tests `MaxDepth == 0`. -/
theorem negative_maxDepth_differs_from_zero :
    Walk linkEnv 3 "/w/root" { followConfig "/w/root" with MaxDepth := -1 } none =
      some ⟨some linkReachable, ⟨1, 1, 1⟩, none⟩ ∧
    Walk linkEnv 3 "/w/root" { followConfig "/w/root" with MaxDepth := 0 } none =
      some ⟨some linkTreeFollowed, ⟨1, 2, 1⟩, none⟩ ∧
    linkReachable.size = 2 ∧ linkTreeFollowed.size = 3 ∧
    depthString (-1) = "unlimited" ∧ depthString 0 = "unlimited" :=
  ⟨rfl, rfl, by decide, by decide, by decide, by decide⟩

theorem joinLines_append (xs ys : List String) :
    joinLines (xs ++ ys) = joinLines xs ++ joinLines ys := by
  induction xs with
  | nil => simp [joinLines]
  | cons x xs ih => simp [joinLines, ih, String.append_assoc]

theorem nodeLabel_eq (n : Node) :
    nodeLabel n = n.Name ++ (if n.IsDir = true then "/" else "") ++
      (if n.IsSymlink = true ∧ n.LinkTarget ≠ "" then " -> " ++ n.LinkTarget else "") := by
  unfold nodeLabel
  by_cases ht : n.LinkTarget = "" <;> cases n.IsDir <;> cases n.IsSymlink <;> simp [ht]

theorem renderSubtree_eq (b : String) (n : Node) (pfx : String) :
    renderSubtree b n pfx = renderSubtreeLoop b pfx n.Children := by
  cases n
  simp [renderSubtree]

theorem renderSubtreeLoop_cons (b pfx : String) (child : Node) (rest : List Node) :
    renderSubtreeLoop b pfx (child :: rest) =
      renderSubtreeLoop
        (renderSubtreeLoop
          (b ++ (pfx ++ (if rest.isEmpty = true then "└── " else "├── ") ++ nodeLabel child
            ++ "\n"))
          (if rest.isEmpty = true then pfx ++ "    " else pfx ++ "│   ") child.Children)
        pfx rest := by
  rw [renderSubtreeLoop]
  by_cases hc : child.Children.length > 0
  · rw [if_pos hc, renderSubtree_eq]
  · rw [if_neg hc]
    have : child.Children = [] := by
      cases h : child.Children with
      | nil => rfl
      | cons x xs => rw [h] at hc; simp at hc
    rw [this, renderSubtreeLoop]

theorem renderTreeLoop_eq (b pfx : String) (cs : List Node) :
    renderTreeLoop b pfx cs = renderSubtreeLoop b pfx cs := by
  induction cs generalizing b with
  | nil => simp [renderTreeLoop, renderSubtreeLoop]
  | cons child rest ih =>
    rw [renderSubtreeLoop_cons, renderTreeLoop]
    rw [ih]
    by_cases hc : child.Children.length > 0
    · rw [if_pos hc, renderSubtree_eq]
    · rw [if_neg hc]
      have : child.Children = [] := by
        cases h : child.Children with
        | nil => rfl
        | cons x xs => rw [h] at hc; simp at hc
      rw [this, renderSubtreeLoop]

theorem splitLines_line (s : List Char) (hs : '\n' ∉ s) (acc rest : List Char) :
    splitLines acc (s ++ '\n' :: rest) = String.mk (acc ++ s) :: splitLines [] rest := by
  induction s generalizing acc with
  | nil => simp [splitLines]
  | cons c s ih =>
    have hc : c ≠ '\n' := fun h => hs (by simp [h])
    have hs' : '\n' ∉ s := fun h => hs (List.mem_cons_of_mem _ h)
    rw [List.cons_append, splitLines, if_neg hc, ih hs']
    simp

/-- The lines of a text made of records that each end in the only line break
they hold are the records without their line breaks. -/
theorem linesOf_joinLines {α : Type} (Q : String → α → Prop) (chunks : List String)
    (xs : List α)
    (h : List.Forall₂ (fun chunk x => ∃ s, chunk = s ++ "\n" ∧ '\n' ∉ s.data ∧ Q s x)
      chunks xs) :
    List.Forall₂ Q (linesOf (joinLines chunks)) xs := by
  induction h with
  | nil => simp [joinLines, linesOf, splitLines]
  | @cons chunk x cs ys hc _ ih =>
    obtain ⟨s, rfl, hs, hq⟩ := hc
    have : linesOf (joinLines ((s ++ "\n") :: cs)) = s :: linesOf (joinLines cs) := by
      unfold linesOf
      simp only [joinLines, String.data_append]
      rw [List.append_assoc, List.singleton_append, splitLines_line s.data hs]
      simp
    rw [this]
    exact List.Forall₂.cons hq ih

theorem renderTree_eq_loop (b : String) (tree : Node) (pfx : String) (isRoot : Bool) :
    renderTree b tree pfx isRoot =
      renderSubtreeLoop (if isRoot = true then b ++ (nodeLabel tree ++ "\n")
        else b ++ (pfx ++ nodeLabel tree ++ "\n")) pfx tree.Children := by
  unfold renderTree
  simp only
  by_cases hc : tree.Children.length = 0
  · rw [if_pos hc]
    have : tree.Children = [] := List.length_eq_zero.mp hc
    rw [this, renderSubtreeLoop]
  · rw [if_neg hc, renderTreeLoop_eq]

/-- The loop of `renderSubtree` appends one record per node below the given
children, in pre-order: an indentation, the label and a line break. The
indentation holds a line break only if the prefix does. -/
theorem renderSubtreeLoop_records :
    ∀ (k : Nat) (cs : List Node), (nodesOfList cs).length ≤ k → ∀ (b pfx : String),
      ∃ chunks, renderSubtreeLoop b pfx cs = b ++ joinLines chunks ∧
        List.Forall₂ (fun chunk n => ∃ p, chunk = p ++ nodeLabel n ++ "\n" ∧
            ('\n' ∉ pfx.data → '\n' ∉ p.data)) chunks
          (nodesOfList cs) := by
  intro k
  induction k with
  | zero =>
    intro cs hk b pfx
    cases cs with
    | nil => exact ⟨[], by simp [renderSubtreeLoop, joinLines], by simp [nodesOfList]⟩
    | cons child rest =>
      simp [nodesOfList, Node.nodes_eq] at hk
  | succ k ih =>
    intro cs hk b pfx
    induction cs generalizing b with
    | nil => exact ⟨[], by simp [renderSubtreeLoop, joinLines], by simp [nodesOfList]⟩
    | cons child rest ihrest =>
      have hnodes : nodesOfList (child :: rest) =
          child :: (nodesOfList child.Children ++ nodesOfList rest) := by
        simp [nodesOfList, Node.nodes_eq]
      rw [hnodes] at hk ⊢
      simp only [List.length_cons, List.length_append] at hk
      rw [renderSubtreeLoop_cons]
      obtain ⟨l1, h1, f1⟩ := ih child.Children (by omega)
        (b ++ (pfx ++ (if rest.isEmpty = true then "└── " else "├── ") ++ nodeLabel child
          ++ "\n"))
        (if rest.isEmpty = true then pfx ++ "    " else pfx ++ "│   ")
      obtain ⟨l2, h2, f2⟩ := ihrest (by omega)
        (renderSubtreeLoop
          (b ++ (pfx ++ (if rest.isEmpty = true then "└── " else "├── ") ++ nodeLabel child
            ++ "\n"))
          (if rest.isEmpty = true then pfx ++ "    " else pfx ++ "│   ") child.Children)
      refine ⟨(pfx ++ (if rest.isEmpty = true then "└── " else "├── ") ++ nodeLabel child
          ++ "\n") :: (l1 ++ l2), ?_, ?_⟩
      · rw [h2, h1]
        simp only [joinLines, joinLines_append, String.append_assoc]
      · refine List.Forall₂.cons ⟨pfx ++ (if rest.isEmpty = true then "└── " else "├── "),
          rfl, ?_⟩ ?_
        · intro hp
          cases rest.isEmpty <;> simp [String.data_append, hp]
        · refine List.rel_append (f1.imp ?_) f2
          rintro chunk n ⟨p, hchunk, hp⟩
          refine ⟨p, hchunk, fun hpfx => hp ?_⟩
          cases rest.isEmpty <;> simp [String.data_append, hpfx]

theorem nodeLabel_no_line_break (n : Node) (h1 : '\n' ∉ n.Name.data)
    (h2 : n.IsSymlink = true → '\n' ∉ n.LinkTarget.data) : '\n' ∉ (nodeLabel n).data := by
  rw [nodeLabel_eq]
  cases hd : n.IsDir <;> by_cases hs : n.IsSymlink = true ∧ n.LinkTarget ≠ ""
  · simp [String.data_append, hs, h1, h2 hs.1]
  · simp [String.data_append, hs, h1]
  · simp [String.data_append, hs, h1, h2 hs.1]
  · simp [String.data_append, hs, h1]

theorem forall₂_imp_mem {α β : Type} {R S : α → β → Prop} {l1 : List α} {l2 : List β}
    (h : List.Forall₂ R l1 l2) (himp : ∀ a b, b ∈ l2 → R a b → S a b) :
    List.Forall₂ S l1 l2 := by
  induction h with
  | nil => exact List.Forall₂.nil
  | @cons a b as bs hab _ ih =>
    refine List.Forall₂.cons (himp a b (List.mem_cons_self _ _) hab) (ih ?_)
    intro a' b' hb' hr
    exact himp a' b' (List.mem_cons_of_mem _ hb') hr

/-- Counterexample to C16 as worded: the tree `Walk` returns for a directory
`/r` holding a file whose name contains a line break is rendered as three
lines for two nodes, and the second line does not end with the label of the
file. -/
theorem renderTree_splits_name_with_line_break :
    Walk brokenNameEnv 2 "/r" (plainConfig "/r") none =
      some ⟨some brokenNameTree, ⟨1, 1, 0⟩, none⟩ ∧
    renderTree "" brokenNameTree "" true = "r/\n└── a\nb\n" ∧
    linesOf (renderTree "" brokenNameTree "" true) = ["r/", "└── a", "b"] ∧
    brokenNameTree.nodes.length = 2 := by
  refine ⟨?_, ?_, ?_, ?_⟩
  · rfl
  · decide
  · decide
  · rfl

/-- C16 (amended): for every tree, `renderTree` appends to the buffer exactly
one record per node, in depth-first pre-order following the `Children` order;
each record is an indentation, the node's label and a line break, where the
label is the `Name`, then `/` exactly when `IsDir`, then ` -> ` and the
`LinkTarget` exactly when `IsSymlink` and the target is not empty, and where
the indentation holds a line break only if the prefix does. When neither the
prefix nor a name nor the target of a symlink holds a line break, the text
written has exactly one line per node, in that order, and each line ends with
the node's label. -/
theorem renderTree_one_line_per_node (b : String) (tree : Node) (pfx : String)
    (isRoot : Bool) :
    (∃ chunks, renderTree b tree pfx isRoot = b ++ joinLines chunks ∧
      List.Forall₂
        (fun chunk n => ∃ indent, chunk = indent ++
          (n.Name ++ (if n.IsDir = true then "/" else "") ++
            (if n.IsSymlink = true ∧ n.LinkTarget ≠ "" then " -> " ++ n.LinkTarget else ""))
          ++ "\n" ∧ ('\n' ∉ pfx.data → '\n' ∉ indent.data))
        chunks tree.nodes) ∧
    ('\n' ∉ pfx.data →
      (∀ n ∈ tree.nodes, '\n' ∉ n.Name.data ∧
        (n.IsSymlink = true → '\n' ∉ n.LinkTarget.data)) →
      List.Forall₂
        (fun line n => ∃ indent, line = indent ++
          (n.Name ++ (if n.IsDir = true then "/" else "") ++
            (if n.IsSymlink = true ∧ n.LinkTarget ≠ "" then " -> " ++ n.LinkTarget else "")))
        (linesOf (renderTree "" tree pfx isRoot)) tree.nodes) := by
  have hrec : ∀ b : String, ∃ chunks, renderTree b tree pfx isRoot = b ++ joinLines chunks ∧
      List.Forall₂ (fun chunk n => ∃ p, chunk = p ++ nodeLabel n ++ "\n" ∧
        ('\n' ∉ pfx.data → '\n' ∉ p.data)) chunks tree.nodes := by
    intro b
    obtain ⟨l1, h1, f1⟩ := renderSubtreeLoop_records _ tree.Children (le_refl _)
      (if isRoot = true then b ++ (nodeLabel tree ++ "\n")
        else b ++ (pfx ++ nodeLabel tree ++ "\n")) pfx
    refine ⟨(if isRoot = true then nodeLabel tree ++ "\n" else pfx ++ nodeLabel tree ++ "\n")
      :: l1, ?_, ?_⟩
    · rw [renderTree_eq_loop, h1]
      cases isRoot <;> simp [joinLines, String.append_assoc]
    · rw [Node.nodes_eq]
      refine List.Forall₂.cons ?_ f1
      cases isRoot
      · exact ⟨pfx, by simp, fun h => h⟩
      · exact ⟨"", by simp, fun _ => by simp⟩
  refine ⟨?_, ?_⟩
  · obtain ⟨chunks, h1, f1⟩ := hrec b
    refine ⟨chunks, h1, f1.imp ?_⟩
    intro chunk n hchunk
    rw [← nodeLabel_eq]
    exact hchunk
  · intro hpfx hnames
    obtain ⟨chunks, h1, f1⟩ := hrec ""
    rw [h1, String.empty_append]
    refine linesOf_joinLines _ chunks tree.nodes (forall₂_imp_mem f1 ?_)
    rintro chunk n hn ⟨p, hchunk, hp⟩
    refine ⟨p ++ nodeLabel n, hchunk, ?_, p, ?_⟩
    · have hl := nodeLabel_no_line_break n (hnames n hn).1 (hnames n hn).2
      have hp' := hp hpfx
      simp [String.data_append, hl, hp']
    · rw [← nodeLabel_eq]

/-- Witness of C16: the symlink example with follow-symlinks enabled is
rendered as three lines for its three nodes. -/
theorem renderTree_one_line_per_node_witness :
    linesOf (renderTree "" linkTreeFollowed "" true) =
      ["root/", "└── link/ -> ../outside", "    └── a.txt"] ∧
    List.Forall₂
      (fun line n => ∃ indent, line = indent ++
        (n.Name ++ (if n.IsDir = true then "/" else "") ++
          (if n.IsSymlink = true ∧ n.LinkTarget ≠ "" then " -> " ++ n.LinkTarget else "")))
      (linesOf (renderTree "" linkTreeFollowed "" true)) linkTreeFollowed.nodes :=
  ⟨by decide, (renderTree_one_line_per_node "" linkTreeFollowed "" true).2 (by decide)
    (by decide)⟩

theorem buildEntries_directory (env : Env) (cfg : Config) (filt : Option Filter)
    (recur : String → Node → Int → visitedSet → Counts → Option BuildResult)
    (absPath : String) (depth : Int) (de : DirEntry) (rest : List DirEntry)
    (node : Node) (visited : visitedSet) (counts : Counts) (fi : FileInfo) (real : String)
    (hl : env.Lstat (filepathJoin env absPath de.Name) = .ok fi)
    (hs : fi.IsSymlink = false) (hd : de.IsDir = true)
    (hp : pruned env filt ⟨filepathJoin env absPath de.Name, entryRel env node de.Name,
      de.Name, de.IsDir, fi.IsSymlink⟩ = false)
    (hc : canonicalPath env (filepathJoin env absPath de.Name) = .ok real) :
    buildEntries env cfg filt recur absPath depth (de :: rest) node visited counts =
      if visited.Seen real = true then
        buildEntries env cfg filt recur absPath depth rest
          (node.appendChild ⟨de.Name, entryRel env node de.Name, true, false, "", []⟩)
          visited (counts.bump true false)
      else
        descend recur (buildEntries env cfg filt recur absPath depth rest) node
          (filepathJoin env absPath de.Name)
          ⟨de.Name, entryRel env node de.Name, true, false, "", []⟩ (depth + 1)
          (visited.Add real) (counts.bump true false) := by
  rw [buildEntries_cons]
  have ha : entryAction env cfg filt absPath depth de node visited counts =
      if visited.Seen real = true then
        .leaf ⟨de.Name, entryRel env node de.Name, true, false, "", []⟩ visited
          (counts.bump true false)
      else .expand ⟨de.Name, entryRel env node de.Name, true, false, "", []⟩
          (visited.Add real) (counts.bump true false) := by
    have hp' := hp
    rw [hd, hs] at hp'
    unfold entryAction
    simp only [hl, hp', hs, hd, hc, entryLinkTarget, Bool.false_eq_true, if_false, if_true]
  rw [ha]
  by_cases hseen : visited.Seen real = true
  · rw [if_pos hseen, if_pos hseen]
  · rw [if_neg hseen, if_neg hseen]

theorem reachableChildren_mem (env : Env)
    (recur : String → Node → Option (Node × List String)) (absPath parentRel : String) :
    ∀ (es : List DirEntry) (kids : List Node) (dirs : List String),
      reachableChildren env recur absPath parentRel es = some (kids, dirs) →
      ∀ de ∈ es, ∃ fi kid, env.Lstat (filepathJoin env absPath de.Name) = .ok fi ∧
        kid ∈ kids ∧
        (((de.IsDir && !fi.IsSymlink) = true ∧ ∃ child ds0, child.Name = de.Name ∧
            recur (filepathJoin env absPath de.Name) child = some (kid, ds0)) ∨
          ((de.IsDir && !fi.IsSymlink) = false ∧ kid.Name = de.Name)) := by
  intro es
  induction es with
  | nil => intro kids dirs _ de hde; exact absurd hde (List.not_mem_nil _)
  | cons e rest ih =>
    intro kids dirs h de hde
    obtain ⟨fi, t, ds, ts, ds', hl, rfl, rfl, hrest, hcase⟩ :=
      reachableChildren_cons env recur absPath parentRel e rest kids dirs h
    rcases List.mem_cons.mp hde with rfl | hde
    · refine ⟨fi, t, hl, List.mem_cons_self _ _, ?_⟩
      rcases hcase with ⟨hb, ds0, hrec, _⟩ | ⟨hb, _, rfl⟩
      · exact Or.inl ⟨hb, _, ds0, rfl, hrec⟩
      · exact Or.inr ⟨hb, rfl⟩
    · obtain ⟨fi', kid, hl', hkid, hc⟩ := ih ts ds' hrest de hde
      exact ⟨fi', kid, hl', List.mem_cons_of_mem _ hkid, hc⟩

theorem reachableTree_name (env : Env) (fuel : Nat) (p : String) (n t : Node)
    (dirs : List String) (h : reachableTree env fuel p n = some (t, dirs)) :
    t.Name = n.Name := by
  cases fuel with
  | zero => simp [reachableTree] at h
  | succ fuel =>
    rw [reachableTree] at h
    cases hrd : env.ReadDir p with
    | error e => rw [hrd] at h; simp at h
    | ok entries =>
      rw [hrd] at h
      simp only at h
      cases hk : reachableChildren env (reachableTree env fuel) p n.Rel
          (sortSlice (entryLess env) entries) with
      | none => rw [hk] at h; simp at h
      | some kd =>
        obtain ⟨kids, ds⟩ := kd
        rw [hk] at h
        simp only [Option.some.injEq, Prod.mk.injEq] at h
        rw [← h.1]

/-- The reachable tree holds every entry that exists below its directory. -/
theorem reachableTree_hasPath (env : Env) :
    ∀ (fuel : Nat) (p : String) (n t : Node) (dirs : List String),
      reachableTree env fuel p n = some (t, dirs) →
      ∀ names, entryBelow env p names → Node.hasPath names t := by
  intro fuel
  induction fuel with
  | zero => intro p n t dirs h; simp [reachableTree] at h
  | succ fuel ih =>
    intro p n t dirs h names hbelow
    cases names with
    | nil => trivial
    | cons name rest =>
      obtain ⟨entries, de, fi, hrd, hde, hname, hl, hmid, hrest⟩ := hbelow
      rw [reachableTree, hrd] at h
      simp only at h
      cases hk : reachableChildren env (reachableTree env fuel) p n.Rel
          (sortSlice (entryLess env) entries) with
      | none => rw [hk] at h; simp at h
      | some kd =>
        obtain ⟨kids, ds⟩ := kd
        rw [hk] at h
        simp only [Option.some.injEq, Prod.mk.injEq] at h
        obtain ⟨fi', kid, hl', hkid, hcase⟩ := reachableChildren_mem env _ p n.Rel _ kids ds hk
          de ((mem_sortSlice _ _ _).mpr hde)
        rw [hname, hl] at hl'
        cases hl'
        rw [← h.1]
        rw [hname] at hcase
        rcases hcase with ⟨_, child, ds0, hchild, hrec⟩ | ⟨hb, hkname⟩
        · refine ⟨kid, hkid, ?_, ih _ child kid ds0 hrec rest hrest⟩
          rw [reachableTree_name env fuel _ child kid ds0 hrec, hchild]
        · refine ⟨kid, hkid, hkname, ?_⟩
          cases rest with
          | nil => trivial
          | cons r rs =>
            obtain ⟨hd, hs⟩ := hmid (List.cons_ne_nil _ _)
            rw [hd, hs] at hb
            simp at hb

theorem hiddenLinkWalk :
    Walk hiddenLinkEnv 3 "/h" (followConfig "/h") (some (plainFilter "/h" (followConfig "/h"))) =
      some ⟨some hiddenLinkTree, ⟨2, 2, 1⟩, none⟩ := by
  rfl


/-- Counterexample to C9 as worded: `/h` holds `.git/config` and the symlink
`.a -> .git`. With follow-symlinks enabled and hidden-exclusion disabled no
rule excludes `.git/config`, which exists, yet the walk enters `.git` through
`.a` first and then leaves the directory `.git` childless: the tree has no
node for `.git/config`. With hidden-exclusion enabled the tree is the root
alone, so `.git/config` is one of the entries the option removes. -/
theorem dot_directory_closed_after_followed_link :
    (followConfig "/h").ExcludeHidden = false ∧
    Walk hiddenLinkEnv 3 "/h" (followConfig "/h")
        (some (plainFilter "/h" (followConfig "/h"))) =
      some ⟨some hiddenLinkTree, ⟨2, 2, 1⟩, none⟩ ∧
    entryBelow hiddenLinkEnv "/h" [".git", "config"] ∧
    ShouldExclude hiddenLinkEnv (plainFilter "/h" (followConfig "/h"))
        ⟨"/h/.git", ".git", ".git", true, false⟩ = false ∧
    ShouldExclude hiddenLinkEnv (plainFilter "/h" (followConfig "/h"))
        ⟨"/h/.git/config", ".git/config", "config", false, false⟩ = false ∧
    (∀ ch ∈ hiddenLinkTree.Children, ch.Name = ".git" → ch.Children = []) ∧
    ¬Node.hasPath [".git", "config"] hiddenLinkTree ∧
    Walk hiddenLinkEnv 3 "/h" { followConfig "/h" with ExcludeHidden := true }
        (some (plainFilter "/h" { followConfig "/h" with ExcludeHidden := true })) =
      some ⟨some ⟨"h", ".", true, false, "", []⟩, ⟨1, 0, 0⟩, none⟩ := by
  refine ⟨rfl, hiddenLinkWalk, ?_, rfl, rfl, ?_, ?_, rfl⟩
  · exact ⟨[⟨".a", false⟩, ⟨".git", true⟩], ⟨".git", true⟩, ⟨true, false⟩, rfl, by simp, rfl,
      rfl, fun _ => ⟨rfl, rfl⟩,
      [⟨"config", false⟩], ⟨"config", false⟩, ⟨false, false⟩, rfl, by simp, rfl, rfl,
      fun h => absurd rfl h, trivial⟩
  · intro ch hch hname
    simp only [hiddenLinkTree, List.mem_cons, List.mem_singleton, List.not_mem_nil,
      or_false] at hch
    rcases hch with rfl | rfl
    · exact absurd hname (by decide)
    · rfl
  · intro h
    obtain ⟨c, hc, hname, c', hc', _⟩ := h
    simp only [hiddenLinkTree, List.mem_cons, List.mem_singleton, List.not_mem_nil,
      or_false] at hc
    rcases hc with rfl | rfl
    · exact absurd hname (by decide)
    · exact absurd hc' (List.not_mem_nil _)

/-- C9 (amended): with hidden-exclusion enabled, no non-root node of the tree
returned by `Walk` has a name starting with `.` (so no node lies below such an
entry) and the counts count the nodes only; the option is the only difference
in the filter decision: enabling it excludes exactly the entries whose name
starts with `.` on top of what is excluded anyway. With the option disabled a
name starting with `.` plays no part: every entry of a directory the walk
lists that can be lstat-ed and that no rule excludes has a child node there,
and each node is counted once; a directory entry that is not a symlink and
that no rule excludes is appended childless when its canonical path was
already visited and handed to `buildTree` otherwise, whatever its name and
whatever the option; and with follow-symlinks
disabled, no depth limit, no exclusion rule and pairwise distinct canonical
paths of the directories reachable from a root directory, every entry that
exists below the root, the entries whose name starts with `.` and the
entries below them included, has a node at its place in the tree and is
counted. -/
theorem hidden_exclusion_only_removes_dot_entries (env : Env) (cfg : Config) (f : Filter) :
    (f.cfg.ExcludeHidden = true → ∀ fuel rootPath tree counts,
      Walk env fuel rootPath cfg (some f) = some ⟨some tree, counts, none⟩ →
      (∀ m ∈ tree.descendants, stringsHasPrefix m.Name "." = false) ∧
      counts.Dirs + counts.Files = 1 + tree.descendants.length) ∧
    (∀ e, ShouldExclude env (f.withHidden true) e =
      (stringsHasPrefix e.Name "." || ShouldExclude env (f.withHidden false) e)) ∧
    (f.cfg.ExcludeHidden = false → ∀ fuel absPath node depth visited counts r entries,
      buildTree env cfg (some f) fuel absPath node depth visited counts = some r →
      node.IsDir = true → ¬(0 < cfg.MaxDepth ∧ cfg.MaxDepth ≤ depth) →
      env.ReadDir absPath = .ok entries →
      (∀ de ∈ entries, ∀ fi, env.Lstat (filepathJoin env absPath de.Name) = .ok fi →
        ShouldExclude env f ⟨filepathJoin env absPath de.Name, entryRel env node de.Name,
          de.Name, de.IsDir, fi.IsSymlink⟩ = false →
        ∃ ch ∈ r.node.Children, ch.Name = de.Name ∧ ch.Rel = entryRel env node de.Name ∧
          ch.IsSymlink = fi.IsSymlink) ∧
      r.counts.Dirs + r.counts.Files + node.size = counts.Dirs + counts.Files + r.node.size) ∧
    (∀ recur absPath depth de rest node visited counts fi real,
      env.Lstat (filepathJoin env absPath de.Name) = .ok fi →
      fi.IsSymlink = false → de.IsDir = true →
      ShouldExclude env f ⟨filepathJoin env absPath de.Name, entryRel env node de.Name,
        de.Name, de.IsDir, fi.IsSymlink⟩ = false →
      canonicalPath env (filepathJoin env absPath de.Name) = .ok real →
      buildEntries env cfg (some f) recur absPath depth (de :: rest) node visited counts =
        if visited.Seen real = true then
          buildEntries env cfg (some f) recur absPath depth rest
            (node.appendChild ⟨de.Name, entryRel env node de.Name, true, false, "", []⟩)
            visited (counts.bump true false)
        else
          descend recur (buildEntries env cfg (some f) recur absPath depth rest) node
            (filepathJoin env absPath de.Name)
            ⟨de.Name, entryRel env node de.Name, true, false, "", []⟩ (depth + 1)
            (visited.Add real) (counts.bump true false)) ∧
    (f.cfg = cfg → cfg.ExcludeHidden = false → cfg.Exclude = [] → cfg.ExcludeDir = [] →
      cfg.ExcludeFile = [] → cfg.UseGitignore = false → cfg.MaxDepth = 0 →
      cfg.FollowSymlinks = false →
      ∀ fuel rootPath absRoot st t dirs,
        env.Abs rootPath = .ok absRoot → env.Lstat absRoot = .ok st → st.IsDir = true →
        reachableFromRoot env fuel absRoot st = some (t, dirs) →
        (dirs.filterMap (canonicalKey env)).Nodup →
        ∃ tree counts, Walk env fuel rootPath cfg (some f) = some ⟨some tree, counts, none⟩ ∧
          (∀ names, entryBelow env absRoot names → Node.hasPath names tree) ∧
          counts.Dirs + counts.Files = tree.size) := by
  refine ⟨?_, ShouldExclude_withHidden env f, ?_, ?_, ?_⟩
  · intro hon fuel rootPath tree counts h
    refine ⟨?_, Walk_counts_descendants h⟩
    intro m hm
    obtain ⟨rawIsDir, _, hacc⟩ := Walk_accepted h m hm
    have hf : f = f.withHidden true := by
      obtain ⟨⟨a1, a2, a3, a4, a5, a6, a7, a8, a9⟩, b, c, d⟩ := f
      simp only at hon
      subst hon
      rfl
    have h1 := hacc ""
    rw [hf, ShouldExclude_withHidden] at h1
    simp only [Bool.or_eq_false_iff] at h1
    exact h1.1
  · intro _ fuel absPath node depth visited counts r entries h hd hg hrd
    exact ⟨buildTree_present env cfg (some f) fuel absPath node depth visited counts r entries
      h hd hg hrd, buildTree_counts env cfg (some f) fuel absPath node depth visited counts r h⟩
  · intro recur absPath depth de rest node visited counts fi real hl hs hd hp hc
    exact buildEntries_directory env cfg (some f) recur absPath depth de rest node visited
      counts fi real hl hs hd hp hc
  · intro hf h5 h1 h2 h3 h4 hdepth hfollow fuel rootPath absRoot st t dirs ha hl hd hreach hnd
    have hpr := pruned_of_no_rules env cfg (some f)
      (fun f' hf' => by cases hf'; exact hf) h1 h2 h3 h4 h5
    unfold reachableFromRoot at hreach
    rw [hd] at hreach
    simp only [if_true] at hreach
    obtain ⟨v', c', hb, _⟩ := buildTree_reachable env cfg (some f) hfollow hdepth hpr fuel
      absRoot _ 0 [] (rootCountsOf st) t dirs hreach (by simp [rootNodeOf, hd]) rfl hnd
      (fun x _ => List.not_mem_nil x)
    refine ⟨t, c', ?_, reachableTree_hasPath env fuel absRoot _ t dirs hreach, ?_⟩
    · rw [Walk_eq, ha]
      simp only [hl, hb]
    · have := buildTree_counts env cfg (some f) fuel absRoot _ 0 [] _ _ hb
      rw [rootNodeOf_size, rootCountsOf_sum] at this
      simp only at this
      omega


/-- Witness of C9: `/h` holds `.git/config`, `.env` and `a.txt`. Enabled, only
`a.txt` remains (one directory, one file); disabled, `.git` is a child of the
root, it is handed to `buildTree`, `.git/config` has its node and all five
nodes are counted. -/
theorem hidden_exclusion_only_removes_dot_entries_witness :
    Walk hiddenEnv 3 "/h" (plainConfig "/h") (some (plainFilter "/h" (plainConfig "/h"))) =
      some ⟨some hiddenTreeOff, ⟨2, 3, 0⟩, none⟩ ∧
    (Walk hiddenEnv 3 "/h" { plainConfig "/h" with ExcludeHidden := true }
        (some (plainFilter "/h" { plainConfig "/h" with ExcludeHidden := true })) =
      some ⟨some hiddenTreeOn, ⟨1, 1, 0⟩, none⟩ ∧
      (∀ m ∈ hiddenTreeOn.descendants, stringsHasPrefix m.Name "." = false) ∧
      (1 : Nat) + 1 = 1 + hiddenTreeOn.descendants.length) ∧
    (∃ ch ∈ hiddenTreeOff.Children, ch.Name = ".git" ∧
        ch.Rel = entryRel hiddenEnv (rootNodeOf hiddenEnv "/h" ⟨true, false⟩) ".git" ∧
        ch.IsSymlink = false) ∧
    (2 : Nat) + 3 + (rootNodeOf hiddenEnv "/h" ⟨true, false⟩).size =
      (rootCountsOf ⟨true, false⟩).Dirs + (rootCountsOf ⟨true, false⟩).Files +
        hiddenTreeOff.size ∧
    buildEntries hiddenEnv (plainConfig "/h") (some (plainFilter "/h" (plainConfig "/h")))
        (buildTree hiddenEnv (plainConfig "/h") (some (plainFilter "/h" (plainConfig "/h"))) 2)
        "/h" 0 [⟨".git", true⟩, ⟨"a.txt", false⟩] (rootNodeOf hiddenEnv "/h" ⟨true, false⟩) []
        (rootCountsOf ⟨true, false⟩) =
      (if visitedSet.Seen [] "/h/.git" = true then
        buildEntries hiddenEnv (plainConfig "/h") (some (plainFilter "/h" (plainConfig "/h")))
          (buildTree hiddenEnv (plainConfig "/h") (some (plainFilter "/h" (plainConfig "/h")))
            2)
          "/h" 0 [⟨"a.txt", false⟩]
          ((rootNodeOf hiddenEnv "/h" ⟨true, false⟩).appendChild
            ⟨".git", entryRel hiddenEnv (rootNodeOf hiddenEnv "/h" ⟨true, false⟩) ".git", true,
              false, "", []⟩)
          [] ((rootCountsOf ⟨true, false⟩).bump true false)
      else
        descend
          (buildTree hiddenEnv (plainConfig "/h") (some (plainFilter "/h" (plainConfig "/h")))
            2)
          (buildEntries hiddenEnv (plainConfig "/h")
            (some (plainFilter "/h" (plainConfig "/h")))
            (buildTree hiddenEnv (plainConfig "/h")
              (some (plainFilter "/h" (plainConfig "/h"))) 2)
            "/h" 0 [⟨"a.txt", false⟩])
          (rootNodeOf hiddenEnv "/h" ⟨true, false⟩) (filepathJoin hiddenEnv "/h" ".git")
          ⟨".git", entryRel hiddenEnv (rootNodeOf hiddenEnv "/h" ⟨true, false⟩) ".git", true,
            false, "", []⟩
          (0 + 1) (visitedSet.Add [] "/h/.git") ((rootCountsOf ⟨true, false⟩).bump true false)) ∧
    entryBelow hiddenEnv "/h" [".git", "config"] ∧
    ∃ tree counts,
      Walk hiddenEnv 3 "/h" (plainConfig "/h") (some (plainFilter "/h" (plainConfig "/h"))) =
        some ⟨some tree, counts, none⟩ ∧
      (∀ names, entryBelow hiddenEnv "/h" names → Node.hasPath names tree) ∧
      counts.Dirs + counts.Files = tree.size :=
  ⟨hiddenWalk_off, ⟨hiddenWalk_on,
      (hidden_exclusion_only_removes_dot_entries hiddenEnv
        { plainConfig "/h" with ExcludeHidden := true }
        (plainFilter "/h" { plainConfig "/h" with ExcludeHidden := true })).1 rfl 3 "/h" _ _
        hiddenWalk_on⟩,
    ((hidden_exclusion_only_removes_dot_entries hiddenEnv (plainConfig "/h")
        (plainFilter "/h" (plainConfig "/h"))).2.2.1 rfl 3 "/h" _ 0 [] _ _
        [⟨".git", true⟩, ⟨".env", false⟩, ⟨"a.txt", false⟩] hiddenBuild_off rfl (by decide)
        rfl).1 ⟨".git", true⟩ (by simp) ⟨true, false⟩ rfl rfl,
    ((hidden_exclusion_only_removes_dot_entries hiddenEnv (plainConfig "/h")
        (plainFilter "/h" (plainConfig "/h"))).2.2.1 rfl 3 "/h" _ 0 [] _ _
        [⟨".git", true⟩, ⟨".env", false⟩, ⟨"a.txt", false⟩] hiddenBuild_off rfl (by decide)
        rfl).2,
    (hidden_exclusion_only_removes_dot_entries hiddenEnv (plainConfig "/h")
        (plainFilter "/h" (plainConfig "/h"))).2.2.2.1
        (buildTree hiddenEnv (plainConfig "/h") (some (plainFilter "/h" (plainConfig "/h"))) 2)
        "/h" 0 ⟨".git", true⟩ [⟨"a.txt", false⟩] (rootNodeOf hiddenEnv "/h" ⟨true, false⟩) []
        (rootCountsOf ⟨true, false⟩) ⟨true, false⟩ "/h/.git" rfl rfl rfl rfl rfl,
    ⟨[⟨".git", true⟩, ⟨".env", false⟩, ⟨"a.txt", false⟩], ⟨".git", true⟩, ⟨true, false⟩, rfl,
      by simp, rfl, rfl, fun _ => ⟨rfl, rfl⟩,
      [⟨"config", false⟩], ⟨"config", false⟩, ⟨false, false⟩, rfl, by simp, rfl, rfl,
      fun h => absurd rfl h, trivial⟩,
    (hidden_exclusion_only_removes_dot_entries hiddenEnv (plainConfig "/h")
        (plainFilter "/h" (plainConfig "/h"))).2.2.2.2 rfl rfl rfl rfl rfl rfl rfl rfl
        3 "/h" "/h" ⟨true, false⟩ hiddenTreeOff ["/h/.git"] rfl rfl rfl rfl (by decide)⟩


end Gotree
